import Mathlib

/-!
Student record store: embedding of `Student` and `StudentManager`.

The C++ class `StudentManager` owns a `std::vector<Student>` and a file name.
The vector is modelled by a `List Student`; every member function becomes a
function from the vector before the call to its return value and the vector
after the call.  Text written to `std::cout` is not part of the state and is
only modelled for `loadFromFile`, whose skip warnings are returned as a list.

* `int` fields are `Int`; the range of `int` matters only in `std::stoi` and is
  stated as `IsInt` where it is needed;
* `std::string` is `List Char`;
* `double` is `Dbl`: the values of IEEE 754 binary64, a finite one given by
  its exact rational value, with both zeros, both infinities and one NaN;
  literals, sums and quotients are rounded to the nearest double, ties to
  even;
* the bound file is its text, `none` when the stream cannot be opened;
* the numeric conversions of the C++ standard library are a parameter
  (`NumConv`), with the conversions of glibc in the "C" locale
  (`CLocale.conv`) as the instance the embedding is evaluated on;
* `std::sort` is a parameter bound by the contract the C++ standard gives it
  (`IsStdSort`); `Stl.sort` is the function libstdc++ implements it by, which
  is proved to meet the contract (`Stl.sort_spec`) and on which the sorts are
  evaluated where the result depends on the implementation: the order of
  equivalent elements, and comparators that are no strict weak ordering on
  the range;
* `std::string::find`, `std::max_element` and `std::min_element`, whose
  results the C++ standard determines, are modelled by `stringFind`,
  `maxElement` and `minElement`.
-/

/-! ## The type `double` -/

/-- Values of the C++ type `double` (IEEE 754 binary64): a finite value is
given by its exact rational value, with `finite 0` for `+0.0` and `negZero` for
`-0.0`; all NaNs are one value. -/
inductive Dbl where
  | finite (q : ℚ)
  | negZero
  | posInf
  | negInf
  | nan
deriving DecidableEq

namespace Dbl

/-- Quotient `n / d` rounded to the nearest natural number, ties to even. -/
def nearestEven (n d : Nat) : Nat :=
  if 2 * (n % d) < d then n / d
  else if d < 2 * (n % d) then n / d + 1
  else if (n / d) % 2 = 0 then n / d else n / d + 1

/-- For `d ≤ n`: the largest `k` with `d * 2 ^ k ≤ n`. -/
def binExpUp : Nat → Nat → Nat → Nat
  | 0, _, _ => 0
  | fuel + 1, n, d => if d * 2 ≤ n then binExpUp fuel n (d * 2) + 1 else 0

/-- For `0 < n < d`: the least `k` with `d ≤ n * 2 ^ k`. -/
def binExpDown : Nat → Nat → Nat → Nat
  | 0, _, _ => 1
  | fuel + 1, n, d => if d ≤ n * 2 then 1 else binExpDown fuel (n * 2) d + 1

/-- Binary exponent of the positive rational `n / d`: the `e` with
`2 ^ e ≤ n / d < 2 ^ (e + 1)`. -/
def binExp (n d : Nat) : Int :=
  if d ≤ n then (binExpUp n n d : Int) else -(binExpDown d n d : Int)

/-- The multiple `m * 2 ^ p` nearest to `n / d`, ties to even `m`. -/
def nearestMultiple (n d : Nat) (p : Int) : ℚ :=
  if 0 ≤ p then ((nearestEven n (d * 2 ^ p.toNat) * 2 ^ p.toNat : Nat) : ℚ)
  else mkRat (nearestEven (n * 2 ^ (-p).toNat) d) (2 ^ (-p).toNat)

/-- Magnitude of the binary64 value nearest to the positive rational `n / d`:
53 significant bits, exponent not below that of the subnormal numbers. -/
def roundMagnitude (n d : Nat) : ℚ :=
  nearestMultiple n d (max (binExp n d) (-1022) - 52)

/-- Rounding of a real number to `double` in the default rounding mode (to
nearest, ties to even); magnitudes that round to `2 ^ 1024` or more overflow
to an infinity, and a negative number that rounds to zero gives `-0.0`. -/
def round (q : ℚ) : Dbl :=
  if q = 0 then finite 0
  else if 2 ^ 1024 ≤ roundMagnitude q.num.natAbs q.den then
    (if q < 0 then negInf else posInf)
  else if q < 0 then
    (if roundMagnitude q.num.natAbs q.den = 0 then negZero
     else finite (-roundMagnitude q.num.natAbs q.den))
  else finite (roundMagnitude q.num.natAbs q.den)

/-- `a < b` on doubles: false when an operand is NaN. -/
def lt : Dbl → Dbl → Bool
  | nan, _ => false
  | _, nan => false
  | posInf, _ => false
  | _, negInf => false
  | _, posInf => true
  | negInf, _ => true
  | finite x, finite y => decide (x < y)
  | finite x, negZero => decide (x < 0)
  | negZero, finite y => decide (0 < y)
  | negZero, negZero => false

/-- `a <= b` on doubles: false when an operand is NaN. -/
def le : Dbl → Dbl → Bool
  | nan, _ => false
  | _, nan => false
  | _, posInf => true
  | negInf, _ => true
  | posInf, _ => false
  | _, negInf => false
  | finite x, finite y => decide (x ≤ y)
  | finite x, negZero => decide (x ≤ 0)
  | negZero, finite y => decide (0 ≤ y)
  | negZero, negZero => true

/-- `a + b` on doubles. -/
def add : Dbl → Dbl → Dbl
  | nan, _ => nan
  | _, nan => nan
  | posInf, negInf => nan
  | negInf, posInf => nan
  | posInf, _ => posInf
  | _, posInf => posInf
  | negInf, _ => negInf
  | _, negInf => negInf
  | negZero, negZero => negZero
  | negZero, finite y => finite y
  | finite x, negZero => finite x
  | finite x, finite y => round (x + y)

/-- Whether the sign bit of a value is set (false for NaN). -/
def signBit : Dbl → Bool
  | finite q => decide (q < 0)
  | negZero => true
  | negInf => true
  | _ => false

/-- `a / b` on doubles. -/
def div : Dbl → Dbl → Dbl
  | nan, _ => nan
  | _, nan => nan
  | posInf, posInf => nan
  | posInf, negInf => nan
  | negInf, posInf => nan
  | negInf, negInf => nan
  | posInf, b => if signBit b then negInf else posInf
  | negInf, b => if signBit b then posInf else negInf
  | a, posInf => if signBit a then negZero else finite 0
  | a, negInf => if signBit a then finite 0 else negZero
  | negZero, negZero => nan
  | negZero, finite y => if y = 0 then nan else if y < 0 then finite 0 else negZero
  | finite x, negZero =>
    if x = 0 then nan else if x < 0 then posInf else negInf
  | finite x, finite y =>
    if y = 0 then (if x = 0 then nan else if x < 0 then negInf else posInf)
    else if x = 0 then (if y < 0 then negZero else finite 0)
    else round (x / y)

/-- Conversion of a `size_t` to `double`. -/
def ofNat (n : Nat) : Dbl := round (n : ℚ)

instance : OfScientific Dbl := ⟨fun m s e => round (OfScientific.ofScientific m s e)⟩

instance (n : Nat) : OfNat Dbl n := ⟨ofNat n⟩

/-- Whether a value is finite. -/
def isFinite : Dbl → Bool
  | finite _ => true
  | negZero => true
  | _ => false

/-- The real number a finite value stands for; 0 for the other values. -/
def toRat : Dbl → ℚ
  | finite q => q
  | _ => 0

/-- Whether a value is a NaN. -/
def isNaN : Dbl → Bool
  | nan => true
  | _ => false

/-- Position of a value that is not a NaN on the extended real line. -/
def extended : Dbl → WithBot (WithTop ℚ)
  | finite q => ((q : WithTop ℚ) : WithBot (WithTop ℚ))
  | negZero => (((0 : ℚ) : WithTop ℚ) : WithBot (WithTop ℚ))
  | posInf => ((⊤ : WithTop ℚ) : WithBot (WithTop ℚ))
  | negInf => ⊥
  | nan => ⊥

/-- `a > b` on doubles. -/
def gt (a b : Dbl) : Bool := lt b a

/-- `a >= b` on doubles. -/
def ge (a b : Dbl) : Bool := le b a

/-- `a == b` on doubles: false when an operand is NaN, true on the two
zeros. -/
def eq (a b : Dbl) : Bool := le a b && le b a

end Dbl

/-- Embedding of `class Student` (Student.h): the six data members. -/
structure Student where
  id : Int
  name : List Char
  age : Int
  gender : List Char
  major : List Char
  gpa : Dbl
deriving DecidableEq

namespace StudentManager

/-- Loop of `StudentManager::findStudentIndex`, started at index `i`: the index
of the first record whose identifier is `id`, or `-1`.  The cast of the index
to `int` is exact for vectors of fewer than 2³¹ records. -/
def findStudentIndexFrom (id : Int) : List Student → Nat → Int
  | [], _ => -1
  | s :: rest, i => if s.id = id then (i : Int) else findStudentIndexFrom id rest (i + 1)

/-- Embedding of `StudentManager::findStudentIndex`. -/
def findStudentIndex (students : List Student) (id : Int) : Int :=
  findStudentIndexFrom id students 0

/-- Embedding of `StudentManager::isValidId`. -/
def isValidId (students : List Student) (id : Int) : Bool :=
  decide (findStudentIndex students id = -1)

/-- Embedding of `StudentManager::addStudent`: return value and vector afterwards. -/
def addStudent (students : List Student) (student : Student) : Bool × List Student :=
  if !isValidId students student.id then
    (false, students)
  else
    (true, students ++ [student])

/-- Embedding of `StudentManager::deleteStudent`: return value and vector afterwards. -/
def deleteStudent (students : List Student) (id : Int) : Bool × List Student :=
  let index := findStudentIndex students id
  if index = -1 then
    (false, students)
  else
    (true, students.eraseIdx index.toNat)

/-- Embedding of `StudentManager::updateStudent`: return value and vector afterwards. -/
def updateStudent (students : List Student) (id : Int) (newInfo : Student) :
    Bool × List Student :=
  let index := findStudentIndex students id
  if index = -1 then
    (false, students)
  else
    (true, students.set index.toNat newInfo)

/-- Embedding of `StudentManager::findStudent`: `none` is the null pointer,
`some s` the record the returned pointer refers to. -/
def findStudent (students : List Student) (id : Int) : Option Student :=
  let index := findStudentIndex students id
  if index = -1 then
    none
  else
    students[index.toNat]?

/-- Embedding of `StudentManager::clearAllStudents`. -/
def clearAllStudents (_students : List Student) : List Student := []

/-! ## Persistence: `saveToFile` and `loadFromFile`

The file is modelled by its text (`List Char`), `none` when the stream fails to
open.  The numeric conversions come from the C++ standard library, not from the
repository, and are parameters of the embedding. -/

end StudentManager

/-- Conversions of the C++ standard library that `saveToFile` and
`loadFromFile` call.  `stoi` and `stod` yield `none` where the library function
throws (`std::invalid_argument`, `std::out_of_range`). -/
structure NumConv where
  /-- `std::ostream::operator<<(int)`. -/
  showInt : Int → List Char
  /-- `std::ostream::operator<<(double)` on a stream with default flags. -/
  showDouble : Dbl → List Char
  /-- `std::stoi(const std::string&)`. -/
  stoi : List Char → Option Int
  /-- `std::stod(const std::string&)`. -/
  stod : List Char → Option Dbl

namespace StudentManager

/-- The loop `while (std::getline(stream, item, delim)) items.push_back(item);`
on a stream whose unread text is the second argument; the first argument is the
text extracted so far by the current `getline`.  At the end of the stream a
`getline` that extracted nothing fails, and the loop ends. -/
def getlineLoop (delim : Char) : List Char → List Char → List (List Char)
  | item, [] => if item.isEmpty then [] else [item]
  | item, c :: rest =>
    if c = delim then item :: getlineLoop delim [] rest
    else getlineLoop delim (item ++ [c]) rest

/-- All the items the `getline` loop extracts from a stream holding `text`. -/
def getlineAll (delim : Char) (text : List Char) : List (List Char) :=
  getlineLoop delim [] text

/-- The line `saveToFile` writes for one record, `std::endl` included. -/
def saveRecord (L : NumConv) (s : Student) : List Char :=
  L.showInt s.id ++ [','] ++ s.name ++ [','] ++ L.showInt s.age ++ [','] ++
    s.gender ++ [','] ++ s.major ++ [','] ++ L.showDouble s.gpa ++ ['\n']

/-- The text the loop of `saveToFile` writes for the whole vector. -/
def saveText (L : NumConv) : List Student → List Char
  | [] => []
  | s :: rest => saveRecord L s ++ saveText L rest

/-- Embedding of `StudentManager::saveToFile`; `opened` is `file.is_open()`.
Returns the return value and the new content of the file (`none`: nothing
written). -/
def saveToFile (L : NumConv) (students : List Student) (opened : Bool) :
    Bool × Option (List Char) :=
  if !opened then
    (false, none)
  else
    (true, some (saveText L students))

/-- The `try` block of `loadFromFile` on the six tokens of a line: the record
built by `emplace_back`, or `none` when `std::stoi` or `std::stod` throws. -/
def parseTokens (L : NumConv) (t0 t1 t2 t3 t4 t5 : List Char) : Option Student :=
  match L.stoi t0, L.stoi t2, L.stod t5 with
  | some id, some age, some gpa => some ⟨id, t1, age, t3, t4, gpa⟩
  | _, _, _ => none

/-- Body of the `while (std::getline(file, line))` loop of `loadFromFile` for
one line: the vector and the warnings printed so far, before and after.  A
warning is recorded as the line it names. -/
def loadLine (L : NumConv) (line : List Char)
    (acc : List Student × List (List Char)) : List Student × List (List Char) :=
  if line.isEmpty then acc
  else
    match getlineAll ',' line with
    | [t0, t1, t2, t3, t4, t5] =>
      match parseTokens L t0 t1 t2 t3 t4 t5 with
      | some s => (acc.1 ++ [s], acc.2)
      | none => (acc.1, acc.2 ++ [line])
    | _ => acc

/-- The line loop of `loadFromFile` over the lines still to read. -/
def loadLines (L : NumConv) :
    List (List Char) → List Student × List (List Char) → List Student × List (List Char)
  | [], acc => acc
  | line :: rest, acc => loadLines L rest (loadLine L line acc)

/-- Embedding of `StudentManager::loadFromFile`.  `file` is the text of the
bound file, `none` when it cannot be opened.  Returns the return value, the
vector afterwards and the skip warnings printed. -/
def loadFromFile (L : NumConv) (students : List Student) (file : Option (List Char)) :
    Bool × List Student × List (List Char) :=
  match file with
  | none => (true, students, [])
  | some text =>
    let r := loadLines L (getlineAll '\n' text) ([], [])
    (true, r.1, r.2)

/-- The values of the C++ type `int`. -/
abbrev IsInt (n : Int) : Prop := -2147483648 ≤ n ∧ n ≤ 2147483647

/-- A text without comma and without newline. -/
abbrev PlainText (t : List Char) : Prop := ',' ∉ t ∧ '\n' ∉ t

/-- Contract of the integer conversions: the text written for an `int` has no
comma and no newline, and `std::stoi` reads the `int` back from it. -/
abbrev IntRoundTrip (L : NumConv) : Prop :=
  ∀ n : Int, IsInt n → PlainText (L.showInt n) ∧ L.stoi (L.showInt n) = some n

/-- The double `g` survives being written and read back: its text is not
empty, has no comma and no newline, and `std::stod` reads `g` from it. -/
abbrev GpaSurvives (L : NumConv) (g : Dbl) : Prop :=
  PlainText (L.showDouble g) ∧ L.showDouble g ≠ [] ∧ L.stod (L.showDouble g) = some g

/-- The conditions under which the line written for a record is read back as
that record. -/
abbrev Survives (L : NumConv) (s : Student) : Prop :=
  IsInt s.id ∧ IsInt s.age ∧ PlainText s.name ∧ PlainText s.gender ∧ PlainText s.major ∧
    GpaSurvives L s.gpa

end StudentManager

/-! ## The specification's reading of a line

Definitions that follow the words of the specification, to be compared with
the tokenizer of `loadFromFile`. -/

namespace Spec

/-- Comma-separated fields in the usual sense, the current field being
collected in the first argument: `n` commas separate `n + 1` fields, empty
fields included. -/
def commaFieldsLoop : List Char → List Char → List (List Char)
  | field, [] => [field]
  | field, c :: rest =>
    if c = ',' then field :: commaFieldsLoop [] rest
    else commaFieldsLoop (field ++ [c]) rest

/-- The comma-separated fields of a line. -/
def commaFields (line : List Char) : List (List Char) := commaFieldsLoop [] line

/-- The record of a line as the specification words it: the line splits into
exactly 6 comma-separated fields and the numeric ones parse. -/
def recordOfLine (L : NumConv) (line : List Char) : Option Student :=
  match commaFields line with
  | [t0, t1, t2, t3, t4, t5] => StudentManager.parseTokens L t0 t1 t2 t3 t4 t5
  | _ => none

/-- The fields of a line without one trailing empty field. -/
def dropTrailingEmpty (fields : List (List Char)) : List (List Char) :=
  if fields.getLast? = some [] then fields.dropLast else fields

/-- The record of a line once a trailing empty field is not counted. -/
def recordOfTokens (L : NumConv) (line : List Char) : Option Student :=
  match dropTrailingEmpty (commaFields line) with
  | [t0, t1, t2, t3, t4, t5] => StudentManager.parseTokens L t0 t1 t2 t3 t4 t5
  | _ => none

end Spec

/-! ## A model of the library conversions in the "C" locale

Used to evaluate `saveToFile` and `loadFromFile` on concrete inputs: the
conversions of glibc, as libstdc++ calls them. -/

namespace CLocale

/-- `isspace` in the "C" locale. -/
def isSpace (c : Char) : Bool :=
  c = ' ' || c = '\t' || c = '\n' || c = '\x0b' || c = '\x0c' || c = '\r'

/-- `isdigit`. -/
def isDigit (c : Char) : Bool := decide ('0' ≤ c) && decide (c ≤ '9')

/-- The character of a decimal digit. -/
def digitChar (d : Nat) : Char := Char.ofNat (48 + d)

/-- Decimal digits of a natural number, most significant first, prepended to
`acc`; `fuel` bounds the number of digits. -/
def showNatLoop : Nat → Nat → List Char → List Char
  | 0, _, acc => acc
  | fuel + 1, n, acc =>
    if n / 10 = 0 then digitChar (n % 10) :: acc
    else showNatLoop fuel (n / 10) (digitChar (n % 10) :: acc)

/-- Decimal rendering of a natural number. -/
def showNat (n : Nat) : List Char := showNatLoop (n + 1) n []

/-- `operator<<(int)`: decimal digits, with a minus sign when negative. -/
def showInt (n : Int) : List Char :=
  if n < 0 then '-' :: showNat n.natAbs else showNat n.natAbs

/-- Value of a run of decimal digits. -/
def digitsValue (ds : List Char) : Nat :=
  ds.foldl (fun a c => 10 * a + (c.toNat - 48)) 0

/-- An optional sign: whether it is a minus, and the text after it. -/
def takeSign : List Char → Bool × List Char
  | '-' :: t => (true, t)
  | '+' :: t => (false, t)
  | s => (false, s)

/-- `std::stoi` in base 10: leading white space is skipped, then an optional
sign and a non-empty run of digits are read and the rest is ignored; no digit
throws `std::invalid_argument`, a value outside `int` throws
`std::out_of_range`. -/
def stoi (s : List Char) : Option Int :=
  let r := takeSign (s.dropWhile isSpace)
  let ds := r.2.takeWhile isDigit
  if ds.isEmpty then none
  else
    let v : Int := if r.1 then -(digitsValue ds : Int) else (digitsValue ds : Int)
    if -2147483648 ≤ v ∧ v ≤ 2147483647 then some v else none

/-- Quotient `n / d` rounded to the nearest natural number, ties to even. -/
def roundHalfEven (n d : Nat) : Nat :=
  if 2 * (n % d) < d then n / d
  else if d < 2 * (n % d) then n / d + 1
  else if (n / d) % 2 = 0 then n / d else n / d + 1

/-- For `d ≤ n`: the largest `k` with `d * 10 ^ k ≤ n`. -/
def decExpUp : Nat → Nat → Nat → Nat
  | 0, _, _ => 0
  | fuel + 1, n, d => if d * 10 ≤ n then decExpUp fuel n (d * 10) + 1 else 0

/-- For `0 < n < d`: the least `k` with `d ≤ n * 10 ^ k`. -/
def decExpDown : Nat → Nat → Nat → Nat
  | 0, _, _ => 1
  | fuel + 1, n, d => if d ≤ n * 10 then 1 else decExpDown fuel (n * 10) d + 1

/-- Decimal exponent of the positive rational `n / d`. -/
def decExp (n d : Nat) : Int :=
  if d ≤ n then (decExpUp n n d : Int) else -(decExpDown d n d : Int)

/-- The quotient `n / d` scaled to six significant digits at exponent `x`. -/
def sixDigits (n d : Nat) (x : Int) : Nat :=
  if x ≤ 5 then roundHalfEven (n * 10 ^ (5 - x).toNat) d
  else roundHalfEven n (d * 10 ^ (x - 5).toNat)

/-- Removal of trailing zeros. -/
def stripZeros (ds : List Char) : List Char :=
  (ds.reverse.dropWhile (fun c => c = '0')).reverse

/-- A fraction part with its decimal point, nothing when it is empty. -/
def fracPart (ds : List Char) : List Char :=
  if (stripZeros ds).isEmpty then [] else '.' :: stripZeros ds

/-- The conversion `%g` with precision 6 of the positive rational `n / d`. -/
def showPos (n d : Nat) : List Char :=
  let x0 := decExp n d
  let m0 := sixDigits n d x0
  let x := if m0 = 1000000 then x0 + 1 else x0
  let ds := showNat (if m0 = 1000000 then 100000 else m0)
  if 0 ≤ x ∧ x < 6 then
    ds.take (x.toNat + 1) ++ fracPart (ds.drop (x.toNat + 1))
  else if -4 ≤ x ∧ x < 0 then
    '0' :: '.' :: (List.replicate ((-x).toNat - 1) '0' ++ stripZeros ds)
  else
    ds.take 1 ++ fracPart (ds.drop 1) ++
      ('e' :: (if x < 0 then '-' else '+') ::
        (if x.natAbs < 10 then '0' :: showNat x.natAbs else showNat x.natAbs))

/-- The conversion `%g` with precision 6 of a rational number. -/
def showRat (q : ℚ) : List Char :=
  if q = 0 then ['0']
  else if q < 0 then '-' :: showPos q.num.natAbs q.den
  else showPos q.num.natAbs q.den

/-- `operator<<(double)` with default flags: `%g` with six significant digits
of the exact value. -/
def showDouble : Dbl → List Char
  | Dbl.finite q => showRat q
  | Dbl.negZero => ['-', '0']
  | Dbl.posInf => ['i', 'n', 'f']
  | Dbl.negInf => ['-', 'i', 'n', 'f']
  | Dbl.nan => ['n', 'a', 'n']

/-- The exponent part of a decimal floating literal, 0 when there is none. -/
def takeExponent : List Char → Int
  | c :: t =>
    if c = 'e' ∨ c = 'E' then
      let r := takeSign t
      let ds := r.2.takeWhile isDigit
      if ds.isEmpty then 0
      else if r.1 then -(digitsValue ds : Int) else (digitsValue ds : Int)
    else 0
  | [] => 0

/-- The value of a decimal floating literal at the start of a text: digits
with an optional point and an optional exponent; `none` without a digit. -/
def decimalValue (s : List Char) : Option ℚ :=
  let ip := s.takeWhile isDigit
  let s1 := s.dropWhile isDigit
  let fp := match s1 with
    | '.' :: t => t.takeWhile isDigit
    | _ => []
  let s2 := match s1 with
    | '.' :: t => t.dropWhile isDigit
    | _ => s1
  if ip.isEmpty ∧ fp.isEmpty then none
  else
    some ((digitsValue (ip ++ fp) : ℚ) / (10 : ℚ) ^ fp.length * (10 : ℚ) ^ takeExponent s2)

/-- Value of a hexadecimal digit. -/
def hexDigit (c : Char) : Option Nat :=
  if isDigit c then some (c.toNat - 48)
  else if 'a' ≤ c ∧ c ≤ 'f' then some (c.toNat - 87)
  else if 'A' ≤ c ∧ c ≤ 'F' then some (c.toNat - 55)
  else none

/-- `isxdigit`. -/
def isHexDigit (c : Char) : Bool := (hexDigit c).isSome

/-- Value of a run of hexadecimal digits. -/
def hexValue (ds : List Char) : Nat :=
  ds.foldl (fun a c => 16 * a + (hexDigit c).getD 0) 0

/-- The binary exponent part of a hexadecimal floating literal, 0 when there
is none. -/
def takeBinaryExponent : List Char → Int
  | c :: t =>
    if c = 'p' ∨ c = 'P' then
      let r := takeSign t
      let ds := r.2.takeWhile isDigit
      if ds.isEmpty then 0
      else if r.1 then -(digitsValue ds : Int) else (digitsValue ds : Int)
    else 0
  | [] => 0

/-- The value of a hexadecimal floating literal at the start of a text:
`0x`, hexadecimal digits with an optional point, and an optional binary
exponent; `none` when no hexadecimal digit follows `0x`. -/
def hexadecimalValue : List Char → Option ℚ
  | '0' :: x :: s =>
    if x = 'x' ∨ x = 'X' then
      let ip := s.takeWhile isHexDigit
      let s1 := s.dropWhile isHexDigit
      let fp := match s1 with
        | '.' :: t => t.takeWhile isHexDigit
        | _ => []
      let s2 := match s1 with
        | '.' :: t => t.dropWhile isHexDigit
        | _ => s1
      if ip.isEmpty ∧ fp.isEmpty then none
      else
        some ((hexValue (ip ++ fp) : ℚ) / (16 : ℚ) ^ fp.length *
          (2 : ℚ) ^ takeBinaryExponent s2)
    else none
  | _ => none

/-- ASCII lower case of a letter. -/
def toLower (c : Char) : Char :=
  if 'A' ≤ c ∧ c ≤ 'Z' then Char.ofNat (c.toNat + 32) else c

/-- Whether a text starts with a lower-case word, letter case ignored. -/
def startsWith (word s : List Char) : Bool :=
  decide ((s.take word.length).map toLower = word)

/-- The double `strtod` returns for a literal of magnitude `v`, `none` when it
sets `ERANGE` (and `std::stod` throws `std::out_of_range`): on overflow, and
when the result is inexact and tiny, that is below `2 ^ (-1022)` even when
rounded to 53 bits with an unbounded exponent. -/
def roundChecked (neg : Bool) (v : ℚ) : Option Dbl :=
  if v = 0 then some (if neg then Dbl.negZero else Dbl.finite 0)
  else if 2 ^ 1024 ≤ Dbl.roundMagnitude v.num.natAbs v.den then none
  else if Dbl.nearestMultiple v.num.natAbs v.den (Dbl.binExp v.num.natAbs v.den - 52) <
      1 / 2 ^ 1022 ∧ Dbl.roundMagnitude v.num.natAbs v.den ≠ |v| then none
  else some (Dbl.finite (if neg then -Dbl.roundMagnitude v.num.natAbs v.den
    else Dbl.roundMagnitude v.num.natAbs v.den))

/-- `std::stod`: leading white space is skipped, then an optional sign and the
longest of `inf`, `nan` (letter case ignored), a hexadecimal or a decimal
floating literal are read and the rest is ignored; the value is rounded to the
nearest double.  No literal throws `std::invalid_argument`, a value out of
range throws `std::out_of_range`. -/
def stod (s : List Char) : Option Dbl :=
  let r := takeSign (s.dropWhile isSpace)
  if startsWith ['i', 'n', 'f'] r.2 then some (if r.1 then Dbl.negInf else Dbl.posInf)
  else if startsWith ['n', 'a', 'n'] r.2 then some Dbl.nan
  else
    match hexadecimalValue r.2 with
    | some v => roundChecked r.1 v
    | none =>
      match decimalValue r.2 with
      | some v => roundChecked r.1 v
      | none => none

/-- The library conversions in the "C" locale. -/
def conv : NumConv := ⟨showInt, showDouble, stoi, stod⟩

end CLocale

/-! ## `std::sort` of libstdc++

The functions of `bits/stl_algo.h` and `bits/stl_heap.h` that `std::sort`
runs, on a range given as the list of its elements; positions are counted from
the start of the range.  A result `none` stands for a loop that leaves the
range it works on. -/

namespace Stl

variable {α : Type}

/-- The requirement `Compare` of the C++ standard, on the elements of a range:
`comp` induces a strict weak ordering on them. -/
def StrictWeakOrdering (comp : α → α → Bool) (l : List α) : Prop :=
  (∀ a ∈ l, comp a a = false) ∧
  (∀ a ∈ l, ∀ b ∈ l, ∀ c ∈ l, comp a b = true → comp b c = true → comp a c = true) ∧
  (∀ a ∈ l, ∀ b ∈ l, ∀ c ∈ l, comp a b = false → comp b a = false → comp b c = false →
    comp c b = false → comp a c = false ∧ comp c a = false)

/-- Equivalence of two elements under a comparator: neither is ordered before
the other. -/
def equivalent (comp : α → α → Bool) (e x : α) : Bool := !comp e x && !comp x e

/-- Assignment `*(first + i) = x`; `none` when the position is outside the
range. -/
def assign (v : List α) (i : Nat) (x : α) : Option (List α) :=
  if i < v.length then some (v.set i x) else none

/-- `std::iter_swap(first + a, first + b)`. -/
def iterSwap (v : List α) (a b : Nat) : Option (List α) :=
  match v[a]?, v[b]? with
  | some x, some y => some ((v.set a y).set b x)
  | _, _ => none

/-- `std::__move_median_to_first(result, a, b, c, comp)`. -/
def moveMedianToFirst (comp : α → α → Bool) (v : List α) (result a b c : Nat) :
    Option (List α) :=
  match v[a]?, v[b]?, v[c]? with
  | some x, some y, some z =>
    if comp x y then
      if comp y z then iterSwap v result b
      else if comp x z then iterSwap v result c
      else iterSwap v result a
    else if comp x z then iterSwap v result a
    else if comp y z then iterSwap v result c
    else iterSwap v result b
  | _, _, _ => none

/-- The loop `while (comp(first, pivot)) ++first;` of
`std::__unguarded_partition`: the position it stops at. -/
def scanUp (comp : α → α → Bool) (v : List α) (pivot : Nat) : Nat → Nat → Option Nat
  | 0, _ => none
  | fuel + 1, first =>
    match v[first]?, v[pivot]? with
    | some x, some p => if comp x p then scanUp comp v pivot fuel (first + 1) else some first
    | _, _ => none

/-- The loop `while (comp(pivot, last)) --last;` of
`std::__unguarded_partition`. -/
def scanDown (comp : α → α → Bool) (v : List α) (pivot : Nat) : Nat → Option Nat
  | 0 =>
    match v[0]?, v[pivot]? with
    | some x, some p => if comp p x then none else some 0
    | _, _ => none
  | last + 1 =>
    match v[last + 1]?, v[pivot]? with
    | some x, some p => if comp p x then scanDown comp v pivot last else some (last + 1)
    | _, _ => none

/-- `std::__unguarded_partition(first, last, pivot, comp)`: the position
returned and the range after the call. -/
def unguardedPartition (comp : α → α → Bool) (pivot : Nat) :
    Nat → List α → Nat → Nat → Option (Nat × List α)
  | 0, _, _, _ => none
  | fuel + 1, v, first, last =>
    match scanUp comp v pivot (v.length + 1) first with
    | none => none
    | some first1 =>
      match last with
      | 0 => none
      | last0 + 1 =>
        match scanDown comp v pivot last0 with
        | none => none
        | some last1 =>
          if first1 < last1 then
            match iterSwap v first1 last1 with
            | none => none
            | some v1 => unguardedPartition comp pivot fuel v1 (first1 + 1) last1
          else some (first1, v)

/-- `std::__unguarded_partition_pivot(first, last, comp)` on the range `v`. -/
def unguardedPartitionPivot (comp : α → α → Bool) (v : List α) : Option (Nat × List α) :=
  match moveMedianToFirst comp v 0 1 (v.length / 2) (v.length - 1) with
  | none => none
  | some v1 => unguardedPartition comp 0 (v1.length + 1) v1 1 v1.length

/-- `std::__push_heap(first, holeIndex, topIndex, value, comp)`. -/
def pushHeap (comp : α → α → Bool) (value : α) (topIndex : Nat) :
    Nat → List α → Nat → Option (List α)
  | 0, _, _ => none
  | fuel + 1, v, holeIndex =>
    if holeIndex > topIndex then
      match v[(holeIndex - 1) / 2]? with
      | none => none
      | some p =>
        if comp p value then
          match assign v holeIndex p with
          | none => none
          | some v1 => pushHeap comp value topIndex fuel v1 ((holeIndex - 1) / 2)
        else assign v holeIndex value
    else assign v holeIndex value

/-- The first loop of `std::__adjust_heap`: the range, `holeIndex` and
`secondChild` after it. -/
def adjustHeapLoop (comp : α → α → Bool) (len : Nat) :
    Nat → List α → Nat → Nat → Option (List α × Nat × Nat)
  | 0, _, _, _ => none
  | fuel + 1, v, holeIndex, secondChild =>
    if secondChild < (len - 1) / 2 then
      match v[2 * (secondChild + 1)]?, v[2 * (secondChild + 1) - 1]? with
      | some x, some y =>
        if comp x y then
          match assign v holeIndex y with
          | none => none
          | some v1 =>
            adjustHeapLoop comp len fuel v1 (2 * (secondChild + 1) - 1)
              (2 * (secondChild + 1) - 1)
        else
          match assign v holeIndex x with
          | none => none
          | some v1 =>
            adjustHeapLoop comp len fuel v1 (2 * (secondChild + 1)) (2 * (secondChild + 1))
      | _, _ => none
    else some (v, holeIndex, secondChild)

/-- `std::__adjust_heap(first, holeIndex, len, value, comp)`; `(len - 2) / 2`
is computed on signed integers. -/
def adjustHeap (comp : α → α → Bool) (v : List α) (holeIndex len : Nat) (value : α) :
    Option (List α) :=
  match adjustHeapLoop comp len (len + 1) v holeIndex holeIndex with
  | none => none
  | some (v1, hole1, secondChild) =>
    if len % 2 = 0 ∧ 2 ≤ len ∧ secondChild = (len - 2) / 2 then
      match v1[2 * (secondChild + 1) - 1]? with
      | none => none
      | some z =>
        match assign v1 hole1 z with
        | none => none
        | some v2 => pushHeap comp value holeIndex (len + 1) v2 (2 * (secondChild + 1) - 1)
    else pushHeap comp value holeIndex (len + 1) v1 hole1

/-- `std::__pop_heap(first, last, result, comp)`. -/
def popHeap (comp : α → α → Bool) (v : List α) (last result : Nat) : Option (List α) :=
  match v[result]?, v[0]? with
  | some value, some top =>
    match assign v result top with
    | none => none
    | some v1 => adjustHeap comp v1 0 last value
  | _, _ => none

/-- The loop of `std::__make_heap`, from `parent` down to 0. -/
def makeHeapLoop (comp : α → α → Bool) (len : Nat) : Nat → List α → Option (List α)
  | 0, v =>
    match v[0]? with
    | none => none
    | some value => adjustHeap comp v 0 len value
  | parent + 1, v =>
    match v[parent + 1]? with
    | none => none
    | some value =>
      match adjustHeap comp v (parent + 1) len value with
      | none => none
      | some v1 => makeHeapLoop comp len parent v1

/-- `std::__make_heap(first, last, comp)` on the range `v`. -/
def makeHeap (comp : α → α → Bool) (v : List α) : Option (List α) :=
  if v.length < 2 then some v else makeHeapLoop comp v.length ((v.length - 2) / 2) v

/-- `std::__sort_heap(first, last, comp)`. -/
def sortHeap (comp : α → α → Bool) : Nat → List α → Option (List α)
  | 0, v => some v
  | last + 1, v =>
    if last + 1 > 1 then
      match popHeap comp v last last with
      | none => none
      | some v1 => sortHeap comp last v1
    else some v

/-- `std::__partial_sort(first, last, last, comp)`: heap sort of the range. -/
def partialSort (comp : α → α → Bool) (v : List α) : Option (List α) :=
  match makeHeap comp v with
  | none => none
  | some v1 => sortHeap comp v1.length v1

/-- `std::__introsort_loop(first, last, depth_limit, comp)` on the range `v`:
the part from `cut` on is handled by the recursive call, the part before it by
the next round of the loop. -/
def introsortLoop (comp : α → α → Bool) : Nat → List α → Option (List α)
  | 0, v => if v.length > 16 then partialSort comp v else some v
  | depthLimit + 1, v =>
    if v.length > 16 then
      match unguardedPartitionPivot comp v with
      | none => none
      | some (cut, v1) =>
        match introsortLoop comp depthLimit (v1.take cut),
            introsortLoop comp depthLimit (v1.drop cut) with
        | some left, some right => some (left ++ right)
        | _, _ => none
    else some v

/-- `std::__unguarded_linear_insert(last, comp)`: `val` is the element at
`last`, the list holds the elements before it, the nearest first, and so does
the result for the position after `last`.  `none` when the loop leaves the
vector. -/
def unguardedLinearInsert (comp : α → α → Bool) (val : α) : List α → Option (List α)
  | [] => none
  | x :: before =>
    if comp val x then
      match unguardedLinearInsert comp val before with
      | none => none
      | some r => some (x :: r)
    else some (val :: x :: before)

/-- The loop of `std::__insertion_sort(first, last, comp)`: `sorted` holds the
elements before `i`, the nearest first (its last element is `*first`), `rest`
the elements from `i` on. -/
def insertionSortLoop (comp : α → α → Bool) : List α → List α → Option (List α)
  | sorted, [] => some sorted
  | sorted, val :: rest =>
    match sorted.getLast? with
    | none => none
    | some first =>
      if comp val first then insertionSortLoop comp (sorted ++ [val]) rest
      else
        match unguardedLinearInsert comp val sorted with
        | none => none
        | some sorted1 => insertionSortLoop comp sorted1 rest

/-- `std::__insertion_sort(first, last, comp)` on the range `v`. -/
def insertionSort (comp : α → α → Bool) : List α → Option (List α)
  | [] => some []
  | x :: rest =>
    match insertionSortLoop comp [x] rest with
    | none => none
    | some sorted => some sorted.reverse

/-- The loop of `std::__unguarded_insertion_sort(first, last, comp)`: `before`
holds the elements before `i`, the nearest first. -/
def unguardedInsertionSortLoop (comp : α → α → Bool) : List α → List α → Option (List α)
  | before, [] => some before
  | before, val :: rest =>
    match unguardedLinearInsert comp val before with
    | none => none
    | some before1 => unguardedInsertionSortLoop comp before1 rest

/-- `std::__final_insertion_sort(first, last, comp)`. -/
def finalInsertionSort (comp : α → α → Bool) (v : List α) : Option (List α) :=
  if v.length > 16 then
    match insertionSort comp (v.take 16) with
    | none => none
    | some head =>
      match unguardedInsertionSortLoop comp head.reverse (v.drop 16) with
      | none => none
      | some before => some before.reverse
  else insertionSort comp v

/-- `std::sort(first, last, comp)` of libstdc++ (`std::__sort`) on the range
`v`: the range after the call, `none` when a loop leaves the range it works
on. -/
def sort (comp : α → α → Bool) (v : List α) : Option (List α) :=
  if v.isEmpty then some v
  else
    match introsortLoop comp (Nat.log2 v.length * 2) v with
    | none => none
    | some v1 => finalInsertionSort comp v1

/-- Position `h` of a heap is `top` or lies below it in the tree. -/
def Below (top h : Nat) : Prop :=
  ∃ k : Nat, (top + 1) * 2 ^ k ≤ h + 1 ∧ h + 1 < (top + 2) * 2 ^ k

/-- The order of a heap on the first `len` positions of a range, for the
positions whose parent is `top` or a later position; for the positions whose
parent is `top` only when `hole` is another position. -/
def HeapBut (comp : α → α → Bool) (v : List α) (top len hole : Nat) : Prop :=
  ∀ i x y, 0 < i → i < len → top ≤ (i - 1) / 2 → ((i - 1) / 2 = top → hole ≠ top) →
    v[(i - 1) / 2]? = some x → v[i]? = some y → comp x y = false

/-- The order of a heap on the first `len` positions of a range, for the
positions whose parent is `top` or a later position. -/
def HeapFrom (comp : α → α → Bool) (v : List α) (top len : Nat) : Prop :=
  ∀ i x y, 0 < i → i < len → top ≤ (i - 1) / 2 →
    v[(i - 1) / 2]? = some x → v[i]? = some y → comp x y = false

end Stl

namespace StudentManager

/-! ## Sample records (the demo driver's data) -/

/-- Record `s1` of the demo driver. -/
def demo1 : Student :=
  ⟨20210001, "张三".toList, 20, "男".toList, "计算机科学".toList, 3.8⟩

/-- Record `s2` of the demo driver. -/
def demo2 : Student :=
  ⟨20210002, "李四".toList, 19, "女".toList, "软件工程".toList, 3.9⟩

/-- Record `s3` of the demo driver. -/
def demo3 : Student :=
  ⟨20210003, "王五".toList, 21, "男".toList, "计算机科学".toList, 3.6⟩

/-- A record that reuses the identifier of `demo1` with other field values. -/
def demo1Clash : Student :=
  ⟨20210001, "赵六".toList, 20, "女".toList, "数据科学".toList, 3.7⟩

/-- A well-formed line followed by a line with only 4 fields. -/
def fileWithShortLine : List Char :=
  "20210001,张三,20,男,计算机科学,3.8\n1,a,20,m\n".toList

/-- A line with 6 well-formed fields followed by one more comma. -/
def fileWithTrailingComma : List Char := "1,a,20,m,cs,3.5,\n".toList

/-- The record whose fields are those of the line in `fileWithTrailingComma`. -/
def trailingCommaRecord : Student :=
  ⟨1, "a".toList, 20, "m".toList, "cs".toList, 3.5⟩

/-- A line with 6 fields whose identifier field is not a number. -/
def fileWithBadNumber : List Char := "x,a,20,m,cs,3.5\n".toList

/-- First record of the specification's sorting example: id 1, gpa 3.6. -/
def tie1 : Student := ⟨1, [], 0, [], [], 3.6⟩

/-- Second record of the specification's sorting example: id 2, gpa 3.9. -/
def top2 : Student := ⟨2, [], 0, [], [], 3.9⟩

/-- Third record of the specification's sorting example: id 3, gpa 3.6. -/
def tie3 : Student := ⟨3, [], 0, [], [], 3.6⟩

/-- A record whose gpa, 1 + 2⁻²⁰ = 1.00000095367431640625, is an exact double
with more than six significant digits. -/
def fineGpa : Student :=
  ⟨1, "a".toList, 20, "m".toList, "cs".toList, Dbl.finite (1048577 / 1048576)⟩

/-- The record `fineGpa` with its gpa replaced by 1. -/
def fineGpaReloaded : Student := ⟨1, "a".toList, 20, "m".toList, "cs".toList, 1⟩

/-- Two well-formed lines with the same identifier field. -/
def fileWithDuplicateId : List Char := "1,a,20,m,cs,3.5\n1,b,21,f,ee,3.6\n".toList

/-- The record of the first line of `fileWithDuplicateId`. -/
def duplicateFirst : Student := ⟨1, "a".toList, 20, "m".toList, "cs".toList, 3.5⟩

/-- The record of the second line of `fileWithDuplicateId`. -/
def duplicateSecond : Student := ⟨1, "b".toList, 21, "f".toList, "ee".toList, 3.6⟩

/-- A record whose text is written on one line but has a comma in its name,
gender or major. -/
abbrev HasStrayComma (L : NumConv) (r : Student) : Prop :=
  IsInt r.id ∧ IsInt r.age ∧ '\n' ∉ r.name ∧ '\n' ∉ r.gender ∧ '\n' ∉ r.major ∧
    (',' ∈ r.name ∨ ',' ∈ r.gender ∨ ',' ∈ r.major) ∧
    PlainText (L.showDouble r.gpa) ∧ L.showDouble r.gpa ≠ []

/-- A record with a comma in its name. -/
def commaName : Student := ⟨7, "Li, Si".toList, 19, "f".toList, "ee".toList, 3.9⟩

/-! ## Search -/

/-- `std::string::find(str)` of the C++ standard library, scanning from
position `pos` of the string whose text from there on is the second argument:
the lowest position at which `str` occurs, `none` for `npos`.  The empty
string occurs at every position. -/
def stringFindFrom (str : List Char) : List Char → Nat → Option Nat
  | [], pos => if str.isEmpty then some pos else none
  | c :: t, pos =>
    if str.isPrefixOf (c :: t) then some pos else stringFindFrom str t (pos + 1)

/-- `s.find(str)`. -/
def stringFind (s str : List Char) : Option Nat := stringFindFrom str s 0

/-- Embedding of `StudentManager::searchByName`, a `const` member function: the
vector it returns. -/
def searchByName (students : List Student) (name : List Char) : List Student :=
  students.foldl
    (fun result student =>
      if stringFind student.name name ≠ none then result ++ [student] else result)
    []

/-- Embedding of `StudentManager::searchByMajor`, a `const` member function. -/
def searchByMajor (students : List Student) (major : List Char) : List Student :=
  students.foldl
    (fun result student => if student.major = major then result ++ [student] else result)
    []

/-- A well-formed line of 6 fields, without its end of line. -/
def wellFormedLine : List Char := "1,a,20,m,cs,3.5".toList

/-! ## Sorting

`std::sort` is a library function.  It is a parameter of the embedding, subject
to the contract the C++ standard gives it; `Stl.sort`, the function libstdc++
implements it by, is the instance on which the three sorts are evaluated. -/

/-- The type of `std::sort` on the vector: the comparator and the range before
the call give the range after the call, `none` when the behaviour of the call
is undefined. -/
abbrev StdSort : Type := (Student → Student → Bool) → List Student → Option (List Student)

/-- Embedding of `StudentManager::sortById`: the vector after the call. -/
def sortById (stdSort : StdSort) (students : List Student) : Option (List Student) :=
  stdSort (fun a b => decide (a.id < b.id)) students

/-- Embedding of `StudentManager::sortByName`.  `operator<` of `std::string` is
the lexicographic order of the characters, a proper prefix coming first; on
UTF-8 text the order by bytes is the order by code points. -/
def sortByName (stdSort : StdSort) (students : List Student) : Option (List Student) :=
  stdSort (fun a b => decide (a.name < b.name)) students

/-- Embedding of `StudentManager::sortByGpa`. -/
def sortByGpa (stdSort : StdSort) (students : List Student) : Option (List Student) :=
  stdSort (fun a b => Dbl.gt a.gpa b.gpa) students

/-- The contract of `std::sort`: for a comparator that is a strict weak
ordering on the elements of the range, the call is defined and the result is a
rearrangement of the range in which no element is ordered before an earlier
one.  The order of equivalent elements is not specified. -/
def IsStdSort (stdSort : StdSort) : Prop :=
  ∀ comp l, Stl.StrictWeakOrdering comp l →
    ∃ r, stdSort comp l = some r ∧ r.Perm l ∧ r.Pairwise (fun a b => comp b a = false)

/-- A record with gpa 3.6 and no other data. -/
def tieRecord (id : Int) : Student := ⟨id, [], 0, [], [], 3.6⟩

/-- The specification's sorting example followed by 14 more records with gpa
3.6: 17 records with the identifiers 1 to 17 in this order. -/
def seventeenRecords : List Student :=
  [tie1, top2, tie3, tieRecord 4, tieRecord 5, tieRecord 6, tieRecord 7, tieRecord 8,
    tieRecord 9, tieRecord 10, tieRecord 11, tieRecord 12, tieRecord 13, tieRecord 14,
    tieRecord 15, tieRecord 16, tieRecord 17]

/-- A record with the given identifier and gpa and no other data. -/
def gpaRecord (id : Int) (gpa : Dbl) : Student := ⟨id, [], 0, [], [], gpa⟩

/-- Four records with the gpa values 3.9, 3.6, NaN and 3.8. -/
def recordsWithNaN : List Student :=
  [gpaRecord 1 3.9, gpaRecord 2 3.6, gpaRecord 3 Dbl.nan, gpaRecord 4 3.8]

/-- A file whose third line has the gpa field `nan`. -/
def fileWithNaN : List Char := "1,,0,,,3.9\n2,,0,,,3.6\n3,,0,,,nan\n4,,0,,,3.8\n".toList

/-! ## Statistics -/

/-- Embedding of `StudentManager::getTotalStudents`. -/
def getTotalStudents (students : List Student) : Int := (students.length : Int)

/-- The loop of `getAverageGpa`: `total` after all records were added. -/
def totalGpa (students : List Student) : Dbl :=
  students.foldl (fun total student => Dbl.add total student.gpa) 0.0

/-- Embedding of `StudentManager::getAverageGpa`. -/
def getAverageGpa (students : List Student) : Dbl :=
  if students.isEmpty then
    0.0
  else
    Dbl.div (totalGpa students) (Dbl.ofNat students.length)

/-- The sum of the gpa values as real numbers. -/
def exactTotal (students : List Student) : ℚ := (students.map (fun s => s.gpa.toRat)).sum

/-- The sum of the magnitudes of the gpa values. -/
def absTotal (students : List Student) : ℚ := (students.map (fun s => |s.gpa.toRat|)).sum

/-- A gpa that is a finite double of magnitude at most `2 ^ 1000`. -/
abbrev OrdinaryGpa (s : Student) : Prop := s.gpa.isFinite = true ∧ |s.gpa.toRat| ≤ 2 ^ 1000

/-- `std::max_element` after its first step: `largest` is the position and
value of the largest element so far, `i` the position of the next element. -/
def maxElementLoop (comp : Student → Student → Bool) :
    Nat × Student → Nat → List Student → Nat × Student
  | largest, _, [] => largest
  | largest, i, x :: rest =>
    if comp largest.2 x then maxElementLoop comp (i, x) (i + 1) rest
    else maxElementLoop comp largest (i + 1) rest

/-- `std::max_element(first, last, comp)`: position and value of the element
the returned iterator points to, `none` when it is `last` (empty range). -/
def maxElement (comp : Student → Student → Bool) : List Student → Option (Nat × Student)
  | [] => none
  | x :: rest => some (maxElementLoop comp (0, x) 1 rest)

/-- `std::min_element` after its first step. -/
def minElementLoop (comp : Student → Student → Bool) :
    Nat × Student → Nat → List Student → Nat × Student
  | smallest, _, [] => smallest
  | smallest, i, x :: rest =>
    if comp x smallest.2 then minElementLoop comp (i, x) (i + 1) rest
    else minElementLoop comp smallest (i + 1) rest

/-- `std::min_element(first, last, comp)`. -/
def minElement (comp : Student → Student → Bool) : List Student → Option (Nat × Student)
  | [] => none
  | x :: rest => some (minElementLoop comp (0, x) 1 rest)

/-- What `getStatistics` prints: the total, the average, and, when the vector
is not empty, the records holding the maximum and the minimum gpa with their
positions. -/
structure Statistics where
  total : Int
  average : Dbl
  extremes : Option ((Nat × Student) × (Nat × Student))

/-- Embedding of `StudentManager::getStatistics`. -/
def getStatistics (students : List Student) : Statistics :=
  { total := getTotalStudents students
    average := getAverageGpa students
    extremes :=
      if !students.isEmpty then
        match maxElement (fun a b => Dbl.lt a.gpa b.gpa) students,
            minElement (fun a b => Dbl.lt a.gpa b.gpa) students with
        | some maxGpa, some minGpa => some (maxGpa, minGpa)
        | _, _ => none
      else none }

/-- A record whose gpa is a NaN, as `loadFromFile` reads it from the field
`nan`. -/
def nanRecord : Student := ⟨4, "d".toList, 20, "m".toList, "cs".toList, Dbl.nan⟩

/-- A record with gpa 3.0. -/
def threeRecord : Student := ⟨5, "e".toList, 20, "m".toList, "cs".toList, 3.0⟩

/-! ## Lemmas on the linear scan -/

theorem findStudentIndexFrom_absent (id : Int) (l : List Student) (i : Nat)
    (h : ∀ s ∈ l, s.id ≠ id) : findStudentIndexFrom id l i = -1 := by
  induction l generalizing i with
  | nil => rfl
  | cons a t ih =>
    have ha : a.id ≠ id := h a (List.mem_cons_self a t)
    simp only [findStudentIndexFrom, if_neg ha]
    exact ih (i + 1) (fun s hs => h s (List.mem_cons_of_mem a hs))

/-- When some record has the identifier, the scan returns the position of the
first such record. -/
theorem findStudentIndexFrom_present (id : Int) (l : List Student) (i : Nat)
    (h : ∃ s ∈ l, s.id = id) :
    ∃ k, findStudentIndexFrom id l i = ((i + k : Nat) : Int) ∧ k < l.length ∧
      (∃ s, l[k]? = some s ∧ s.id = id) ∧
      (∀ j, j < k → ∀ s, l[j]? = some s → s.id ≠ id) := by
  induction l generalizing i with
  | nil => obtain ⟨s, hs, _⟩ := h; cases hs
  | cons a t ih =>
    by_cases ha : a.id = id
    · refine ⟨0, ?_, by simp, ⟨a, by simp, ha⟩, ?_⟩
      · simp [findStudentIndexFrom, ha]
      · intro j hj; omega
    · have ht : ∃ s ∈ t, s.id = id := by
        obtain ⟨s, hs, hsid⟩ := h
        rcases List.mem_cons.1 hs with rfl | hs
        · exact absurd hsid ha
        · exact ⟨s, hs, hsid⟩
      obtain ⟨k, hk, hlt, ⟨s, hs, hsid⟩, hfirst⟩ := ih (i + 1) ht
      refine ⟨k + 1, ?_, by simp; omega, ⟨s, by simpa using hs, hsid⟩, ?_⟩
      · simp only [findStudentIndexFrom, if_neg ha, hk]
        congr 1; omega
      · intro j hj s' hs'
        cases j with
        | zero =>
          simp at hs'
          subst hs'
          exact ha
        | succ j =>
          simp at hs'
          exact hfirst j (by omega) s' hs'

theorem findStudentIndex_absent (students : List Student) (id : Int)
    (h : ∀ s ∈ students, s.id ≠ id) : findStudentIndex students id = -1 :=
  findStudentIndexFrom_absent id students 0 h

theorem findStudentIndex_present (students : List Student) (id : Int)
    (h : ∃ s ∈ students, s.id = id) :
    ∃ k : Nat, findStudentIndex students id = (k : Int) ∧ k < students.length ∧
      (∃ s, students[k]? = some s ∧ s.id = id) ∧
      (∀ j, j < k → ∀ s, students[j]? = some s → s.id ≠ id) := by
  obtain ⟨k, hk, rest⟩ := findStudentIndexFrom_present id students 0 h
  exact ⟨k, by simpa using hk, rest⟩

theorem findStudentIndex_eq_neg_one_iff (students : List Student) (id : Int) :
    findStudentIndex students id = -1 ↔ ∀ s ∈ students, s.id ≠ id := by
  constructor
  · intro h s hs hsid
    obtain ⟨k, hk, _⟩ := findStudentIndex_present students id ⟨s, hs, hsid⟩
    rw [hk] at h
    omega
  · exact findStudentIndex_absent students id

theorem isValidId_eq_true_iff (students : List Student) (id : Int) :
    isValidId students id = true ↔ ∀ s ∈ students, s.id ≠ id := by
  simp only [isValidId, decide_eq_true_eq]
  exact findStudentIndex_eq_neg_one_iff students id

/-- The pointer returned by `findStudent` refers to the first record with the
identifier, and is null exactly when there is none. -/
theorem findStudent_eq_find (students : List Student) (id : Int) :
    findStudent students id = students.find? (fun s => decide (s.id = id)) := by
  by_cases h : ∃ s ∈ students, s.id = id
  · obtain ⟨k, hk, hlt, ⟨s, hs, hsid⟩, hfirst⟩ := findStudentIndex_present students id h
    have hne : ¬ ((k : Int) = -1) := by omega
    simp only [findStudent, hk, if_neg hne, Int.toNat_ofNat, hs]
    clear hk hne h
    induction students generalizing k with
    | nil => simp at hlt
    | cons a t ih =>
      cases k with
      | zero =>
        simp at hs
        subst hs
        simp [List.find?, hsid]
      | succ k =>
        have ha : a.id ≠ id := hfirst 0 (by omega) a (by simp)
        simp only [List.find?, decide_eq_false ha]
        refine ih k (by simpa using hlt) ?_ (by simpa using hs)
        intro j hj s' hs'
        exact hfirst (j + 1) (by omega) s' (by simpa using hs')
  · have h' : ∀ s ∈ students, s.id ≠ id := fun s hs hsid => h ⟨s, hs, hsid⟩
    simp only [findStudent, findStudentIndex_absent students id h', if_true]
    symm
    rw [List.find?_eq_none]
    intro s hs
    simpa using h' s hs

/-- On a present identifier `deleteStudent` erases the position of the first
record that has it. -/
theorem deleteStudent_present (students : List Student) (id : Int)
    (h : ∃ s ∈ students, s.id = id) :
    ∃ k : Nat, k < students.length ∧ (∃ s, students[k]? = some s ∧ s.id = id) ∧
      (∀ j, j < k → ∀ s, students[j]? = some s → s.id ≠ id) ∧
      deleteStudent students id = (true, students.eraseIdx k) := by
  obtain ⟨k, hk, hlt, hat, hfirst⟩ := findStudentIndex_present students id h
  have hne : ¬ ((k : Int) = -1) := by omega
  exact ⟨k, hlt, hat, hfirst, by simp only [deleteStudent, hk, if_neg hne, Int.toNat_ofNat]⟩

theorem deleteStudent_absent (students : List Student) (id : Int)
    (h : ∀ s ∈ students, s.id ≠ id) : deleteStudent students id = (false, students) := by
  simp only [deleteStudent, findStudentIndex_absent students id h, if_true]

/-- On a present identifier `updateStudent` overwrites the position of the first
record that has it. -/
theorem updateStudent_present (students : List Student) (id : Int) (newInfo : Student)
    (h : ∃ s ∈ students, s.id = id) :
    ∃ k : Nat, k < students.length ∧ (∃ s, students[k]? = some s ∧ s.id = id) ∧
      (∀ j, j < k → ∀ s, students[j]? = some s → s.id ≠ id) ∧
      updateStudent students id newInfo = (true, students.set k newInfo) := by
  obtain ⟨k, hk, hlt, hat, hfirst⟩ := findStudentIndex_present students id h
  have hne : ¬ ((k : Int) = -1) := by omega
  exact ⟨k, hlt, hat, hfirst, by simp only [updateStudent, hk, if_neg hne, Int.toNat_ofNat]⟩

theorem updateStudent_absent (students : List Student) (id : Int) (newInfo : Student)
    (h : ∀ s ∈ students, s.id ≠ id) :
    updateStudent students id newInfo = (false, students) := by
  simp only [updateStudent, findStudentIndex_absent students id h, if_true]

/-- In a vector with pairwise distinct identifiers, erasing the position of a
record leaves no record with its identifier. -/
theorem eraseIdx_no_id (l : List Student) (k : Nat) (s : Student)
    (hnd : (l.map (fun x => x.id)).Nodup) (hs : l[k]? = some s) :
    ∀ x ∈ l.eraseIdx k, x.id ≠ s.id := by
  induction l generalizing k with
  | nil => simp at hs
  | cons a t ih =>
    rw [List.map_cons, List.nodup_cons] at hnd
    cases k with
    | zero =>
      simp at hs
      subst hs
      intro x hx hxid
      simp only [List.eraseIdx_cons_zero] at hx
      exact hnd.1 (hxid ▸ List.mem_map_of_mem (fun x => x.id) hx)
    | succ k =>
      have hs' : t[k]? = some s := by simpa using hs
      intro x hx
      simp only [List.eraseIdx_cons_succ, List.mem_cons] at hx
      rcases hx with rfl | hx
      · intro hxid
        have hmem : s ∈ t := List.getElem?_mem hs'
        exact hnd.1 (hxid ▸ List.mem_map_of_mem (fun x => x.id) hmem)
      · exact ih k hnd.2 hs' x hx

/-! ## Claims on `addStudent`, `deleteStudent`, `updateStudent` -/

/-- C1: when no record of the store has the identifier of `r`, `addStudent`
returns true, the vector afterwards is the old vector with `r` appended (one
element longer, every earlier position unchanged), and `findStudent` on the
identifier of `r` then yields a record equal to `r` in all six fields. -/
theorem addStudent_fresh (students : List Student) (r : Student)
    (h : ∀ s ∈ students, s.id ≠ r.id) :
    (addStudent students r).1 = true ∧
    (addStudent students r).2 = students ++ [r] ∧
    (addStudent students r).2.length = students.length + 1 ∧
    (∀ i, i < students.length → (addStudent students r).2[i]? = students[i]?) ∧
    findStudent (addStudent students r).2 r.id = some r := by
  have hv : isValidId students r.id = true := (isValidId_eq_true_iff students r.id).2 h
  have hadd : addStudent students r = (true, students ++ [r]) := by
    simp [addStudent, hv]
  rw [hadd]
  refine ⟨rfl, rfl, by simp, ?_, ?_⟩
  · intro i hi
    exact List.getElem?_append_left hi
  · rw [findStudent_eq_find, List.find?_append]
    have hnone : students.find? (fun s => decide (s.id = r.id)) = none := by
      rw [List.find?_eq_none]
      intro s hs
      simpa using h s hs
    simp [hnone]

/-- Witness of C1 on the demo data: adding `demo2` to a store holding `demo1`. -/
theorem addStudent_fresh_witness :
    (addStudent [demo1] demo2).1 = true ∧
    (addStudent [demo1] demo2).2 = [demo1] ++ [demo2] ∧
    (addStudent [demo1] demo2).2.length = [demo1].length + 1 ∧
    (∀ i, i < [demo1].length → (addStudent [demo1] demo2).2[i]? = [demo1][i]?) ∧
    findStudent (addStudent [demo1] demo2).2 demo2.id = some demo2 :=
  addStudent_fresh [demo1] demo2 (by decide)

/-- C2: when some record of the store already has the identifier of `r`,
`addStudent` returns false and the vector is unchanged, whatever the other
fields of `r` are. -/
theorem addStudent_duplicate (students : List Student) (r : Student)
    (h : ∃ s ∈ students, s.id = r.id) :
    addStudent students r = (false, students) := by
  have hv : isValidId students r.id = false := by
    rw [Bool.eq_false_iff, Ne, isValidId_eq_true_iff]
    intro hall
    obtain ⟨s, hs, hsid⟩ := h
    exact hall s hs hsid
  simp [addStudent, hv]

/-- Witness of C2: `demo1Clash` has the identifier of `demo1` and other fields. -/
theorem addStudent_duplicate_witness :
    (∃ s ∈ [demo1, demo2], s.id = demo1Clash.id) ∧
    addStudent [demo1, demo2] demo1Clash = (false, [demo1, demo2]) :=
  ⟨⟨demo1, by simp, rfl⟩, addStudent_duplicate [demo1, demo2] demo1Clash ⟨demo1, by simp, rfl⟩⟩

/-- C3: in a store whose records have pairwise distinct identifiers,
`deleteStudent` on an absent identifier returns false and leaves the vector
unchanged; on a present identifier it returns true, the size decreases by
exactly one, no record with the identifier remains and `findStudent` on it
yields the null pointer. -/
theorem deleteStudent_contract (students : List Student) (id : Int)
    (hnd : (students.map (fun s => s.id)).Nodup) :
    ((∀ s ∈ students, s.id ≠ id) → deleteStudent students id = (false, students)) ∧
    ((∃ s ∈ students, s.id = id) →
      (deleteStudent students id).1 = true ∧
      (deleteStudent students id).2.length + 1 = students.length ∧
      (∀ s ∈ (deleteStudent students id).2, s.id ≠ id) ∧
      findStudent (deleteStudent students id).2 id = none) := by
  refine ⟨deleteStudent_absent students id, ?_⟩
  intro h
  obtain ⟨k, hlt, ⟨s, hs, hsid⟩, _, hdel⟩ := deleteStudent_present students id h
  have hgone : ∀ x ∈ students.eraseIdx k, x.id ≠ id := by
    intro x hx
    rw [← hsid]
    exact eraseIdx_no_id students k s hnd hs x hx
  rw [hdel]
  refine ⟨rfl, ?_, hgone, ?_⟩
  · simp only [List.length_eraseIdx, if_pos hlt]
    omega
  · rw [findStudent_eq_find, List.find?_eq_none]
    intro x hx
    simpa using hgone x hx

/-- Witness of C3: deleting `demo2` from the three demo records. -/
theorem deleteStudent_contract_witness :
    ([demo1, demo2, demo3].map (fun s => s.id)).Nodup ∧
    (deleteStudent [demo1, demo2, demo3] 20210002).1 = true ∧
    (deleteStudent [demo1, demo2, demo3] 20210002).2.length + 1 = 3 ∧
    findStudent (deleteStudent [demo1, demo2, demo3] 20210002).2 20210002 = none :=
  have hnd : ([demo1, demo2, demo3].map (fun s => s.id)).Nodup := by decide
  have h := (deleteStudent_contract [demo1, demo2, demo3] 20210002 hnd).2
    ⟨demo2, by simp, rfl⟩
  ⟨hnd, h.1, h.2.1, h.2.2.2⟩

/-- C5: `updateStudent` on an absent identifier returns false and leaves the
vector unchanged; on a present identifier it returns true, the vector keeps
its length, holds `newInfo` at the position of the first record whose
identifier was `id`, and is unchanged at every other position. -/
theorem updateStudent_contract (students : List Student) (id : Int) (newInfo : Student) :
    ((∀ s ∈ students, s.id ≠ id) →
      updateStudent students id newInfo = (false, students)) ∧
    ((∃ s ∈ students, s.id = id) →
      (updateStudent students id newInfo).1 = true ∧
      (updateStudent students id newInfo).2.length = students.length ∧
      ∃ k : Nat, k < students.length ∧
        (∃ s, students[k]? = some s ∧ s.id = id) ∧
        (∀ j, j < k → ∀ s, students[j]? = some s → s.id ≠ id) ∧
        (updateStudent students id newInfo).2[k]? = some newInfo ∧
        (∀ j, j ≠ k → (updateStudent students id newInfo).2[j]? = students[j]?)) := by
  refine ⟨updateStudent_absent students id newInfo, ?_⟩
  intro h
  obtain ⟨k, hlt, hat, hfirst, hupd⟩ := updateStudent_present students id newInfo h
  rw [hupd]
  refine ⟨rfl, by simp, k, hlt, hat, hfirst, ?_, ?_⟩
  · simp [List.getElem?_set, hlt]
  · intro j hj
    simp [List.getElem?_set, Ne.symm hj]

/-- C4 (evaluation at the failing input): starting from the empty store, two
successful `addStudent` calls followed by an `updateStudent` whose new record
carries the identifier of the other record succeed and leave two records with
the same identifier. -/
theorem updateStudent_breaks_uniqueness :
    addStudent [] demo1 = (true, [demo1]) ∧
    addStudent [demo1] demo2 = (true, [demo1, demo2]) ∧
    updateStudent [demo1, demo2] 20210002 demo1Clash = (true, [demo1, demo1Clash]) ∧
    ¬ ([demo1, demo1Clash].map (fun s => s.id)).Nodup := by
  refine ⟨by decide!, by decide!, by decide!, by decide⟩

/-! ## Lemmas on the `getline` loop and on `loadFromFile` -/

theorem commaFieldsLoop_ne_nil (field s : List Char) : Spec.commaFieldsLoop field s ≠ [] := by
  induction s generalizing field with
  | nil => simp [Spec.commaFieldsLoop]
  | cons c rest ih =>
    by_cases hc : c = ','
    · simp [Spec.commaFieldsLoop, hc]
    · simp only [Spec.commaFieldsLoop, if_neg hc]
      exact ih _

theorem dropTrailingEmpty_cons (f : List Char) (fs : List (List Char)) (h : fs ≠ []) :
    Spec.dropTrailingEmpty (f :: fs) = f :: Spec.dropTrailingEmpty fs := by
  obtain ⟨g, gs, rfl⟩ := List.exists_cons_of_ne_nil h
  simp only [Spec.dropTrailingEmpty, List.getLast?_cons_cons, List.dropLast_cons₂]
  split <;> rfl

/-- The tokens the `getline` loop extracts on commas are the comma-separated
fields without one trailing empty field. -/
theorem getlineLoop_comma_eq (item s : List Char) :
    getlineLoop ',' item s = Spec.dropTrailingEmpty (Spec.commaFieldsLoop item s) := by
  induction s generalizing item with
  | nil =>
    cases item with
    | nil => simp [getlineLoop, Spec.commaFieldsLoop, Spec.dropTrailingEmpty]
    | cons a t => simp [getlineLoop, Spec.commaFieldsLoop, Spec.dropTrailingEmpty]
  | cons c rest ih =>
    by_cases hc : c = ','
    · simp only [getlineLoop, Spec.commaFieldsLoop, if_pos hc]
      rw [dropTrailingEmpty_cons _ _ (commaFieldsLoop_ne_nil [] rest), ih]
    · simp only [getlineLoop, Spec.commaFieldsLoop, if_neg hc]
      exact ih _

theorem getlineAll_comma_eq (line : List Char) :
    getlineAll ',' line = Spec.dropTrailingEmpty (Spec.commaFields line) :=
  getlineLoop_comma_eq [] line

/-- The record `loadLine` appends for a line, if any. -/
theorem loadLine_fst (L : NumConv) (line : List Char)
    (acc : List Student × List (List Char)) :
    (loadLine L line acc).1 = acc.1 ++ (Spec.recordOfTokens L line).toList := by
  unfold loadLine Spec.recordOfTokens
  rw [← getlineAll_comma_eq]
  by_cases he : line = []
  · subst he
    simp [getlineAll, getlineLoop]
  · have he' : line.isEmpty = false := by simpa using he
    simp only [he', Bool.false_eq_true, if_false]
    split
    · split <;> simp [*]
    · simp

theorem loadLines_fst (L : NumConv) (lines : List (List Char))
    (acc : List Student × List (List Char)) :
    (loadLines L lines acc).1 = acc.1 ++ lines.filterMap (Spec.recordOfTokens L) := by
  induction lines generalizing acc with
  | nil => simp [loadLines]
  | cons line rest ih =>
    rw [loadLines, ih, loadLine_fst]
    cases h : Spec.recordOfTokens L line <;> simp [List.filterMap_cons, h]

/-! ## Claims on `loadFromFile` -/

/-- C7 (as amended): for every file text `loadFromFile` returns true, and the
vector afterwards consists, in file order, of the records of exactly those
lines whose comma-separated fields, one trailing empty field not counted, are
6 fields whose identifier, age and gpa parse; every other line contributes
nothing.  On a well-formed line followed by a 4-field line the result is the
one well-formed record. -/
theorem loadFromFile_records (L : NumConv) (students : List Student) (text : List Char) :
    (loadFromFile L students (some text)).1 = true ∧
    (loadFromFile L students (some text)).2.1 =
      (getlineAll '\n' text).filterMap (Spec.recordOfTokens L) ∧
    (loadFromFile CLocale.conv students (some fileWithShortLine)).2.1 = [demo1] := by
  refine ⟨rfl, ?_, ?_⟩
  · simp only [loadFromFile]
    rw [loadLines_fst]
    simp
  · simp only [loadFromFile]
    rw [loadLines_fst]
    decide!

/-- C7 (counterexample): the line `1,a,20,m,cs,3.5,` has 7 comma-separated
fields, and `loadFromFile` loads a record from it; reading "exactly 6
comma-separated fields" literally yields no record. -/
theorem loadFromFile_trailing_comma_loaded :
    getlineAll '\n' fileWithTrailingComma = ["1,a,20,m,cs,3.5,".toList] ∧
    (Spec.commaFields "1,a,20,m,cs,3.5,".toList).length = 7 ∧
    (loadFromFile CLocale.conv [] (some fileWithTrailingComma)).2.1 = [trailingCommaRecord] ∧
    (getlineAll '\n' fileWithTrailingComma).filterMap (Spec.recordOfLine CLocale.conv) = [] := by
  refine ⟨by decide, by decide, by decide!, by decide!⟩

/-- C8 (evaluation at the failing input): on a well-formed line followed by a
4-field line, `loadFromFile` loads the first record and prints no warning at
all, while a 6-field line with an unparsable number is skipped with a
warning naming it. -/
theorem loadFromFile_short_line_not_logged :
    loadFromFile CLocale.conv [] (some fileWithShortLine) = (true, [demo1], []) ∧
    loadFromFile CLocale.conv [] (some fileWithBadNumber) =
      (true, [], ["x,a,20,m,cs,3.5".toList]) := by
  refine ⟨by decide!, by decide!⟩

/-- C9 (as amended): when the file cannot be opened `loadFromFile` returns true
and leaves the vector as it was; on an existing empty file it returns true and
leaves the empty vector.  The two agree when the vector was empty before the
call. -/
theorem loadFromFile_missing_file (L : NumConv) (students : List Student) :
    loadFromFile L students none = (true, students, []) ∧
    loadFromFile L students (some []) = (true, [], []) ∧
    (students = [] → loadFromFile L students none = loadFromFile L students (some [])) := by
  refine ⟨rfl, rfl, ?_⟩
  intro h
  subst h
  rfl

/-- C9 (counterexample): with `demo1` in memory, a missing file leaves `demo1`
in the vector while an existing empty file leaves the vector empty. -/
theorem loadFromFile_missing_file_keeps_records :
    (loadFromFile CLocale.conv [demo1] none).2.1 = [demo1] ∧
    (loadFromFile CLocale.conv [demo1] (some [])).2.1 = [] ∧
    (loadFromFile CLocale.conv [demo1] none).2.1 ≠
      (loadFromFile CLocale.conv [demo1] (some [])).2.1 := by
  refine ⟨rfl, rfl, ?_⟩
  simp [loadFromFile, loadLines, getlineAll, getlineLoop]

end StudentManager

namespace CLocale

theorem isDigit_digitChar : ∀ d, d < 10 → isDigit (digitChar d) = true := by decide

theorem digitChar_toNat : ∀ d, d < 10 → (digitChar d).toNat - 48 = d := by decide

theorem showNatLoop_digits (fuel n : Nat) (acc : List Char)
    (h : ∀ c ∈ acc, isDigit c = true) : ∀ c ∈ showNatLoop fuel n acc, isDigit c = true := by
  induction fuel generalizing n acc with
  | zero => simpa [showNatLoop] using h
  | succ fuel ih =>
    have hd : isDigit (digitChar (n % 10)) = true :=
      isDigit_digitChar _ (Nat.mod_lt _ (by decide))
    have hacc : ∀ c ∈ digitChar (n % 10) :: acc, isDigit c = true := by
      intro c hc
      rcases List.mem_cons.1 hc with rfl | hc
      · exact hd
      · exact h c hc
    simp only [showNatLoop]
    split
    · exact hacc
    · exact ih _ _ hacc

theorem showNatLoop_ne_nil (fuel n : Nat) (acc : List Char) (h : acc ≠ []) :
    showNatLoop fuel n acc ≠ [] := by
  induction fuel generalizing n acc with
  | zero => simpa [showNatLoop] using h
  | succ fuel ih =>
    simp only [showNatLoop]
    split
    · simp
    · exact ih _ _ (by simp)

theorem showNat_ne_nil (n : Nat) : showNat n ≠ [] := by
  simp only [showNat, showNatLoop]
  split
  · simp
  · exact showNatLoop_ne_nil _ _ _ (by simp)

theorem showNat_digits (n : Nat) : ∀ c ∈ showNat n, isDigit c = true :=
  showNatLoop_digits _ _ _ (by simp)

theorem foldl_digits (l : List Char) (a : Nat) :
    l.foldl (fun a c => 10 * a + (c.toNat - 48)) a = a * 10 ^ l.length + digitsValue l := by
  induction l generalizing a with
  | nil => simp [digitsValue]
  | cons c t ih =>
    simp only [List.foldl_cons, digitsValue, List.length_cons]
    rw [ih, ih (10 * 0 + (c.toNat - 48))]
    ring

theorem digitsValue_cons (c : Char) (l : List Char) :
    digitsValue (c :: l) = (c.toNat - 48) * 10 ^ l.length + digitsValue l := by
  have h := foldl_digits l (10 * 0 + (c.toNat - 48))
  simp only [digitsValue, List.foldl_cons] at h ⊢
  rw [h]
  simp

theorem showNatLoop_value (fuel n : Nat) (acc : List Char) (h : n < fuel) :
    digitsValue (showNatLoop fuel n acc) = n * 10 ^ acc.length + digitsValue acc := by
  induction fuel generalizing n acc with
  | zero => omega
  | succ fuel ih =>
    have hd := digitChar_toNat (n % 10) (Nat.mod_lt _ (by decide))
    simp only [showNatLoop]
    split
    · rename_i h0
      rw [digitsValue_cons, hd]
      have : n % 10 = n := by omega
      rw [this]
    · rename_i h0
      rw [ih (n / 10) _ (by omega), digitsValue_cons, hd, List.length_cons, pow_succ]
      have := Nat.div_add_mod n 10
      calc n / 10 * (10 ^ acc.length * 10) + (n % 10 * 10 ^ acc.length + digitsValue acc)
          = (10 * (n / 10) + n % 10) * 10 ^ acc.length + digitsValue acc := by ring
        _ = n * 10 ^ acc.length + digitsValue acc := by rw [this]

theorem showNat_value (n : Nat) : digitsValue (showNat n) = n := by
  have h := showNatLoop_value (n + 1) n [] (by omega)
  simpa [showNat, digitsValue] using h

theorem isDigit_not_special (c : Char) (h : isDigit c = true) :
    isSpace c = false ∧ c ≠ '-' ∧ c ≠ '+' ∧ c ≠ ',' ∧ c ≠ '\n' := by
  refine ⟨?_, ?_, ?_, ?_, ?_⟩
  · cases hs : isSpace c with
    | false => rfl
    | true =>
      simp only [isSpace, Bool.or_eq_true, decide_eq_true_eq] at hs
      rcases hs with ((((rfl | rfl) | rfl) | rfl) | rfl) | rfl <;> simp [isDigit] at h
  all_goals
    rintro rfl
    simp [isDigit] at h

theorem takeSign_digit (c : Char) (t : List Char) (h : isDigit c = true) :
    takeSign (c :: t) = (false, c :: t) := by
  obtain ⟨_, h1, h2, _⟩ := isDigit_not_special c h
  unfold takeSign
  split
  · rename_i heq
    simp at heq
    exact absurd heq.1 h1
  · rename_i heq
    simp at heq
    exact absurd heq.1 h2
  · rfl

theorem stoi_showNat (m : Nat) :
    (takeSign ((showNat m).dropWhile isSpace)).2.takeWhile isDigit = showNat m ∧
    (takeSign ((showNat m).dropWhile isSpace)).1 = false := by
  have hne := showNat_ne_nil m
  have hd := showNat_digits m
  obtain ⟨c, t, hct⟩ := List.exists_cons_of_ne_nil hne
  have hc : isDigit c = true := hd c (by simp [hct])
  have hsp : isSpace c = false := (isDigit_not_special c hc).1
  have hdrop : (showNat m).dropWhile isSpace = c :: t := by
    rw [hct, List.dropWhile_cons, hsp]
    simp
  rw [hdrop, takeSign_digit c t hc, ← hct]
  refine ⟨?_, rfl⟩
  rw [List.takeWhile_eq_self_iff]
  exact hd

theorem stoi_showInt (n : Int) (h : StudentManager.IsInt n) : stoi (showInt n) = some n := by
  obtain ⟨hlo, hhi⟩ := h
  by_cases hn : n < 0
  · have hshow : showInt n = '-' :: showNat n.natAbs := by simp [showInt, hn]
    have hdrop : (showInt n).dropWhile isSpace = '-' :: showNat n.natAbs := by
      rw [hshow, List.dropWhile_cons]
      simp [isSpace]
    have htw : (showNat n.natAbs).takeWhile isDigit = showNat n.natAbs := by
      rw [List.takeWhile_eq_self_iff]
      exact showNat_digits _
    have hne := showNat_ne_nil n.natAbs
    have hval : -((n.natAbs : Nat) : Int) = n := by omega
    have hemp : (showNat n.natAbs).isEmpty = false := by simpa using hne
    simp only [stoi, hdrop, takeSign, htw, showNat_value, if_true, hval, hemp]
    simp [hlo, hhi]
  · have hshow : showInt n = showNat n.natAbs := by simp [showInt, hn]
    obtain ⟨h1, h2⟩ := stoi_showNat n.natAbs
    have hne := showNat_ne_nil n.natAbs
    have hval : ((n.natAbs : Nat) : Int) = n := by omega
    have hemp : (showNat n.natAbs).isEmpty = false := by simpa using hne
    simp only [stoi, hshow, h1, h2, showNat_value, hval, hemp]
    simp [hlo, hhi]

theorem showInt_plain (n : Int) : StudentManager.PlainText (showInt n) := by
  have hd := showNat_digits n.natAbs
  have hno : ∀ x : Char, x = ',' ∨ x = '\n' → x ∉ showNat n.natAbs := by
    intro x hx hmem
    have hdx := isDigit_not_special x (hd x hmem)
    rcases hx with rfl | rfl
    · exact hdx.2.2.2.1 rfl
    · exact hdx.2.2.2.2 rfl
  unfold showInt
  split
  · exact ⟨by simpa using hno ',' (Or.inl rfl), by simpa using hno '\n' (Or.inr rfl)⟩
  · exact ⟨hno ',' (Or.inl rfl), hno '\n' (Or.inr rfl)⟩

/-- The model of the integer conversions meets their contract. -/
theorem conv_intRoundTrip : StudentManager.IntRoundTrip conv :=
  fun n hn => ⟨showInt_plain n, stoi_showInt n hn⟩

end CLocale

namespace StudentManager

/-! ## Lemmas on the save and load round trip -/

theorem getlineLoop_append (d : Char) (pre item rest : List Char) (h : d ∉ pre) :
    getlineLoop d item (pre ++ rest) = getlineLoop d (item ++ pre) rest := by
  induction pre generalizing item with
  | nil => simp
  | cons c t ih =>
    have hc : c ≠ d := fun hcd => h (hcd ▸ List.mem_cons_self c t)
    have ht : d ∉ t := fun hm => h (List.mem_cons_of_mem c hm)
    rw [List.cons_append, getlineLoop, if_neg hc, ih _ ht]
    simp

/-- An item that ends at a delimiter is extracted, and the loop goes on
behind the delimiter. -/
theorem getlineAll_item (d : Char) (pre rest : List Char) (h : d ∉ pre) :
    getlineAll d (pre ++ d :: rest) = pre :: getlineAll d rest := by
  simp only [getlineAll]
  rw [getlineLoop_append d pre [] _ h]
  simp [getlineLoop]

/-- A last item that is not empty is extracted at the end of the stream. -/
theorem getlineAll_last (d : Char) (pre : List Char) (h : d ∉ pre) (hne : pre ≠ []) :
    getlineAll d pre = [pre] := by
  have := getlineLoop_append d pre [] [] h
  simp only [List.append_nil, List.nil_append] at this
  simp only [getlineAll, this, getlineLoop]
  simp [hne]

/-- The line of a record without its end of line. -/
theorem saveRecord_eq (L : NumConv) (s : Student) :
    saveRecord L s = (L.showInt s.id ++ ',' :: (s.name ++ ',' :: (L.showInt s.age ++
      ',' :: (s.gender ++ ',' :: (s.major ++ ',' :: L.showDouble s.gpa))))) ++ ['\n'] := by
  simp [saveRecord]

theorem tokens_of_fields (a b c d e f : List Char) (ha : ',' ∉ a) (hb : ',' ∉ b)
    (hc : ',' ∉ c) (hd : ',' ∉ d) (he : ',' ∉ e) (hf : ',' ∉ f) (hne : f ≠ []) :
    getlineAll ',' (a ++ ',' :: (b ++ ',' :: (c ++ ',' :: (d ++ ',' :: (e ++ ',' :: f))))) =
      [a, b, c, d, e, f] := by
  rw [getlineAll_item _ _ _ ha, getlineAll_item _ _ _ hb, getlineAll_item _ _ _ hc,
    getlineAll_item _ _ _ hd, getlineAll_item _ _ _ he, getlineAll_last _ _ hf hne]

theorem loadLine_saved (L : NumConv) (hL : IntRoundTrip L) (s : Student)
    (hs : Survives L s) (acc : List Student × List (List Char)) :
    loadLine L (L.showInt s.id ++ ',' :: (s.name ++ ',' :: (L.showInt s.age ++
      ',' :: (s.gender ++ ',' :: (s.major ++ ',' :: L.showDouble s.gpa))))) acc =
      (acc.1 ++ [s], acc.2) := by
  obtain ⟨hid, hage, hname, hgender, hmajor, hgpa, hgne, hstod⟩ := hs
  obtain ⟨hidp, hidr⟩ := hL s.id hid
  obtain ⟨hagep, hager⟩ := hL s.age hage
  have htok := tokens_of_fields (L.showInt s.id) s.name (L.showInt s.age) s.gender s.major
    (L.showDouble s.gpa) hidp.1 hname.1 hagep.1 hgender.1 hmajor.1 hgpa.1 hgne
  have hemp : (L.showInt s.id ++ ',' :: (s.name ++ ',' :: (L.showInt s.age ++
      ',' :: (s.gender ++ ',' :: (s.major ++ ',' :: L.showDouble s.gpa))))).isEmpty = false := by
    simp
  simp only [loadLine, hemp, htok, parseTokens, hidr, hager, hstod]
  simp

theorem saved_line_plain (L : NumConv) (hL : IntRoundTrip L) (s : Student)
    (hs : Survives L s) :
    '\n' ∉ (L.showInt s.id ++ ',' :: (s.name ++ ',' :: (L.showInt s.age ++
      ',' :: (s.gender ++ ',' :: (s.major ++ ',' :: L.showDouble s.gpa))))) := by
  obtain ⟨hid, hage, hname, hgender, hmajor, hgpa, _, _⟩ := hs
  have h1 := (hL s.id hid).1.2
  have h2 := (hL s.age hage).1.2
  simp only [List.mem_append, List.mem_cons, not_or]
  exact ⟨h1, by decide, hname.2, by decide, h2, by decide, hgender.2, by decide, hmajor.2,
    by decide, hgpa.2⟩

theorem loadLines_saved (L : NumConv) (hL : IntRoundTrip L) (students : List Student)
    (h : ∀ s ∈ students, Survives L s) (acc : List Student × List (List Char)) :
    loadLines L (getlineAll '\n' (saveText L students)) acc = (acc.1 ++ students, acc.2) := by
  induction students generalizing acc with
  | nil => simp [saveText, getlineAll, getlineLoop, loadLines]
  | cons s rest ih =>
    have hs := h s (List.mem_cons_self s rest)
    have hrest : ∀ x ∈ rest, Survives L x := fun x hx => h x (List.mem_cons_of_mem s hx)
    rw [saveText, saveRecord_eq, List.append_assoc, List.singleton_append,
      getlineAll_item _ _ _ (saved_line_plain L hL s hs), loadLines,
      loadLine_saved L hL s hs, ih hrest]
    simp

/-- C6 (as amended): for every collection whose identifiers and ages are `int`
values, whose name, gender and major fields contain no comma and no newline,
and whose gpa values survive being written with the default precision and read
back, `saveToFile` succeeds on a file it can open and `loadFromFile` on the
text it wrote reproduces the collection record for record, in the same order,
with no warning. -/
theorem save_load_roundtrip (L : NumConv) (hL : IntRoundTrip L)
    (students old : List Student) (h : ∀ s ∈ students, Survives L s) :
    saveToFile L students true = (true, some (saveText L students)) ∧
    loadFromFile L old (some (saveText L students)) = (true, students, []) := by
  refine ⟨rfl, ?_⟩
  simp only [loadFromFile]
  rw [loadLines_saved L hL students h]
  simp

/-- Witness of C6: the three demo records survive, and are read back from the
text written for them. -/
theorem save_load_roundtrip_witness :
    IntRoundTrip CLocale.conv ∧
    (∀ s ∈ [demo1, demo2, demo3], Survives CLocale.conv s) ∧
    loadFromFile CLocale.conv [] (some (saveText CLocale.conv [demo1, demo2, demo3])) =
      (true, [demo1, demo2, demo3], []) :=
  have h : ∀ s ∈ [demo1, demo2, demo3], Survives CLocale.conv s := by decide!
  ⟨CLocale.conv_intRoundTrip, h,
    (save_load_roundtrip CLocale.conv CLocale.conv_intRoundTrip [demo1, demo2, demo3] [] h).2⟩

/-- C6 (counterexample): the record `fineGpa` has no comma and no newline in
its text fields; the line written for it is `1,a,20,m,cs,1`, and loading that
text yields a record whose gpa is 1, not the gpa that was saved. -/
theorem save_load_loses_gpa :
    (PlainText fineGpa.name ∧ PlainText fineGpa.gender ∧ PlainText fineGpa.major) ∧
    saveText CLocale.conv [fineGpa] = "1,a,20,m,cs,1\n".toList ∧
    loadFromFile CLocale.conv [] (some (saveText CLocale.conv [fineGpa])) =
      (true, [fineGpaReloaded], []) ∧
    (loadFromFile CLocale.conv [] (some (saveText CLocale.conv [fineGpa]))).2.1 ≠ [fineGpa] := by
  refine ⟨by decide, by decide!, by decide!, by decide!⟩

/-! ## Claims on the first match: `deleteStudent`, `updateStudent` -/

/-- A position `k` holding `s` splits the vector around it. -/
theorem split_at_index (l : List Student) (k : Nat) (s : Student) (hs : l[k]? = some s) :
    l = l.take k ++ s :: l.drop (k + 1) := by
  obtain ⟨hk, hget⟩ := List.getElem?_eq_some.1 hs
  have h := List.take_append_drop k l
  rw [List.drop_eq_getElem_cons hk, hget] at h
  exact h.symm

/-- Records before the first match do not have the identifier. -/
theorem before_first_match (l : List Student) (k : Nat) (id : Int)
    (hfirst : ∀ j, j < k → ∀ s, l[j]? = some s → s.id ≠ id) :
    ∀ x ∈ l.take k, x.id ≠ id := by
  intro x hx
  obtain ⟨j, hj, rfl⟩ := List.mem_take_iff_getElem.1 hx
  have hjk : j < k := (Nat.lt_min.1 hj).1
  have hjl : j < l.length := (Nat.lt_min.1 hj).2
  exact hfirst j hjk _ (List.getElem?_eq_getElem hjl)

/-- On a present identifier `deleteStudent` removes the first record that has
it and keeps the records before and behind it. -/
theorem deleteStudent_split (students : List Student) (id : Int)
    (h : ∃ s ∈ students, s.id = id) :
    ∃ pre s post, students = pre ++ s :: post ∧ s.id = id ∧ (∀ x ∈ pre, x.id ≠ id) ∧
      deleteStudent students id = (true, pre ++ post) := by
  obtain ⟨k, hlt, ⟨s, hs, hsid⟩, hfirst, hdel⟩ := deleteStudent_present students id h
  refine ⟨students.take k, s, students.drop (k + 1), split_at_index students k s hs, hsid,
    before_first_match students k id hfirst, ?_⟩
  rw [hdel, List.eraseIdx_eq_take_drop_succ]

/-- On a present identifier `updateStudent` replaces the first record that has
it and keeps the records before and behind it. -/
theorem updateStudent_split (students : List Student) (id : Int) (newInfo : Student)
    (h : ∃ s ∈ students, s.id = id) :
    ∃ pre s post, students = pre ++ s :: post ∧ s.id = id ∧ (∀ x ∈ pre, x.id ≠ id) ∧
      updateStudent students id newInfo = (true, pre ++ newInfo :: post) := by
  obtain ⟨k, hlt, ⟨s, hs, hsid⟩, hfirst, hupd⟩ := updateStudent_present students id newInfo h
  refine ⟨students.take k, s, students.drop (k + 1), split_at_index students k s hs, hsid,
    before_first_match students k id hfirst, ?_⟩
  rw [hupd, List.set_eq_take_append_cons_drop, if_pos hlt]

/-- C14: for every store and every identifier held by some record, the
collection after `deleteStudent` is the collection before with exactly one
record removed, the first one whose identifier is `id`; the records before and
behind it are unchanged and keep their order. -/
theorem deleteStudent_removes_first (students : List Student) (id : Int)
    (h : ∃ s ∈ students, s.id = id) :
    ∃ pre s post, students = pre ++ s :: post ∧ s.id = id ∧ (∀ x ∈ pre, x.id ≠ id) ∧
      (deleteStudent students id).1 = true ∧ (deleteStudent students id).2 = pre ++ post := by
  obtain ⟨pre, s, post, hsplit, hsid, hpre, hdel⟩ := deleteStudent_split students id h
  exact ⟨pre, s, post, hsplit, hsid, hpre, by rw [hdel], by rw [hdel]⟩

/-- Witness of C14: deleting the identifier shared by `demo1` and `demo1Clash`
removes the first of them only. -/
theorem deleteStudent_removes_first_witness :
    (∃ s ∈ [demo2, demo1, demo3, demo1Clash], s.id = 20210001) ∧
    ∃ pre s post, [demo2, demo1, demo3, demo1Clash] = pre ++ s :: post ∧ s.id = 20210001 ∧
      (∀ x ∈ pre, x.id ≠ 20210001) ∧
      (deleteStudent [demo2, demo1, demo3, demo1Clash] 20210001).1 = true ∧
      (deleteStudent [demo2, demo1, demo3, demo1Clash] 20210001).2 = pre ++ post :=
  ⟨⟨demo1, by simp, rfl⟩,
    deleteStudent_removes_first [demo2, demo1, demo3, demo1Clash] 20210001
      ⟨demo1, by simp, rfl⟩⟩

/-- C16: in a store with pairwise distinct identifiers that holds records with
identifiers `a` and `b`, `a ≠ b`, `updateStudent a n` with a record `n` whose
identifier is `b` returns true, and afterwards exactly two records have
identifier `b` and none has identifier `a`. -/
theorem updateStudent_adopts_identifier (students : List Student) (a b : Int) (n : Student)
    (hnd : (students.map (fun s => s.id)).Nodup)
    (ha : ∃ s ∈ students, s.id = a) (hb : ∃ s ∈ students, s.id = b)
    (hab : a ≠ b) (hn : n.id = b) :
    (updateStudent students a n).1 = true ∧
    ((updateStudent students a n).2.map (fun s => s.id)).count b = 2 ∧
    ((updateStudent students a n).2.map (fun s => s.id)).count a = 0 := by
  obtain ⟨pre, s, post, hsplit, hsid, _, hupd⟩ := updateStudent_split students a n ha
  obtain ⟨t, ht, htid⟩ := hb
  rw [hupd]
  rw [hsplit] at hnd ht
  have hmap : (pre ++ s :: post).map (fun s => s.id) =
      pre.map (fun s => s.id) ++ a :: post.map (fun s => s.id) := by
    rw [List.map_append, List.map_cons, hsid]
  have hmap' : (pre ++ n :: post).map (fun s => s.id) =
      pre.map (fun s => s.id) ++ b :: post.map (fun s => s.id) := by
    rw [List.map_append, List.map_cons, hn]
  rw [hmap] at hnd
  have hb_mem : b ∈ pre.map (fun s => s.id) ++ a :: post.map (fun s => s.id) := by
    rw [← hmap, ← htid]
    exact List.mem_map_of_mem (fun s => s.id) ht
  have ha1 := List.count_eq_one_of_mem hnd
    (by simp : a ∈ pre.map (fun s => s.id) ++ a :: post.map (fun s => s.id))
  have hb1 := List.count_eq_one_of_mem hnd hb_mem
  rw [List.count_append, List.count_cons_self] at ha1
  rw [List.count_append, List.count_cons_of_ne (Ne.symm hab)] at hb1
  refine ⟨rfl, ?_, ?_⟩
  · show ((pre ++ n :: post).map (fun s => s.id)).count b = 2
    rw [hmap', List.count_append, List.count_cons_self]
    omega
  · show ((pre ++ n :: post).map (fun s => s.id)).count a = 0
    rw [hmap', List.count_append, List.count_cons_of_ne hab]
    omega

/-- Witness of C16: updating `demo2` to a record with the identifier of
`demo1`. -/
theorem updateStudent_adopts_identifier_witness :
    ([demo1, demo2, demo3].map (fun s => s.id)).Nodup ∧
    (updateStudent [demo1, demo2, demo3] 20210002 demo1Clash).1 = true ∧
    ((updateStudent [demo1, demo2, demo3] 20210002 demo1Clash).2.map
      (fun s => s.id)).count 20210001 = 2 ∧
    ((updateStudent [demo1, demo2, demo3] 20210002 demo1Clash).2.map
      (fun s => s.id)).count 20210002 = 0 :=
  have hnd : ([demo1, demo2, demo3].map (fun s => s.id)).Nodup := by decide
  ⟨hnd, updateStudent_adopts_identifier [demo1, demo2, demo3] 20210002 20210001 demo1Clash
    hnd ⟨demo2, by simp, rfl⟩ ⟨demo1, by simp, rfl⟩ (by decide) rfl⟩

/-- C19: from the empty store, adding `demo1` and `demo2`, updating `demo2` to a
record with the identifier of `demo1` and deleting that identifier all
succeed, and after the deletion has returned true a record with the deleted
identifier is still in the collection and is found by `findStudent`. -/
theorem deleteStudent_leaves_duplicate :
    addStudent [] demo1 = (true, [demo1]) ∧
    addStudent [demo1] demo2 = (true, [demo1, demo2]) ∧
    updateStudent [demo1, demo2] 20210002 demo1Clash = (true, [demo1, demo1Clash]) ∧
    deleteStudent [demo1, demo1Clash] 20210001 = (true, [demo1Clash]) ∧
    demo1Clash.id = 20210001 ∧
    findStudent [demo1Clash] 20210001 = some demo1Clash := by
  refine ⟨by decide!, by decide!, by decide!, by decide!, rfl, by decide!⟩

/-! ## Claims on identifiers and commas in the file -/

/-- C15 (evaluation at the failing input): a file with two well-formed lines
that carry the same identifier is loaded into a collection of two records
with that identifier. -/
theorem loadFromFile_loads_duplicates :
    loadFromFile CLocale.conv [] (some fileWithDuplicateId) =
      (true, [duplicateFirst, duplicateSecond], []) ∧
    ¬ ([duplicateFirst, duplicateSecond].map (fun s => s.id)).Nodup := by
  refine ⟨by decide!, by decide⟩

theorem commaFieldsLoop_length (field s : List Char) :
    (Spec.commaFieldsLoop field s).length = s.count ',' + 1 := by
  induction s generalizing field with
  | nil => simp [Spec.commaFieldsLoop]
  | cons c rest ih =>
    by_cases hc : c = ','
    · subst hc
      simp [Spec.commaFieldsLoop, ih]
    · simp only [Spec.commaFieldsLoop, if_neg hc, ih, List.count_cons_of_ne (Ne.symm hc)]

/-- When the text behind the last delimiter is not empty, the `getline` loop
extracts one item more than there are delimiters. -/
theorem getlineLoop_length (d : Char) (item x f : List Char) (hf : d ∉ f) (hne : f ≠ []) :
    (getlineLoop d item (x ++ f)).length = x.count d + 1 := by
  induction x generalizing item with
  | nil =>
    have h := getlineLoop_append d f item [] hf
    simp only [List.append_nil] at h
    simp [h, getlineLoop, hne]
  | cons c rest ih =>
    by_cases hc : c = d
    · subst hc
      simp [getlineLoop, ih]
    · rw [List.cons_append, getlineLoop, if_neg hc, ih, List.count_cons_of_ne (Ne.symm hc)]

/-- A line whose token count is not 6 changes neither the vector nor the
warnings. -/
theorem loadLine_skip (L : NumConv) (line : List Char)
    (acc : List Student × List (List Char)) (h : (getlineAll ',' line).length ≠ 6) :
    loadLine L line acc = acc := by
  unfold loadLine
  split
  · rfl
  · split
    · rename_i heq
      rw [heq] at h
      simp at h
    · rfl

theorem saveText_append (L : NumConv) (l₁ l₂ : List Student) :
    saveText L (l₁ ++ l₂) = saveText L l₁ ++ saveText L l₂ := by
  induction l₁ with
  | nil => simp [saveText]
  | cons s rest ih => simp [saveText, ih]

/-- The lines written for surviving records are read back as these records,
and the loop goes on with the text behind them. -/
theorem loadLines_saved_then (L : NumConv) (hL : IntRoundTrip L) (students : List Student)
    (h : ∀ s ∈ students, Survives L s) (tail : List Char)
    (acc : List Student × List (List Char)) :
    loadLines L (getlineAll '\n' (saveText L students ++ tail)) acc =
      loadLines L (getlineAll '\n' tail) (acc.1 ++ students, acc.2) := by
  induction students generalizing acc with
  | nil => simp [saveText]
  | cons s rest ih =>
    have hs := h s (List.mem_cons_self s rest)
    have hrest : ∀ x ∈ rest, Survives L x := fun x hx => h x (List.mem_cons_of_mem s hx)
    rw [saveText, saveRecord_eq, List.append_assoc, List.append_assoc, List.singleton_append,
      getlineAll_item _ _ _ (saved_line_plain L hL s hs), loadLines,
      loadLine_saved L hL s hs, ih hrest]
    simp

/-- The line written for a record with a stray comma holds at least 6 commas
before the gpa field. -/
theorem stray_comma_count (L : NumConv) (r : Student)
    (hc : ',' ∈ r.name ∨ ',' ∈ r.gender ∨ ',' ∈ r.major) :
    6 ≤ (L.showInt r.id ++ ',' :: (r.name ++ ',' :: (L.showInt r.age ++
      ',' :: (r.gender ++ ',' :: (r.major ++ [','])))) ).count ',' := by
  simp only [List.count_append, List.count_cons_self, List.count_nil]
  have h : 0 < r.name.count ',' ∨ 0 < r.gender.count ',' ∨ 0 < r.major.count ',' := by
    rcases hc with h | h | h
    · exact Or.inl (List.count_pos_iff.2 h)
    · exact Or.inr (Or.inl (List.count_pos_iff.2 h))
    · exact Or.inr (Or.inr (List.count_pos_iff.2 h))
  omega

theorem stray_comma_line_eq (L : NumConv) (r : Student) :
    L.showInt r.id ++ ',' :: (r.name ++ ',' :: (L.showInt r.age ++
      ',' :: (r.gender ++ ',' :: (r.major ++ ',' :: L.showDouble r.gpa)))) =
    (L.showInt r.id ++ ',' :: (r.name ++ ',' :: (L.showInt r.age ++
      ',' :: (r.gender ++ ',' :: (r.major ++ [','])))) ) ++ L.showDouble r.gpa := by
  simp

/-- C18: for every record written on one line whose name, gender or major
contains a comma, the line `saveToFile` writes for it splits into more than 6
comma-separated fields, and `loadFromFile` on the text saved for a collection
holding it among surviving records yields the other records, in order, and
not this one. -/
theorem stray_comma_drops_record (L : NumConv) (hL : IntRoundTrip L)
    (before behind old : List Student) (r : Student)
    (hbefore : ∀ s ∈ before, Survives L s) (hbehind : ∀ s ∈ behind, Survives L s)
    (hr : HasStrayComma L r) :
    6 < (Spec.commaFields (saveRecord L r).dropLast).length ∧
    6 < (getlineAll ',' (saveRecord L r).dropLast).length ∧
    loadFromFile L old (some (saveText L (before ++ r :: behind))) =
      (true, before ++ behind, []) := by
  obtain ⟨hid, hage, hn1, hn2, hn3, hc, hgpa, hgne⟩ := hr
  have hdrop : (saveRecord L r).dropLast = L.showInt r.id ++ ',' :: (r.name ++ ',' ::
      (L.showInt r.age ++ ',' :: (r.gender ++ ',' :: (r.major ++ ',' ::
        L.showDouble r.gpa)))) := by
    rw [saveRecord_eq, List.dropLast_concat]
  have hcount := stray_comma_count L r hc
  have htok : (getlineAll ',' (saveRecord L r).dropLast).length =
      (L.showInt r.id ++ ',' :: (r.name ++ ',' :: (L.showInt r.age ++
        ',' :: (r.gender ++ ',' :: (r.major ++ [','])))) ).count ',' + 1 := by
    rw [hdrop, stray_comma_line_eq, getlineAll]
    exact getlineLoop_length ',' [] _ _ hgpa.1 hgne
  have hfields : (L.showInt r.id ++ ',' :: (r.name ++ ',' :: (L.showInt r.age ++
        ',' :: (r.gender ++ ',' :: (r.major ++ [','])))) ).count ',' + 1 ≤
      (Spec.commaFields (saveRecord L r).dropLast).length := by
    have key : ∀ x f : List Char, x.count ',' + 1 ≤ (x ++ f).count ',' + 1 := by
      intro x f
      rw [List.count_append]
      omega
    rw [hdrop, stray_comma_line_eq, Spec.commaFields, commaFieldsLoop_length]
    exact key _ _
  have hline : '\n' ∉ (saveRecord L r).dropLast := by
    rw [hdrop]
    have h1 := (hL r.id hid).1.2
    have h2 := (hL r.age hage).1.2
    simp only [List.mem_append, List.mem_cons, not_or]
    exact ⟨h1, by decide, hn1, by decide, h2, by decide, hn2, by decide, hn3, by decide,
      hgpa.2⟩
  have hrec : saveRecord L r = (saveRecord L r).dropLast ++ ['\n'] := by
    rw [hdrop]
    exact saveRecord_eq L r
  refine ⟨by omega, by omega, ?_⟩
  have hskip : ∀ acc, loadLine L (saveRecord L r).dropLast acc = acc :=
    fun acc => loadLine_skip L _ acc (by omega)
  have htext : saveText L (before ++ r :: behind) =
      saveText L before ++ ((saveRecord L r).dropLast ++ '\n' :: (saveText L behind ++ [])) := by
    rw [saveText_append, saveText]
    conv_lhs => rw [hrec]
    simp
  simp only [loadFromFile]
  rw [htext, loadLines_saved_then L hL before hbefore, getlineAll_item _ _ _ hline, loadLines,
    hskip, loadLines_saved_then L hL behind hbehind]
  simp [getlineAll, getlineLoop, loadLines]

/-- Witness of C18: `commaName` between two demo records. -/
theorem stray_comma_drops_record_witness :
    IntRoundTrip CLocale.conv ∧
    (∀ s ∈ [demo1], Survives CLocale.conv s) ∧ (∀ s ∈ [demo2], Survives CLocale.conv s) ∧
    HasStrayComma CLocale.conv commaName ∧
    6 < (Spec.commaFields (saveRecord CLocale.conv commaName).dropLast).length ∧
    6 < (getlineAll ',' (saveRecord CLocale.conv commaName).dropLast).length ∧
    loadFromFile CLocale.conv [] (some (saveText CLocale.conv ([demo1] ++ commaName :: [demo2]))) =
      (true, [demo1] ++ [demo2], []) :=
  have h1 : ∀ s ∈ [demo1], Survives CLocale.conv s := by decide!
  have h2 : ∀ s ∈ [demo2], Survives CLocale.conv s := by decide!
  have h3 : HasStrayComma CLocale.conv commaName := by decide!
  ⟨CLocale.conv_intRoundTrip, h1, h2, h3,
    stray_comma_drops_record CLocale.conv CLocale.conv_intRoundTrip [demo1] [demo2] []
      commaName h1 h2 h3⟩

/-! ## Claims on `searchByName` -/

/-- `find` reports a position exactly when the string occurs as a contiguous
substring. -/
theorem stringFindFrom_ne_none (str s : List Char) (pos : Nat) :
    stringFindFrom str s pos ≠ none ↔ str <:+: s := by
  induction s generalizing pos with
  | nil =>
    cases str with
    | nil => simp [stringFindFrom]
    | cons a t => simp [stringFindFrom]
  | cons c t ih =>
    rw [stringFindFrom, List.infix_cons_iff]
    by_cases hp : str.isPrefixOf (c :: t) = true
    · rw [if_pos hp]
      simp [List.isPrefixOf_iff_prefix.1 hp]
    · rw [if_neg hp, ih]
      have : ¬ str <+: c :: t := fun h => hp (List.isPrefixOf_iff_prefix.2 h)
      simp [this]

theorem searchByName_loop (l : List Student) (q : List Char) (result : List Student) :
    l.foldl (fun result student =>
        if stringFind student.name q ≠ none then result ++ [student] else result) result =
      result ++ l.filter (fun s => decide (q <:+: s.name)) := by
  induction l generalizing result with
  | nil => simp
  | cons s rest ih =>
    rw [List.foldl_cons, ih]
    by_cases h : q <:+: s.name
    · have h' : stringFind s.name q ≠ none := (stringFindFrom_ne_none q s.name 0).2 h
      rw [if_pos h', List.filter_cons_of_pos (by simpa using h)]
      simp
    · have h' : ¬ stringFind s.name q ≠ none := fun hn =>
        h ((stringFindFrom_ne_none q s.name 0).1 hn)
      rw [if_neg h', List.filter_cons_of_neg (by simpa using h)]

/-- C12: `searchByName q` returns, as a list of its own, exactly the records
whose name contains `q` as a contiguous substring (characters compared for
equality, so case-sensitively), in collection order; the result is empty when
no name contains `q`; searching "张" among the demo records returns the
record named "张三"; and "li" does not occur in the name "Li, Si". -/
theorem searchByName_contract (students : List Student) (q : List Char) :
    searchByName students q = students.filter (fun s => decide (q <:+: s.name)) ∧
    (∀ s, s ∈ searchByName students q ↔ s ∈ students ∧ ∃ before behind,
      s.name = before ++ q ++ behind) ∧
    ((∀ s ∈ students, ¬ q <:+: s.name) → searchByName students q = []) ∧
    searchByName [demo1, demo2, demo3] "张".toList = [demo1] ∧
    searchByName [demo1, demo2, demo3] "Zhang".toList = [] ∧
    searchByName [commaName] "Li".toList = [commaName] ∧
    searchByName [commaName] "li".toList = [] := by
  have h : ∀ l : List Student,
      searchByName l q = l.filter (fun s => decide (q <:+: s.name)) := by
    intro l
    rw [searchByName, searchByName_loop, List.nil_append]
  refine ⟨h students, ?_, ?_, by decide!, by decide!, by decide!, by decide!⟩
  · intro s
    rw [h, List.mem_filter]
    simp only [decide_eq_true_eq, List.IsInfix]
    constructor
    · rintro ⟨hs, a, b, hab⟩
      exact ⟨hs, a, b, hab.symm⟩
    · rintro ⟨hs, a, b, hab⟩
      exact ⟨hs, a, b, hab.symm⟩
  · intro hno
    rw [h, List.filter_eq_nil_iff]
    intro s hs
    simpa using hno s hs

/-! ## Claims on the trailing empty field -/

/-- One more comma at the end of a line adds one empty field at the end. -/
theorem commaFieldsLoop_trailing (field s : List Char) :
    Spec.commaFieldsLoop field (s ++ [',']) = Spec.commaFieldsLoop field s ++ [[]] := by
  induction s generalizing field with
  | nil => simp [Spec.commaFieldsLoop]
  | cons c rest ih =>
    by_cases hc : c = ','
    · simp [Spec.commaFieldsLoop, hc, ih]
    · rw [List.cons_append, Spec.commaFieldsLoop, if_neg hc, ih, Spec.commaFieldsLoop,
        if_neg hc]

/-- An empty field at the end is the one `dropTrailingEmpty` removes. -/
theorem dropTrailingEmpty_concat_nil (fields : List (List Char)) :
    Spec.dropTrailingEmpty (fields ++ [[]]) = fields := by
  simp [Spec.dropTrailingEmpty]

/-- Six fields of which the last is not empty are all tokens. -/
theorem dropTrailingEmpty_six (t0 t1 t2 t3 t4 t5 : List Char) (h : t5 ≠ []) :
    Spec.dropTrailingEmpty [t0, t1, t2, t3, t4, t5] = [t0, t1, t2, t3, t4, t5] := by
  simp [Spec.dropTrailingEmpty, h]

/-- A gpa field that `std::stod` accepts is not empty when `std::stod` throws
on the empty string. -/
theorem parseTokens_gpa_ne_nil (L : NumConv) (hstod : L.stod [] = none)
    (t0 t1 t2 t3 t4 t5 : List Char) (s : Student)
    (h : parseTokens L t0 t1 t2 t3 t4 t5 = some s) : t5 ≠ [] := by
  intro h5
  subst h5
  unfold parseTokens at h
  rw [hstod] at h
  split at h <;> simp_all

/-- A line whose tokens are six and parse is loaded as their record. -/
theorem loadLine_tokens (L : NumConv) (line t0 t1 t2 t3 t4 t5 : List Char) (s : Student)
    (htok : getlineAll ',' line = [t0, t1, t2, t3, t4, t5])
    (hparse : parseTokens L t0 t1 t2 t3 t4 t5 = some s)
    (acc : List Student × List (List Char)) :
    loadLine L line acc = (acc.1 ++ [s], acc.2) := by
  have hne : line.isEmpty = false := by
    cases line with
    | nil => simp [getlineAll, getlineLoop] at htok
    | cons c t => rfl
  simp only [loadLine, hne, htok, hparse]
  simp

/-- C21: for every line that splits into exactly 6 comma-separated fields
whose identifier, age and gpa fields parse, the line followed by one more
comma has 7 comma-separated fields, the last one empty, yet the tokenizer of
`loadFromFile` extracts from it the same 6 tokens as from the line itself, and
it is loaded as the same record instead of being skipped, also as the only
line of a file. -/
theorem trailing_comma_same_record (L : NumConv) (hstod : L.stod [] = none)
    (line t0 t1 t2 t3 t4 t5 : List Char) (s : Student)
    (hfields : Spec.commaFields line = [t0, t1, t2, t3, t4, t5])
    (hparse : parseTokens L t0 t1 t2 t3 t4 t5 = some s) :
    Spec.commaFields (line ++ [',']) = [t0, t1, t2, t3, t4, t5, []] ∧
    getlineAll ',' line = [t0, t1, t2, t3, t4, t5] ∧
    getlineAll ',' (line ++ [',']) = [t0, t1, t2, t3, t4, t5] ∧
    (∀ acc, loadLine L line acc = (acc.1 ++ [s], acc.2)) ∧
    (∀ acc, loadLine L (line ++ [',']) acc = (acc.1 ++ [s], acc.2)) ∧
    ('\n' ∉ line → ∀ old,
      loadFromFile L old (some (line ++ [',', '\n'])) = (true, [s], [])) := by
  have h5 : t5 ≠ [] := parseTokens_gpa_ne_nil L hstod t0 t1 t2 t3 t4 t5 s hparse
  have hseven : Spec.commaFields (line ++ [',']) = [t0, t1, t2, t3, t4, t5, []] := by
    rw [Spec.commaFields, commaFieldsLoop_trailing, ← Spec.commaFields, hfields]
    rfl
  have htok : getlineAll ',' line = [t0, t1, t2, t3, t4, t5] := by
    rw [getlineAll_comma_eq, hfields, dropTrailingEmpty_six _ _ _ _ _ _ h5]
  have htok' : getlineAll ',' (line ++ [',']) = [t0, t1, t2, t3, t4, t5] := by
    rw [getlineAll_comma_eq, Spec.commaFields, commaFieldsLoop_trailing, ← Spec.commaFields,
      hfields, dropTrailingEmpty_concat_nil]
  refine ⟨hseven, htok, htok',
    loadLine_tokens L line t0 t1 t2 t3 t4 t5 s htok hparse,
    loadLine_tokens L (line ++ [',']) t0 t1 t2 t3 t4 t5 s htok' hparse, ?_⟩
  intro hnl old
  have hnl' : '\n' ∉ line ++ [','] := by
    simp only [List.mem_append, List.mem_singleton, not_or]
    exact ⟨hnl, by decide⟩
  have hlines : getlineAll '\n' (line ++ [',', '\n']) = [line ++ [',']] := by
    have h := getlineAll_item '\n' (line ++ [',']) [] hnl'
    rw [List.append_assoc] at h
    simpa [getlineAll, getlineLoop] using h
  simp only [loadFromFile, hlines, loadLines,
    loadLine_tokens L (line ++ [',']) t0 t1 t2 t3 t4 t5 s htok' hparse]
  simp

/-- Witness of C21: the line `1,a,20,m,cs,3.5` and the record of its fields. -/
theorem trailing_comma_same_record_witness :
    CLocale.conv.stod [] = none ∧
    Spec.commaFields wellFormedLine =
      ["1".toList, "a".toList, "20".toList, "m".toList, "cs".toList, "3.5".toList] ∧
    parseTokens CLocale.conv "1".toList "a".toList "20".toList "m".toList "cs".toList
      "3.5".toList = some trailingCommaRecord ∧
    getlineAll ',' (wellFormedLine ++ [',']) = getlineAll ',' wellFormedLine ∧
    loadLine CLocale.conv (wellFormedLine ++ [',']) ([], []) = ([trailingCommaRecord], []) ∧
    loadFromFile CLocale.conv [] (some (wellFormedLine ++ [',', '\n'])) =
      (true, [trailingCommaRecord], []) :=
  have hstod : CLocale.conv.stod [] = none := by decide!
  have hfields : Spec.commaFields wellFormedLine =
      ["1".toList, "a".toList, "20".toList, "m".toList, "cs".toList, "3.5".toList] := by
    decide
  have hparse : parseTokens CLocale.conv "1".toList "a".toList "20".toList "m".toList
      "cs".toList "3.5".toList = some trailingCommaRecord := by decide!
  have h := trailing_comma_same_record CLocale.conv hstod wellFormedLine _ _ _ _ _ _
    trailingCommaRecord hfields hparse
  ⟨hstod, hfields, hparse, h.2.2.1.trans h.2.1.symm, h.2.2.2.2.1 ([], []),
    h.2.2.2.2.2 (by decide) []⟩

end StudentManager

/-! ## Lemmas on rounding to `double` -/

namespace Dbl

theorem nearestEven_error (n d : Nat) (hd : 0 < d) :
    |((nearestEven n d : Nat) : ℚ) - (n : ℚ) / d| ≤ 1 / 2 := by
  have hdiv := Nat.div_add_mod n d
  have hmod := Nat.mod_lt n hd
  have hq : (n : ℚ) = d * ((n / d : Nat) : ℚ) + ((n % d : Nat) : ℚ) := by exact_mod_cast hdiv.symm
  have hdq : (0 : ℚ) < d := by exact_mod_cast hd
  have key : ∀ k : ℚ, |k * d - n| ≤ d / 2 → |k - (n : ℚ) / d| ≤ 1 / 2 := by
    intro k hk
    have : k - (n : ℚ) / d = (k * d - n) / d := by field_simp
    rw [this, abs_div, abs_of_pos hdq, div_le_iff₀ hdq]
    linarith
  have hm0 : (0 : ℚ) ≤ ((n % d : Nat) : ℚ) := by positivity
  unfold nearestEven
  split_ifs with h1 h2 h3
  · apply key
    have h1q : (2 : ℚ) * ((n % d : Nat) : ℚ) < d := by exact_mod_cast h1
    rw [abs_le]; constructor <;> nlinarith
  · apply key
    have h1q : (d : ℚ) ≤ 2 * ((n % d : Nat) : ℚ) := by exact_mod_cast (not_lt.1 h1)
    have hmq : ((n % d : Nat) : ℚ) < d := by exact_mod_cast hmod
    push_cast
    rw [abs_le]; constructor <;> nlinarith
  · apply key
    have h1q : (d : ℚ) ≤ 2 * ((n % d : Nat) : ℚ) := by exact_mod_cast (not_lt.1 h1)
    have h2q : (2 : ℚ) * ((n % d : Nat) : ℚ) ≤ d := by exact_mod_cast (not_lt.1 h2)
    rw [abs_le]; constructor <;> nlinarith
  · apply key
    have h1q : (d : ℚ) ≤ 2 * ((n % d : Nat) : ℚ) := by exact_mod_cast (not_lt.1 h1)
    have hmq : ((n % d : Nat) : ℚ) < d := by exact_mod_cast hmod
    push_cast
    rw [abs_le]; constructor <;> nlinarith

theorem binExpUp_le (fuel n d : Nat) (h : d ≤ n) : d * 2 ^ binExpUp fuel n d ≤ n := by
  induction fuel generalizing d with
  | zero => simpa [binExpUp] using h
  | succ fuel ih =>
    unfold binExpUp
    split_ifs with h2
    · have := ih (d * 2) h2
      rw [pow_succ]
      calc d * (2 ^ binExpUp fuel n (d * 2) * 2) = d * 2 * 2 ^ binExpUp fuel n (d * 2) := by ring
        _ ≤ n := this
    · simpa using h

theorem binExpDown_le (fuel n d : Nat) (h : d ≤ n * 2 ^ (fuel + 1)) :
    d ≤ n * 2 ^ binExpDown fuel n d := by
  induction fuel generalizing n with
  | zero => simpa [binExpDown] using h
  | succ fuel ih =>
    unfold binExpDown
    split_ifs with h2
    · simpa using h2
    · have := ih (n * 2) (by
        calc d ≤ n * 2 ^ (fuel + 1 + 1) := h
          _ = n * 2 * 2 ^ (fuel + 1) := by ring)
      rw [pow_succ]
      calc d ≤ n * 2 * 2 ^ binExpDown fuel (n * 2) d := this
        _ = n * (2 ^ binExpDown fuel (n * 2) d * 2) := by ring

theorem binExp_le (n d : Nat) (hn : 0 < n) (hd : 0 < d) :
    (2 : ℚ) ^ binExp n d ≤ (n : ℚ) / d := by
  have hdq : (0 : ℚ) < d := by exact_mod_cast hd
  unfold binExp
  split_ifs with h
  · have := binExpUp_le n n d h
    rw [zpow_natCast, le_div_iff₀ hdq]
    have h2 : ((d * 2 ^ binExpUp n n d : Nat) : ℚ) ≤ n := by exact_mod_cast this
    push_cast at h2
    linarith
  · have hlt : d < 2 ^ d := Nat.lt_two_pow d
    have := binExpDown_le d n d (by
      have : 2 ^ d ≤ n * 2 ^ (d + 1) := by
        rw [pow_succ]; nlinarith [Nat.two_pow_pos d]
      omega)
    rw [zpow_neg, zpow_natCast, le_div_iff₀ hdq, inv_mul_le_iff₀ (by positivity)]
    have h2 : ((d : Nat) : ℚ) ≤ ((n * 2 ^ binExpDown d n d : Nat) : ℚ) := by exact_mod_cast this
    push_cast at h2
    linarith

theorem nearestMultiple_error (n d : Nat) (hd : 0 < d) (p : Int) :
    |nearestMultiple n d p - (n : ℚ) / d| ≤ (2 : ℚ) ^ p / 2 := by
  have hdq : (0 : ℚ) < d := by exact_mod_cast hd
  unfold nearestMultiple
  split_ifs with h
  · obtain ⟨k, rfl⟩ := Int.eq_ofNat_of_zero_le h
    simp only [Int.toNat_ofNat, zpow_natCast]
    have he := nearestEven_error n (d * 2 ^ k) (by positivity)
    have hp : (0 : ℚ) < 2 ^ k := by positivity
    push_cast at he ⊢
    have : ((nearestEven n (d * 2 ^ k) : Nat) : ℚ) * 2 ^ k - (n : ℚ) / d =
        (((nearestEven n (d * 2 ^ k) : Nat) : ℚ) - (n : ℚ) / (d * 2 ^ k)) * 2 ^ k := by
      field_simp
      ring
    rw [this, abs_mul, abs_of_pos hp]
    nlinarith
  · have hneg : p < 0 := not_le.1 h
    obtain ⟨k, hk⟩ := Int.eq_ofNat_of_zero_le (le_of_lt (neg_pos.2 hneg))
    have hpk : p = -(k : Int) := by omega
    subst hpk
    simp only [neg_neg, Int.toNat_ofNat, zpow_neg, zpow_natCast]
    have he := nearestEven_error (n * 2 ^ k) d hd
    have hp : (0 : ℚ) < 2 ^ k := by positivity
    rw [Rat.mkRat_eq_div]
    push_cast at he ⊢
    have : ((nearestEven (n * 2 ^ k) d : Nat) : ℚ) / 2 ^ k - (n : ℚ) / d =
        (((nearestEven (n * 2 ^ k) d : Nat) : ℚ) - (n : ℚ) * 2 ^ k / d) / 2 ^ k := by
      field_simp
      ring
    rw [this, abs_div, abs_of_pos hp, div_le_iff₀ hp]
    have : ((2 : ℚ) ^ k)⁻¹ / 2 * 2 ^ k = 1 / 2 := by field_simp
    linarith

theorem nearestMultiple_nonneg (n d : Nat) (p : Int) : 0 ≤ nearestMultiple n d p := by
  unfold nearestMultiple
  split_ifs with h
  · positivity
  · rw [Rat.mkRat_eq_div]
    positivity

theorem roundMagnitude_error (n d : Nat) (hn : 0 < n) (hd : 0 < d) :
    |roundMagnitude n d - (n : ℚ) / d| ≤ (n : ℚ) / d / 2 ^ 53 + 1 / 2 ^ 1075 := by
  have hdq : (0 : ℚ) < d := by exact_mod_cast hd
  have hnq : (0 : ℚ) < n := by exact_mod_cast hn
  have hq : (0 : ℚ) < (n : ℚ) / d := by positivity
  unfold roundMagnitude
  refine (nearestMultiple_error n d hd _).trans ?_
  by_cases h : -1022 ≤ binExp n d
  · rw [max_eq_left h]
    have hb := binExp_le n d hn hd
    have : (2 : ℚ) ^ (binExp n d - 52) / 2 = 2 ^ binExp n d / 2 ^ 53 := by
      rw [zpow_sub₀ (by norm_num : (2 : ℚ) ≠ 0)]
      norm_num
      ring
    rw [this]
    have h1 : (2 : ℚ) ^ binExp n d / 2 ^ 53 ≤ (n : ℚ) / d / 2 ^ 53 :=
      div_le_div_of_nonneg_right hb (by positivity)
    have h2 : (0 : ℚ) ≤ 1 / 2 ^ 1075 := by positivity
    linarith
  · rw [max_eq_right (le_of_lt (not_le.1 h))]
    have : (2 : ℚ) ^ ((-1022 : Int) - 52) / 2 = 1 / 2 ^ 1075 := by
      norm_num [zpow_neg]
    rw [this]
    have h2 : (0 : ℚ) ≤ (n : ℚ) / d / 2 ^ 53 := by positivity
    linarith

theorem roundMagnitude_nonneg (n d : Nat) : 0 ≤ roundMagnitude n d :=
  nearestMultiple_nonneg n d _

/-- Rounding of a real number of magnitude below `2 ^ 1023`: the result is
finite, with a relative error of at most `2 ^ (-53)` or, in the range of the
subnormal numbers, an absolute error of at most `2 ^ (-1075)`. -/
theorem round_spec (q : ℚ) (h : |q| < 2 ^ 1023) :
    (round q).isFinite = true ∧ |(round q).toRat - q| ≤ |q| / 2 ^ 53 + 1 / 2 ^ 1075 := by
  by_cases h0 : q = 0
  · subst h0
    simp [round, isFinite, toRat]
  have hd : 0 < q.den := q.den_pos
  have hn : 0 < q.num.natAbs := Int.natAbs_pos.2 (Rat.num_ne_zero.2 h0)
  have habs : |q| = (q.num.natAbs : ℚ) / q.den := by
    conv_lhs => rw [← Rat.num_div_den q]
    rw [abs_div, Nat.abs_cast, Nat.cast_natAbs, Int.cast_abs]
  have he := roundMagnitude_error q.num.natAbs q.den hn hd
  have hnn := roundMagnitude_nonneg q.num.natAbs q.den
  rw [← habs] at he
  unfold round
  rw [if_neg h0]
  generalize roundMagnitude q.num.natAbs q.den = M at he hnn ⊢
  have hM : ¬ (2 : ℚ) ^ 1024 ≤ M := by
    rw [abs_le] at he
    have h1 : |q| / 2 ^ 53 ≤ |q| / 2 :=
      div_le_div_of_nonneg_left (abs_nonneg q) (by norm_num) (by norm_num)
    have h2 : (1 : ℚ) / 2 ^ 1075 ≤ 1 := by
      rw [div_le_one (by positivity)]
      exact one_le_pow₀ (by norm_num)
    have h3 : (2 : ℚ) ^ 1024 = 2 * 2 ^ 1023 := by norm_num
    have h4 : (2 : ℚ) ≤ 2 ^ 1023 := by norm_num
    intro hc
    rw [h3] at hc
    linarith
  have hrw : abs (M - abs q) = abs (-M - -abs q) := by
    rw [← abs_neg]
    congr 1
    ring
  rw [if_neg hM]
  by_cases hneg : q < 0
  · rw [if_pos hneg]
    have hq : q = -|q| := by rw [abs_of_neg hneg]; ring
    split_ifs with hz
    · refine ⟨rfl, ?_⟩
      simp only [toRat]
      rw [hz] at he
      rw [zero_sub, abs_neg, abs_abs] at he
      rwa [zero_sub, abs_neg]
    · refine ⟨rfl, ?_⟩
      simp only [toRat]
      rw [hrw] at he
      rw [← hq] at he
      exact he
  · rw [if_neg hneg]
    refine ⟨rfl, ?_⟩
    simp only [toRat]
    rwa [abs_of_nonneg (not_lt.1 hneg)] at he ⊢

theorem nearestEven_one (m : Nat) : nearestEven m 1 = m := by
  simp [nearestEven, Nat.mod_one]

/-- Sizes below `2 ^ 53` convert exactly. -/
theorem ofNat_eq (n : Nat) (h : n < 2 ^ 53) : ofNat n = finite (n : ℚ) := by
  unfold ofNat round
  by_cases h0 : n = 0
  · subst h0
    simp
  have hn : 0 < n := Nat.pos_of_ne_zero h0
  have hq : ((n : ℚ)) ≠ 0 := by exact_mod_cast h0
  have hM : roundMagnitude n 1 = (n : ℚ) := by
    unfold roundMagnitude binExp
    rw [if_pos (show 1 ≤ n from hn)]
    have hle := binExpUp_le n n 1 hn
    rw [one_mul] at hle
    have hk : binExpUp n n 1 < 53 := by
      by_contra hc
      have : 2 ^ 53 ≤ 2 ^ binExpUp n n 1 := Nat.pow_le_pow_right (by norm_num) (not_lt.1 hc)
      omega
    generalize binExpUp n n 1 = k at hk
    have hmax : max (k : Int) (-1022) = k := max_eq_left (by omega)
    rw [hmax]
    unfold nearestMultiple
    split_ifs with hp
    · have : ((k : Int) - 52).toNat = 0 := by omega
      rw [this]
      simp [nearestEven_one]
    · obtain ⟨j, hj⟩ := Int.eq_ofNat_of_zero_le (by omega : (0 : Int) ≤ -((k : Int) - 52))
      rw [hj, Int.toNat_ofNat, nearestEven_one, Rat.mkRat_eq_div]
      push_cast
      field_simp
  have hlt : ¬ (2 : ℚ) ^ 1024 ≤ (n : ℚ) := by
    have h1 : (n : ℚ) < 2 ^ 53 := by exact_mod_cast h
    have h2 : (2 : ℚ) ^ 53 ≤ 2 ^ 1024 := pow_le_pow_right₀ (by norm_num) (by norm_num)
    linarith
  have hpos : ¬ ((n : ℚ) < 0) := not_lt.2 (by positivity)
  simp only [Rat.num_natCast, Int.natAbs_ofNat, Rat.den_natCast, hM]
  rw [if_neg hq, if_neg hlt, if_neg hpos]

/-- A sum of finite values of magnitude below `2 ^ 1023` is finite and has the
rounding error of `round`. -/
theorem add_spec (a b : Dbl) (ha : a.isFinite = true) (hb : b.isFinite = true)
    (h : |a.toRat + b.toRat| < 2 ^ 1023) :
    (add a b).isFinite = true ∧
      |(add a b).toRat - (a.toRat + b.toRat)| ≤ |a.toRat + b.toRat| / 2 ^ 53 + 1 / 2 ^ 1075 := by
  have hpos : (0 : ℚ) ≤ 1 / 2 ^ 1075 := by positivity
  rcases a with x | _ | _ | _ | _ <;> rcases b with y | _ | _ | _ | _ <;>
    simp only [isFinite, Bool.false_eq_true] at ha hb
  · exact round_spec _ h
  · constructor
    · rfl
    · simp only [add, toRat, add_zero, sub_self, abs_zero]
      have h53 : (0 : ℚ) ≤ |x| / 2 ^ 53 := div_nonneg (abs_nonneg x) (by norm_num)
      linarith
  · constructor
    · rfl
    · simp only [add, toRat, zero_add, sub_self, abs_zero]
      have h53 : (0 : ℚ) ≤ |y| / 2 ^ 53 := div_nonneg (abs_nonneg y) (by norm_num)
      linarith
  · constructor
    · rfl
    · simp only [add, toRat, zero_add, sub_self, abs_zero, zero_div]
      exact hpos

/-- A quotient of a finite value by a positive one, of magnitude below
`2 ^ 1023`, is finite and has the rounding error of `round`. -/
theorem div_spec (a : Dbl) (y : ℚ) (hy : 0 < y) (ha : a.isFinite = true)
    (h : |a.toRat / y| < 2 ^ 1023) :
    (div a (finite y)).isFinite = true ∧
      |(div a (finite y)).toRat - a.toRat / y| ≤ |a.toRat / y| / 2 ^ 53 + 1 / 2 ^ 1075 := by
  have hy0 : y ≠ 0 := ne_of_gt hy
  have hpos : (0 : ℚ) ≤ 1 / 2 ^ 1075 := by positivity
  have hyn : ¬ y < 0 := not_lt.2 (le_of_lt hy)
  cases a <;> simp only [isFinite, Bool.false_eq_true] at ha
  · rename_i x
    by_cases hx : x = 0
    · subst hx
      simp only [div, if_neg hy0, if_neg hyn, if_true, toRat, zero_div, sub_self, abs_zero]
      constructor
      · rfl
      · rw [zero_add]
        exact hpos
    · simp only [div, if_neg hy0, if_neg hx]
      exact round_spec _ h
  · simp only [div, if_neg hy0, if_neg hyn, toRat, zero_div, sub_self, abs_zero]
    constructor
    · rfl
    · rw [zero_add]
      exact hpos

theorem lt_eq_extended (a b : Dbl) (ha : a.isNaN = false) (hb : b.isNaN = false) :
    lt a b = decide (extended a < extended b) := by
  cases a <;> cases b <;> simp [isNaN] at ha hb <;> simp [lt, extended] <;>
    first
    | exact WithBot.coe_lt_coe.2 (WithTop.coe_lt_top _)
    | exact WithBot.bot_lt_coe _

theorem le_eq_extended (a b : Dbl) (ha : a.isNaN = false) (hb : b.isNaN = false) :
    le a b = decide (extended a ≤ extended b) := by
  cases a <;> cases b <;> simp [isNaN] at ha hb <;> simp [le, extended]
  exact ne_of_lt (WithBot.coe_lt_coe.2 (WithTop.coe_lt_top _))

theorem le_eq_not_lt (a b : Dbl) (ha : a.isNaN = false) (hb : b.isNaN = false) :
    le a b = !lt b a := by
  rw [le_eq_extended a b ha hb, lt_eq_extended b a hb ha]
  by_cases h : extended a ≤ extended b
  · simp [h, not_lt.2 h]
  · simp [h, not_le.1 h]

end Dbl

/-! ## Lemmas on `std::__insertion_sort` -/

namespace Stl

variable {α : Type}

theorem StrictWeakOrdering.asymm {comp : α → α → Bool} {l : List α}
    (h : StrictWeakOrdering comp l) {a b : α} (ha : a ∈ l) (hb : b ∈ l)
    (hab : comp a b = true) : comp b a = false := by
  by_contra hba
  have hba2 : comp b a = true := by simpa using hba
  have := h.2.1 a ha b hb a ha hab hba2
  rw [h.1 a ha] at this
  exact Bool.false_ne_true this

/-- An element ordered before another is ordered before a third one, or the
third one is ordered before the other. -/
theorem StrictWeakOrdering.cotrans {comp : α → α → Bool} {l : List α}
    (h : StrictWeakOrdering comp l) {a b c : α} (ha : a ∈ l) (hb : b ∈ l) (hc : c ∈ l)
    (hab : comp a b = true) : comp a c = true ∨ comp c b = true := by
  by_contra hne
  push_neg at hne
  obtain ⟨hac, hcb⟩ := hne
  have hac2 : comp a c = false := by simpa using hac
  have hcb2 : comp c b = false := by simpa using hcb
  have hca : comp c a = false := by
    by_contra hca
    have hca2 : comp c a = true := by simpa using hca
    have := h.2.1 c hc a ha b hb hca2 hab
    rw [hcb2] at this
    exact Bool.false_ne_true this
  have hbc : comp b c = false := by
    by_contra hbc
    have hbc2 : comp b c = true := by simpa using hbc
    have := h.2.1 a ha b hb c hc hab hbc2
    rw [hac2] at this
    exact Bool.false_ne_true this
  have := (h.2.2 a ha c hc b hb hac2 hca hcb2 hbc).1
  rw [hab] at this
  exact Bool.false_ne_true this.symm

theorem StrictWeakOrdering.negTrans {comp : α → α → Bool} {l : List α}
    (h : StrictWeakOrdering comp l) {a b c : α} (ha : a ∈ l) (hb : b ∈ l) (hc : c ∈ l)
    (hab : comp a b = false) (hbc : comp b c = false) : comp a c = false := by
  by_contra hac
  have hac2 : comp a c = true := by simpa using hac
  rcases h.cotrans ha hc hb hac2 with h1 | h1
  · rw [hab] at h1
    exact Bool.false_ne_true h1
  · rw [hbc] at h1
    exact Bool.false_ne_true h1

theorem StrictWeakOrdering.mono {comp : α → α → Bool} {l l2 : List α}
    (h : StrictWeakOrdering comp l) (hsub : ∀ x ∈ l2, x ∈ l) : StrictWeakOrdering comp l2 :=
  ⟨fun a ha => h.1 a (hsub a ha),
    fun a ha b hb c hc => h.2.1 a (hsub a ha) b (hsub b hb) c (hsub c hc),
    fun a ha b hb c hc => h.2.2 a (hsub a ha) b (hsub b hb) c (hsub c hc)⟩

/-- Two elements equivalent to a third one are not ordered. -/
theorem StrictWeakOrdering.equivalent_not_comp {comp : α → α → Bool} {l : List α}
    (h : StrictWeakOrdering comp l) {e x y : α} (he : e ∈ l) (hx : x ∈ l) (hy : y ∈ l)
    (hex : equivalent comp e x = true) (hey : equivalent comp e y = true) :
    comp x y = false := by
  simp only [equivalent, Bool.and_eq_true, Bool.not_eq_true'] at hex hey
  exact (h.2.2 x hx e he y hy hex.2 hex.1 hey.1 hey.2).1

/-- `std::__unguarded_linear_insert` stops at the first element, from `last`
backwards, that `val` is not ordered before. -/
theorem unguardedLinearInsert_eq (comp : α → α → Bool) (val : α) (before : List α)
    (h : ∃ x ∈ before, comp val x = false) :
    unguardedLinearInsert comp val before =
      some (before.takeWhile (fun x => comp val x) ++
        val :: before.dropWhile (fun x => comp val x)) := by
  induction before with
  | nil => simp at h
  | cons x before ih =>
    by_cases hx : comp val x = true
    · have h2 : ∃ y ∈ before, comp val y = false := by
        obtain ⟨y, hy, hvy⟩ := h
        rcases List.mem_cons.1 hy with rfl | hy
        · rw [hx] at hvy
          exact absurd hvy (by simp)
        · exact ⟨y, hy, hvy⟩
      simp [unguardedLinearInsert, hx, ih h2, List.takeWhile_cons, List.dropWhile_cons]
    · simp [unguardedLinearInsert, hx, List.takeWhile_cons, List.dropWhile_cons]

/-- Insertion of `val` between a part `front` of elements it is ordered before
and a part `back` of elements it is not ordered before: the result is ordered
and keeps the order of equivalent elements. -/
theorem insert_between (comp : α → α → Bool) (l : List α) (h : StrictWeakOrdering comp l)
    (val : α) (front back : List α) (hval : val ∈ l) (hfront : ∀ x ∈ front, x ∈ l)
    (hsorted : (front ++ back).Pairwise (fun a b => comp a b = false))
    (hf : ∀ x ∈ front, comp val x = true) (hb : ∀ y ∈ back, comp val y = false) :
    (front ++ val :: back).Perm (val :: (front ++ back)) ∧
    (front ++ val :: back).Pairwise (fun a b => comp a b = false) ∧
    ∀ e ∈ l, (front ++ val :: back).filter (equivalent comp e) =
      (val :: (front ++ back)).filter (equivalent comp e) := by
  refine ⟨List.perm_middle, ?_, ?_⟩
  · rw [List.pairwise_append] at hsorted ⊢
    obtain ⟨h1, h2, h3⟩ := hsorted
    refine ⟨h1, List.pairwise_cons.2 ⟨hb, h2⟩, ?_⟩
    intro x hx z hz
    rcases List.mem_cons.1 hz with rfl | hz
    · exact h.asymm hval (hfront x hx) (hf x hx)
    · exact h3 x hx z hz
  · intro e he
    by_cases hev : equivalent comp e val = true
    · have hnone : front.filter (equivalent comp e) = [] := by
        rw [List.filter_eq_nil_iff]
        intro x hx hex
        have := h.equivalent_not_comp he hval (hfront x hx) hev hex
        rw [hf x hx] at this
        exact Bool.false_ne_true this.symm
      simp [List.filter_append, List.filter_cons, hev, hnone]
    · simp [List.filter_append, List.filter_cons, hev]

/-- Whether a comparator is a strict weak ordering on a range depends on its
values on the elements of the range only. -/
theorem StrictWeakOrdering.congr {comp comp2 : α → α → Bool} {l : List α}
    (h : StrictWeakOrdering comp2 l) (hagree : ∀ a ∈ l, ∀ b ∈ l, comp a b = comp2 a b) :
    StrictWeakOrdering comp l := by
  refine ⟨fun a ha => ?_, fun a ha b hb c hc => ?_, fun a ha b hb c hc => ?_⟩
  · rw [hagree a ha a ha]
    exact h.1 a ha
  · rw [hagree a ha b hb, hagree b hb c hc, hagree a ha c hc]
    exact h.2.1 a ha b hb c hc
  · rw [hagree a ha b hb, hagree b hb a ha, hagree b hb c hc, hagree c hc b hb,
      hagree a ha c hc, hagree c hc a ha]
    exact h.2.2 a ha b hb c hc

/-- The comparator `key a < key b` on a linearly ordered key is a strict weak
ordering. -/
theorem keyComp_strictWeak {K : Type} [LinearOrder K] (key : α → K) (l : List α) :
    StrictWeakOrdering (fun a b => decide (key a < key b)) l := by
  refine ⟨fun a _ => ?_, fun a _ b _ c _ => ?_, fun a _ b _ c _ => ?_⟩
  · simp
  · simp only [decide_eq_true_eq]
    exact lt_trans
  · simp only [decide_eq_false_iff_not, not_lt]
    intro h1 h2 h3 h4
    have hab : key a = key b := le_antisymm h2 h1
    have hbc : key b = key c := le_antisymm h4 h3
    exact ⟨le_of_eq (hab.trans hbc).symm, le_of_eq (hab.trans hbc)⟩

theorem dropWhile_head (p : α → Bool) (l : List α) (d : α) (rest : List α)
    (h : l.dropWhile p = d :: rest) : p d = false := by
  induction l with
  | nil => simp at h
  | cons x l ih =>
    rw [List.dropWhile_cons] at h
    split_ifs at h with hx
    · exact ih h
    · rw [List.cons.injEq] at h
      rw [← h.1]
      simpa using hx

/-- One round of the loop of `std::__insertion_sort`. -/
theorem insertionSort_step (comp : α → α → Bool) (l : List α) (h : StrictWeakOrdering comp l)
    (val : α) (sorted rest : List α) (hne : sorted ≠ []) (hval : val ∈ l)
    (hmem : ∀ x ∈ sorted, x ∈ l)
    (hsorted : sorted.Pairwise (fun a b => comp a b = false)) :
    ∃ s, insertionSortLoop comp sorted (val :: rest) = insertionSortLoop comp s rest ∧
      s.Perm (val :: sorted) ∧ s.Pairwise (fun a b => comp a b = false) ∧
      ∀ e ∈ l, s.filter (equivalent comp e) = (val :: sorted).filter (equivalent comp e) := by
  obtain ⟨init, first, rfl⟩ : ∃ init first, sorted = init ++ [first] :=
    ⟨sorted.dropLast, sorted.getLast hne, (List.dropLast_append_getLast hne).symm⟩
  have hfirst : first ∈ l := hmem first (by simp)
  have hlast : (init ++ [first]).getLast? = some first := by simp
  by_cases hc : comp val first = true
  · refine ⟨init ++ [first] ++ [val], ?_, ?_⟩
    · rw [insertionSortLoop, hlast]
      simp only [hc, if_true]
    · have hf : ∀ x ∈ init ++ [first], comp val x = true := by
        intro x hx
        rcases h.cotrans hval hfirst (hmem x hx) hc with h1 | h1
        · exact h1
        · exfalso
          rcases List.mem_append.1 hx with hx | hx
          · have := (List.pairwise_append.1 hsorted).2.2 x hx first (by simp)
            rw [this] at h1
            exact Bool.false_ne_true h1
          · simp only [List.mem_singleton] at hx
            rw [hx, h.1 first hfirst] at h1
            exact Bool.false_ne_true h1
      have := insert_between comp l h val (init ++ [first]) [] hval hmem
        (by simpa using hsorted) hf (by simp)
      simpa using this
  · have hc2 : comp val first = false := by simpa using hc
    have huli := unguardedLinearInsert_eq comp val (init ++ [first])
      ⟨first, by simp, hc2⟩
    have hsplit := List.takeWhile_append_dropWhile (fun x => comp val x) (init ++ [first])
    refine ⟨(init ++ [first]).takeWhile (fun x => comp val x) ++
      val :: (init ++ [first]).dropWhile (fun x => comp val x), ?_, ?_⟩
    · rw [insertionSortLoop, hlast]
      simp only [hc, huli]
      rfl
    · have hT : ∀ x ∈ (init ++ [first]).takeWhile (fun x => comp val x), x ∈ l :=
        fun x hx => hmem x ((List.takeWhile_sublist _).subset hx)
      have hD : ∀ x ∈ (init ++ [first]).dropWhile (fun x => comp val x), x ∈ l :=
        fun x hx => hmem x ((List.dropWhile_sublist _).subset hx)
      refine (fun this => ?_) (insert_between comp l h val
        ((init ++ [first]).takeWhile (fun x => comp val x))
        ((init ++ [first]).dropWhile (fun x => comp val x)) hval hT
        (by rw [hsplit]; exact hsorted)
        (fun x hx => List.mem_takeWhile_imp hx) ?_)
      · rw [hsplit] at this
        exact this
      · intro y hy
        cases hdrop : (init ++ [first]).dropWhile (fun x => comp val x) with
        | nil => rw [hdrop] at hy; simp at hy
        | cons d rest2 =>
          have hd := dropWhile_head _ _ d rest2 hdrop
          rw [hdrop] at hy hD
          rcases List.mem_cons.1 hy with rfl | hy
          · exact hd
          · by_contra hvy
            have hvy2 : comp val y = true := by simpa using hvy
            have hsd : (d :: rest2).Pairwise (fun a b => comp a b = false) := by
              have := hsorted
              rw [← hsplit, hdrop] at this
              exact (List.pairwise_append.1 this).2.1
            have hdy : comp d y = false := (List.pairwise_cons.1 hsd).1 y hy
            rcases h.cotrans hval (hD y (by simp [hy])) (hD d (by simp)) hvy2 with h1 | h1
            · rw [hd] at h1
              exact Bool.false_ne_true h1
            · rw [hdy] at h1
              exact Bool.false_ne_true h1

/-- The loop of `std::__insertion_sort` ends, with the elements in order and
equivalent elements in their order of arrival. -/
theorem insertionSortLoop_spec (comp : α → α → Bool) (l : List α)
    (h : StrictWeakOrdering comp l) (rest : List α) :
    ∀ sorted : List α, sorted ≠ [] → (∀ x ∈ sorted, x ∈ l) → (∀ x ∈ rest, x ∈ l) →
      sorted.Pairwise (fun a b => comp a b = false) →
      ∃ r, insertionSortLoop comp sorted rest = some r ∧ r.Perm (rest.reverse ++ sorted) ∧
        r.Pairwise (fun a b => comp a b = false) ∧
        ∀ e ∈ l, r.filter (equivalent comp e) =
          (rest.reverse ++ sorted).filter (equivalent comp e) := by
  induction rest with
  | nil =>
    intro sorted _ _ _ hs
    exact ⟨sorted, rfl, by simp, hs, fun e _ => by simp⟩
  | cons val rest ih =>
    intro sorted hne hmem hrest hs
    obtain ⟨s, hstep, hperm, hsorted, hfilter⟩ := insertionSort_step comp l h val sorted rest
      hne (hrest val (by simp)) hmem hs
    have hsne : s ≠ [] := by
      intro hnil
      rw [hnil] at hperm
      exact List.cons_ne_nil _ _ (List.perm_nil.1 hperm.symm)
    have hsmem : ∀ x ∈ s, x ∈ l := by
      intro x hx
      rcases List.mem_cons.1 (hperm.subset hx) with rfl | hx2
      · exact hrest _ (by simp)
      · exact hmem x hx2
    obtain ⟨r, hr, hrperm, hrsorted, hrfilter⟩ := ih s hsne hsmem
      (fun x hx => hrest x (by simp [hx])) hsorted
    refine ⟨r, by rw [hstep, hr], ?_, hrsorted, ?_⟩
    · refine hrperm.trans ?_
      rw [List.reverse_cons, List.append_assoc]
      exact List.Perm.append_left _ (by simpa using hperm)
    · intro e he
      rw [hrfilter e he, List.reverse_cons, List.append_assoc, List.filter_append,
        List.filter_append, hfilter e he]
      rfl

/-- `std::__insertion_sort` with a comparator that is a strict weak ordering
on the elements of the range: the result is a rearrangement of the range in
which no element is ordered before an earlier one and equivalent elements keep
their order. -/
theorem insertionSort_spec (comp : α → α → Bool) (l : List α)
    (h : StrictWeakOrdering comp l) :
    ∃ r, insertionSort comp l = some r ∧ r.Perm l ∧
      r.Pairwise (fun a b => comp b a = false) ∧
      ∀ e ∈ l, r.filter (equivalent comp e) = l.filter (equivalent comp e) := by
  cases l with
  | nil => exact ⟨[], rfl, List.Perm.refl _, List.Pairwise.nil, fun e _ => rfl⟩
  | cons x rest =>
    obtain ⟨r, hr, hperm, hsorted, hfilter⟩ := insertionSortLoop_spec comp (x :: rest) h rest
      [x] (by simp) (by simp) (fun y hy => by simp [hy]) (List.pairwise_singleton _ _)
    refine ⟨r.reverse, by simp [insertionSort, hr], ?_, ?_, ?_⟩
    · refine (List.reverse_perm r).trans (hperm.trans ?_)
      have : (rest.reverse ++ [x]) = (x :: rest).reverse := by simp
      rw [this]
      exact List.reverse_perm _
    · exact List.pairwise_reverse.2 hsorted
    · intro e he
      rw [List.filter_reverse, hfilter e he]
      have : (rest.reverse ++ [x]) = (x :: rest).reverse := by simp
      rw [this, List.filter_reverse, List.reverse_reverse]

/-- On a range of at most 16 elements `std::sort` is `std::__insertion_sort`. -/
theorem sort_short (comp : α → α → Bool) (v : List α) (h : v.length ≤ 16) :
    sort comp v = insertionSort comp v := by
  have h16 : ¬ v.length > 16 := by omega
  have hintro : ∀ d, introsortLoop comp d v = some v := by
    intro d
    cases d <;> simp [introsortLoop, h16]
  cases v with
  | nil => rfl
  | cons x rest =>
    simp only [sort, List.isEmpty_cons, Bool.false_eq_true, if_false, hintro,
      finalInsertionSort, h16]

/-- `std::__unguarded_linear_insert` into an ordered part that holds an
element `val` is not ordered before: the loop stays in the range and the part
is ordered again. -/
theorem unguardedLinearInsert_spec (comp : α → α → Bool) (l : List α)
    (h : StrictWeakOrdering comp l) (val : α) (sorted : List α) (hval : val ∈ l)
    (hmem : ∀ x ∈ sorted, x ∈ l)
    (hsorted : sorted.Pairwise (fun a b => comp a b = false))
    (hstop : ∃ x ∈ sorted, comp val x = false) :
    ∃ s, unguardedLinearInsert comp val sorted = some s ∧ s.Perm (val :: sorted) ∧
      s.Pairwise (fun a b => comp a b = false) := by
  have huli := unguardedLinearInsert_eq comp val sorted hstop
  have hsplit := List.takeWhile_append_dropWhile (fun x => comp val x) sorted
  have hT : ∀ x ∈ sorted.takeWhile (fun x => comp val x), x ∈ l :=
    fun x hx => hmem x ((List.takeWhile_sublist _).subset hx)
  have hD : ∀ x ∈ sorted.dropWhile (fun x => comp val x), x ∈ l :=
    fun x hx => hmem x ((List.dropWhile_sublist _).subset hx)
  have hb : ∀ y ∈ sorted.dropWhile (fun x => comp val x), comp val y = false := by
    intro y hy
    cases hdrop : sorted.dropWhile (fun x => comp val x) with
    | nil => rw [hdrop] at hy; simp at hy
    | cons d rest2 =>
      have hd := dropWhile_head _ _ d rest2 hdrop
      rw [hdrop] at hy hD
      rcases List.mem_cons.1 hy with rfl | hy
      · exact hd
      · by_contra hvy
        have hvy2 : comp val y = true := by simpa using hvy
        have hsd : (d :: rest2).Pairwise (fun a b => comp a b = false) := by
          have := hsorted
          rw [← hsplit, hdrop] at this
          exact (List.pairwise_append.1 this).2.1
        have hdy : comp d y = false := (List.pairwise_cons.1 hsd).1 y hy
        rcases h.cotrans hval (hD y (by simp [hy])) (hD d (by simp)) hvy2 with h1 | h1
        · rw [hd] at h1
          exact Bool.false_ne_true h1
        · rw [hdy] at h1
          exact Bool.false_ne_true h1
  have := insert_between comp l h val (sorted.takeWhile (fun x => comp val x))
    (sorted.dropWhile (fun x => comp val x)) hval hT (by rw [hsplit]; exact hsorted)
    (fun x hx => List.mem_takeWhile_imp hx) hb
  rw [hsplit] at this
  exact ⟨_, huli, this.1, this.2.1⟩

/-- The loop of `std::__unguarded_insertion_sort` when the part before the
range holds an element that no element is ordered before. -/
theorem unguardedInsertionSortLoop_spec (comp : α → α → Bool) (l : List α)
    (h : StrictWeakOrdering comp l) (m : α) (hm : ∀ y ∈ l, comp y m = false)
    (rest : List α) :
    ∀ before : List α, m ∈ before → (∀ x ∈ before, x ∈ l) → (∀ x ∈ rest, x ∈ l) →
      before.Pairwise (fun a b => comp a b = false) →
      ∃ r, unguardedInsertionSortLoop comp before rest = some r ∧
        r.Perm (rest.reverse ++ before) ∧ r.Pairwise (fun a b => comp a b = false) := by
  induction rest with
  | nil =>
    intro before _ _ _ hs
    exact ⟨before, rfl, by simp, hs⟩
  | cons val rest ih =>
    intro before hmb hmem hrest hs
    obtain ⟨s, hstep, hperm, hsorted⟩ := unguardedLinearInsert_spec comp l h val before
      (hrest val (by simp)) hmem hs ⟨m, hmb, hm val (hrest val (by simp))⟩
    have hsmem : ∀ x ∈ s, x ∈ l := by
      intro x hx
      rcases List.mem_cons.1 (hperm.subset hx) with rfl | hx2
      · exact hrest _ (by simp)
      · exact hmem x hx2
    obtain ⟨r, hr, hrperm, hrsorted⟩ := ih s (hperm.symm.subset (by simp [hmb])) hsmem
      (fun x hx => hrest x (by simp [hx])) hsorted
    refine ⟨r, by simp [unguardedInsertionSortLoop, hstep, hr], ?_, hrsorted⟩
    refine hrperm.trans ?_
    rw [List.reverse_cons, List.append_assoc]
    exact List.Perm.append_left _ (by simpa using hperm)

/-- `std::__final_insertion_sort` on a range that has, among its first 16
elements, an element that no element is ordered before. -/
theorem finalInsertionSort_spec (comp : α → α → Bool) (v : List α)
    (h : StrictWeakOrdering comp v)
    (hmin : 16 < v.length → ∃ m ∈ v.take 16, ∀ y ∈ v, comp y m = false) :
    ∃ r, finalInsertionSort comp v = some r ∧ r.Perm v ∧
      r.Pairwise (fun a b => comp b a = false) := by
  by_cases hlen : v.length > 16
  · obtain ⟨m, hm16, hm⟩ := hmin hlen
    have hsub : ∀ x ∈ v.take 16, x ∈ v := fun x hx => (List.take_sublist _ _).subset hx
    obtain ⟨head, hhead, hperm, hsorted, _⟩ :=
      insertionSort_spec comp (v.take 16) (h.mono hsub)
    obtain ⟨r, hr, hrperm, hrsorted⟩ := unguardedInsertionSortLoop_spec comp v h m hm
      (v.drop 16) head.reverse (by simpa using hperm.symm.subset hm16)
      (fun x hx => hsub x (hperm.subset (by simpa using hx)))
      (fun x hx => (List.drop_sublist _ _).subset hx)
      (List.pairwise_reverse.2 hsorted)
    refine ⟨r.reverse, by simp [finalInsertionSort, hlen, hhead, hr], ?_,
      List.pairwise_reverse.2 hrsorted⟩
    refine (List.reverse_perm r).trans (hrperm.trans ?_)
    have h1 : ((v.drop 16).reverse ++ head.reverse).Perm (head ++ v.drop 16) := by
      rw [← List.reverse_append]
      exact List.reverse_perm _
    refine h1.trans ?_
    have h2 : (head ++ v.drop 16).Perm (v.take 16 ++ v.drop 16) := hperm.append_right _
    rw [List.take_append_drop] at h2
    exact h2
  · obtain ⟨r, hr, hperm, hsorted, _⟩ := insertionSort_spec comp v h
    exact ⟨r, by simp [finalInsertionSort, hlen, hr], hperm, hsorted⟩

/-! ## Lemmas on `std::__unguarded_partition_pivot` -/

/-- Replacing an element by another one and putting it in front is a
rearrangement. -/
theorem set_perm_cons (t : List α) (b : Nat) (y h : α) (hb : t[b]? = some y) :
    (y :: t.set b h).Perm (h :: t) := by
  induction t generalizing b with
  | nil => simp at hb
  | cons z t ih =>
    cases b with
    | zero =>
      simp only [List.getElem?_cons_zero, Option.some.injEq] at hb
      subst hb
      simp only [List.set_cons_zero]
      exact List.Perm.swap _ _ _
    | succ b =>
      simp only [List.getElem?_cons_succ] at hb
      simp only [List.set_cons_succ]
      exact ((List.Perm.swap z y _).trans ((ih b hb).cons z)).trans (List.Perm.swap h z t)

/-- Exchanging two elements of a range is a rearrangement. -/
theorem swap_perm (v : List α) (a b : Nat) (x y : α) (ha : v[a]? = some x)
    (hb : v[b]? = some y) : ((v.set a y).set b x).Perm v := by
  induction v generalizing a b with
  | nil => simp at ha
  | cons z v ih =>
    cases a with
    | zero =>
      simp only [List.getElem?_cons_zero, Option.some.injEq] at ha
      subst ha
      cases b with
      | zero =>
        simp only [List.getElem?_cons_zero, Option.some.injEq] at hb
        subst hb
        simp
      | succ b =>
        simp only [List.getElem?_cons_succ] at hb
        simp only [List.set_cons_zero, List.set_cons_succ]
        exact set_perm_cons v b y z hb
    | succ a =>
      simp only [List.getElem?_cons_succ] at ha
      cases b with
      | zero =>
        simp only [List.getElem?_cons_zero, Option.some.injEq] at hb
        subst hb
        simp only [List.set_cons_zero, List.set_cons_succ]
        exact set_perm_cons v a x z ha
      | succ b =>
        simp only [List.getElem?_cons_succ] at hb
        simp only [List.set_cons_succ]
        exact (ih a b ha hb).cons z

/-- `std::iter_swap` on two positions of the range. -/
theorem iterSwap_spec (v : List α) (a b : Nat) (x y : α) (ha : v[a]? = some x)
    (hb : v[b]? = some y) :
    ∃ r, iterSwap v a b = some r ∧ r.Perm v ∧ r.length = v.length ∧
      r[b]? = some x ∧ (a ≠ b → r[a]? = some y) ∧
      ∀ k, k ≠ a → k ≠ b → r[k]? = v[k]? := by
  have hal : a < v.length := (List.getElem?_eq_some.1 ha).1
  have hbl : b < v.length := (List.getElem?_eq_some.1 hb).1
  refine ⟨(v.set a y).set b x, by simp [iterSwap, ha, hb], swap_perm v a b x y ha hb,
    by simp, ?_, ?_, ?_⟩
  · rw [List.getElem?_set_self (by simpa using hbl)]
  · intro hne
    rw [List.getElem?_set_ne (Ne.symm hne), List.getElem?_set_self hal]
  · intro k hka hkb
    rw [List.getElem?_set_ne (Ne.symm hkb), List.getElem?_set_ne (Ne.symm hka)]

/-- The loop `while (comp(first, pivot)) ++first;` stops at or before a
position that holds an element not ordered before the pivot. -/
theorem scanUp_spec (comp : α → α → Bool) (v : List α) (pivot : Nat) (p : α)
    (hp : v[pivot]? = some p) (j : Nat) (xj : α) (hj : v[j]? = some xj)
    (hstop : comp xj p = false) (fuel : Nat) :
    ∀ first, first ≤ j → j < first + fuel →
      ∃ i y, scanUp comp v pivot fuel first = some i ∧ first ≤ i ∧ i ≤ j ∧
        v[i]? = some y ∧ comp y p = false ∧
        ∀ k x, first ≤ k → k < i → v[k]? = some x → comp x p = true := by
  induction fuel with
  | zero => intro first h1 h2; omega
  | succ fuel ih =>
    intro first h1 h2
    have hjl : j < v.length := (List.getElem?_eq_some.1 hj).1
    obtain ⟨x, hx⟩ : ∃ x, v[first]? = some x :=
      ⟨v[first], List.getElem?_eq_getElem (by omega)⟩
    by_cases hc : comp x p = true
    · have hne : first ≠ j := by
        intro heq
        rw [heq, hj] at hx
        cases hx
        rw [hstop] at hc
        exact Bool.false_ne_true hc
      obtain ⟨i, y, hi, h3, h4, h5, h6, h7⟩ := ih (first + 1) (by omega) (by omega)
      refine ⟨i, y, by simp [scanUp, hx, hp, hc, hi], by omega, h4, h5, h6, ?_⟩
      intro k z hk1 hk2 hkz
      by_cases hkf : k = first
      · rw [hkf, hx] at hkz
        cases hkz
        exact hc
      · exact h7 k z (by omega) hk2 hkz
    · have hc2 : comp x p = false := by simpa using hc
      refine ⟨first, x, by simp [scanUp, hx, hp, hc2], le_refl _, h1, hx, hc2, ?_⟩
      intro k z hk1 hk2
      omega

/-- The loop `while (comp(pivot, last)) --last;` stops at or after a position
that holds an element the pivot is not ordered before. -/
theorem scanDown_spec (comp : α → α → Bool) (v : List α) (pivot : Nat) (p : α)
    (hp : v[pivot]? = some p) (j : Nat) (xj : α) (hj : v[j]? = some xj)
    (hstop : comp p xj = false) (last : Nat) (hlast : last < v.length) (hjl : j ≤ last) :
    ∃ i y, scanDown comp v pivot last = some i ∧ j ≤ i ∧ i ≤ last ∧
      v[i]? = some y ∧ comp p y = false ∧
      ∀ k x, i < k → k ≤ last → v[k]? = some x → comp p x = true := by
  induction last with
  | zero =>
    have hj0 : j = 0 := by omega
    subst hj0
    refine ⟨0, xj, by simp [scanDown, hj, hp, hstop], le_refl _, le_refl _, hj, hstop, ?_⟩
    intro k x hk1 hk2
    omega
  | succ last ih =>
    obtain ⟨x, hx⟩ : ∃ x, v[last + 1]? = some x :=
      ⟨v[last + 1], List.getElem?_eq_getElem hlast⟩
    by_cases hc : comp p x = true
    · have hne : j ≠ last + 1 := by
        intro heq
        rw [heq, hx] at hj
        cases hj
        rw [hstop] at hc
        exact Bool.false_ne_true hc
      obtain ⟨i, y, hi, h3, h4, h5, h6, h7⟩ := ih (by omega) (by omega)
      refine ⟨i, y, by simp [scanDown, hx, hp, hc, hi], h3, by omega, h5, h6, ?_⟩
      intro k z hk1 hk2 hkz
      by_cases hkf : k = last + 1
      · rw [hkf, hx] at hkz
        cases hkz
        exact hc
      · exact h7 k z hk1 (by omega) hkz
    · have hc2 : comp p x = false := by simpa using hc
      refine ⟨last + 1, x, by simp [scanDown, hx, hp, hc2], hjl, le_refl _, hx, hc2, ?_⟩
      intro k z hk1 hk2
      omega

/-- The loop of `std::__unguarded_partition` around a pivot `p` held at
position 0: when the positions before `first` hold elements `p` is not ordered
before, the positions from `last` on elements not ordered before `p`, and some
position from `first` on an element not ordered before `p`, the loops stay in
the range, and the positions before the returned one hold elements `p` is not
ordered before, the others elements not ordered before `p`. -/
theorem unguardedPartition_spec (comp : α → α → Bool) (l : List α)
    (h : StrictWeakOrdering comp l) (p : α) (fuel : Nat) :
    ∀ (v : List α) (first last : Nat), (∀ x ∈ v, x ∈ l) → v[0]? = some p → 1 ≤ first →
      first ≤ last → last ≤ v.length → last < first + fuel →
      (∀ i x, 1 ≤ i → i < first → v[i]? = some x → comp p x = false) →
      (∀ i x, last ≤ i → v[i]? = some x → comp x p = false) →
      (∃ j x, first ≤ j ∧ v[j]? = some x ∧ comp x p = false) →
      ∃ cut r, unguardedPartition comp 0 fuel v first last = some (cut, r) ∧ r.Perm v ∧
        1 ≤ cut ∧ cut < v.length ∧
        (∀ i x, i < cut → r[i]? = some x → comp p x = false) ∧
        (∀ i x, cut ≤ i → r[i]? = some x → comp x p = false) := by
  induction fuel with
  | zero => intro v first last _ _ _ h1 _ h2; omega
  | succ fuel ih =>
    intro v first last hmem hp hfirst hfl hlast hfuel hleft hright hsent
    have hpl : p ∈ l := hmem p (List.getElem?_mem hp)
    obtain ⟨j, xj, hj1, hj2, hj3⟩ := hsent
    have hjl : j < v.length := (List.getElem?_eq_some.1 hj2).1
    obtain ⟨first1, y1, hs1, hf1, hf2, hf3, hf4, hf5⟩ :=
      scanUp_spec comp v 0 p hp j xj hj2 hj3 (v.length + 1) first hj1 (by omega)
    obtain ⟨last0, hlast0⟩ : ∃ last0, last = last0 + 1 := ⟨last - 1, by omega⟩
    subst hlast0
    obtain ⟨last1, y2, hs2, _, hl2, hl3, hl4, hl5⟩ :=
      scanDown_spec comp v 0 p hp 0 p hp (h.1 p hpl) last0 (by omega) (Nat.zero_le _)
    by_cases hlt : first1 < last1
    · obtain ⟨v1, hsw, hperm, hlen, hsw1, hsw2, hsw3⟩ :=
        iterSwap_spec v first1 last1 y1 y2 hf3 hl3
      have hsw2 := hsw2 (by omega)
      have hmem1 : ∀ x ∈ v1, x ∈ l := fun x hx => hmem x (hperm.subset hx)
      obtain ⟨cut, r, hr, hrperm, hc1, hc2, hc3, hc4⟩ := ih v1 (first1 + 1) last1 hmem1
        (by rw [hsw3 0 (by omega) (by omega)]; exact hp) (by omega) (by omega) (by omega)
        (by omega)
        (by
          intro i x hi1 hi2 hix
          by_cases hi3 : i = first1
          · rw [hi3, hsw2] at hix
            cases hix
            exact hl4
          · rw [hsw3 i hi3 (by omega)] at hix
            by_cases hi4 : i < first
            · exact hleft i x hi1 hi4 hix
            · exact h.asymm (hmem x (List.getElem?_mem hix)) hpl
                (hf5 i x (by omega) (by omega) hix))
        (by
          intro i x hi1 hix
          by_cases hi3 : i = last1
          · rw [hi3, hsw1] at hix
            cases hix
            exact hf4
          · rw [hsw3 i (by omega) hi3] at hix
            by_cases hi4 : i ≤ last0
            · exact h.asymm hpl (hmem x (List.getElem?_mem hix))
                (hl5 i x (by omega) hi4 hix)
            · exact hright i x (by omega) hix)
        ⟨last1, y1, by omega, hsw1, hf4⟩
      refine ⟨cut, r, ?_, hrperm.trans hperm, hc1, by omega, hc3, hc4⟩
      simp only [unguardedPartition, hs1, hs2, hlt, if_true, hsw, hr]
    · refine ⟨first1, v, ?_, List.Perm.refl _, by omega, by omega, ?_, ?_⟩
      · simp only [unguardedPartition, hs1, hs2, hlt, if_false]
      · intro i x hi hix
        by_cases hi0 : i = 0
        · rw [hi0, hp] at hix
          cases hix
          exact h.1 _ hpl
        · by_cases hi4 : i < first
          · exact hleft i x (by omega) hi4 hix
          · exact h.asymm (hmem x (List.getElem?_mem hix)) hpl
              (hf5 i x (by omega) hi hix)
      · intro i x hi hix
        by_cases hi3 : i = first1
        · rw [hi3, hf3] at hix
          cases hix
          exact hf4
        · by_cases hi4 : i ≤ last0
          · exact h.asymm hpl (hmem x (List.getElem?_mem hix))
              (hl5 i x (by omega) hi4 hix)
          · exact hright i x (by omega) hix

/-- Moving the element at `med` to the first position leaves, at another
position `j`, an element not ordered before it. -/
theorem iterSwap_median (comp : α → α → Bool) (v : List α) (med j : Nat) (m s : α)
    (hlen : 0 < v.length) (hmed : v[med]? = some m) (hj : v[j]? = some s)
    (hm0 : med ≠ 0) (hj0 : 1 ≤ j) (hjm : j ≠ med) (hc : comp s m = false) :
    ∃ r p, iterSwap v 0 med = some r ∧ r.Perm v ∧ r[0]? = some p ∧
      ∃ j x, 1 ≤ j ∧ r[j]? = some x ∧ comp x p = false := by
  obtain ⟨w, hw⟩ : ∃ w, v[0]? = some w := ⟨v[0], List.getElem?_eq_getElem hlen⟩
  obtain ⟨r, hr, hperm, _, _, h2, h3⟩ := iterSwap_spec v 0 med w m hw hmed
  exact ⟨r, m, hr, hperm, h2 (Ne.symm hm0), j, s, hj0,
    by rw [h3 j (by omega) hjm]; exact hj, hc⟩

/-- `std::__move_median_to_first` on a range of at least 4 elements: the first
position receives one of the three elements, and one of the others is not
ordered before it. -/
theorem moveMedianToFirst_spec (comp : α → α → Bool) (v : List α)
    (h : StrictWeakOrdering comp v) (hlen : 4 ≤ v.length) :
    ∃ r p, moveMedianToFirst comp v 0 1 (v.length / 2) (v.length - 1) = some r ∧ r.Perm v ∧
      r[0]? = some p ∧ ∃ j x, 1 ≤ j ∧ r[j]? = some x ∧ comp x p = false := by
  obtain ⟨x, hx⟩ : ∃ x, v[1]? = some x := ⟨v[1], List.getElem?_eq_getElem (by omega)⟩
  obtain ⟨y, hy⟩ : ∃ y, v[v.length / 2]? = some y :=
    ⟨v[v.length / 2], List.getElem?_eq_getElem (by omega)⟩
  obtain ⟨z, hz⟩ : ∃ z, v[v.length - 1]? = some z :=
    ⟨v[v.length - 1], List.getElem?_eq_getElem (by omega)⟩
  have hxl : x ∈ v := List.getElem?_mem hx
  have hyl : y ∈ v := List.getElem?_mem hy
  have hzl : z ∈ v := List.getElem?_mem hz
  have h0 : 0 < v.length := by omega
  simp only [moveMedianToFirst, hx, hy, hz]
  by_cases hxy : comp x y = true
  · by_cases hyz : comp y z = true
    · simp only [hxy, hyz, if_true]
      exact iterSwap_median comp v (v.length / 2) (v.length - 1) y z h0 hy hz (by omega)
        (by omega) (by omega) (h.asymm hyl hzl hyz)
    · by_cases hxz : comp x z = true
      · simp only [hxy, hyz, hxz, if_true, if_false]
        exact iterSwap_median comp v (v.length - 1) (v.length / 2) z y h0 hz hy (by omega)
          (by omega) (by omega) (by simpa using hyz)
      · simp only [hxy, hyz, hxz, if_true, if_false]
        exact iterSwap_median comp v 1 (v.length / 2) x y h0 hx hy (by omega)
          (by omega) (by omega) (h.asymm hxl hyl hxy)
  · by_cases hxz : comp x z = true
    · simp only [hxy, hxz, if_true, if_false]
      exact iterSwap_median comp v 1 (v.length - 1) x z h0 hx hz (by omega)
        (by omega) (by omega) (h.asymm hxl hzl hxz)
    · by_cases hyz : comp y z = true
      · simp only [hxy, hxz, hyz, if_true, if_false]
        exact iterSwap_median comp v (v.length - 1) 1 z x h0 hz hx (by omega)
          (by omega) (by omega) (by simpa using hxz)
      · simp only [hxy, hxz, hyz, if_false]
        exact iterSwap_median comp v (v.length / 2) 1 y x h0 hy hx (by omega)
          (by omega) (by omega) (by simpa using hxy)

/-- `std::__unguarded_partition_pivot` on a range of at least 4 elements: both
parts are not empty, and no element of the second part is ordered before an
element of the first. -/
theorem unguardedPartitionPivot_spec (comp : α → α → Bool) (v : List α)
    (h : StrictWeakOrdering comp v) (hlen : 4 ≤ v.length) :
    ∃ cut r, unguardedPartitionPivot comp v = some (cut, r) ∧ r.Perm v ∧ 1 ≤ cut ∧
      cut < v.length ∧ ∀ x ∈ r.take cut, ∀ y ∈ r.drop cut, comp y x = false := by
  obtain ⟨v1, p, hv1, hperm1, hp, hsent⟩ := moveMedianToFirst_spec comp v h hlen
  have hlen1 : v1.length = v.length := hperm1.length_eq
  have hmem1 : ∀ x ∈ v1, x ∈ v := fun x hx => hperm1.subset hx
  obtain ⟨cut, r, hr, hperm, hc1, hc2, hc3, hc4⟩ := unguardedPartition_spec comp v h p
    (v1.length + 1) v1 1 v1.length hmem1 hp (le_refl _) (by omega) (le_refl _) (by omega)
    (fun i x hi1 hi2 => by omega)
    (fun i x hi hix => by
      have := (List.getElem?_eq_some.1 hix).1
      omega)
    hsent
  have hpl : p ∈ v := hmem1 p (List.getElem?_mem hp)
  refine ⟨cut, r, by simp [unguardedPartitionPivot, hv1, hr], hperm.trans hperm1, hc1,
    by omega, ?_⟩
  intro x hx y hy
  have hrmem : ∀ z ∈ r, z ∈ v := fun z hz => hmem1 z (hperm.subset hz)
  obtain ⟨i, hi, hix⟩ := List.getElem_of_mem hx
  obtain ⟨k, hk, hky⟩ := List.getElem_of_mem hy
  have hi2 : i < cut := by
    have := List.length_take_le cut r
    omega
  have hxr : r[i]? = some x := by
    have h1 : (r.take cut)[i]? = some x := by rw [List.getElem?_eq_getElem hi, hix]
    rwa [List.getElem?_take_of_lt hi2] at h1
  have hyr : r[cut + k]? = some y := by
    have h1 : (r.drop cut)[k]? = some y := by rw [List.getElem?_eq_getElem hk, hky]
    rwa [List.getElem?_drop] at h1
  exact h.negTrans (hrmem y (List.getElem?_mem hyr)) hpl (hrmem x (List.getElem?_mem hxr))
    (hc4 _ y (by omega) hyr) (hc3 i x hi2 hxr)

/-! ## Lemmas on the heap functions -/

theorem below_refl (top : Nat) : Below top top := ⟨0, by simp, by simp⟩

theorem below_le {top h : Nat} (hb : Below top h) : top ≤ h := by
  obtain ⟨k, h1, _⟩ := hb
  have : 1 ≤ 2 ^ k := Nat.one_le_two_pow
  nlinarith

theorem below_parent {top h : Nat} (hb : Below top h) (hne : h ≠ top) :
    Below top ((h - 1) / 2) := by
  obtain ⟨k, h1, h2⟩ := hb
  cases k with
  | zero =>
    simp only [pow_zero, mul_one] at h1 h2
    omega
  | succ k =>
    refine ⟨k, ?_, ?_⟩
    · rw [pow_succ, ← mul_assoc] at h1
      generalize (top + 1) * 2 ^ k = a at h1
      omega
    · rw [pow_succ, ← mul_assoc] at h2
      rw [pow_succ, ← mul_assoc] at h1
      have hpos : 0 < (top + 1) * 2 ^ k := by positivity
      generalize (top + 2) * 2 ^ k = b at h2
      generalize (top + 1) * 2 ^ k = a at h1 hpos
      omega

theorem below_child {top h c : Nat} (hb : Below top h) (hc : (c - 1) / 2 = h) (hc0 : 0 < c) :
    Below top c := by
  obtain ⟨k, h1, h2⟩ := hb
  refine ⟨k + 1, ?_, ?_⟩
  · rw [pow_succ, ← mul_assoc]
    generalize (top + 1) * 2 ^ k = a at h1
    omega
  · rw [pow_succ, ← mul_assoc]
    generalize (top + 2) * 2 ^ k = b at h2
    omega

theorem mem_of_mem_set {v : List α} {i : Nat} {a x : α} (hx : x ∈ v.set i a) :
    x ∈ v ∨ x = a := by
  rcases List.mem_or_eq_of_mem_set hx with h | h
  · exact Or.inl h
  · exact Or.inr h

theorem getElem?_set_of_lt (v : List α) (i k : Nat) (a : α) (hi : i < v.length) :
    (v.set i a)[k]? = if k = i then some a else v[k]? := by
  by_cases hk : k = i
  · subst hk
    simp [hi]
  · rw [if_neg hk, List.getElem?_set_ne (Ne.symm hk)]

/-- Moving the hole of a heap from `h` to `g`: the element of `g` goes to `h`,
and the value to insert would now go to `g`. -/
theorem hole_move_perm (v : List α) (h g : Nat) (y value : α) (hh : h < v.length)
    (hg : v[g]? = some y) (hne : h ≠ g) :
    ((v.set h y).set g value).Perm (v.set h value) := by
  have h1 : (v.set h value)[h]? = some value := by simp [hh]
  have h2 : (v.set h value)[g]? = some y := by
    rw [List.getElem?_set_ne hne]
    exact hg
  have := swap_perm (v.set h value) h g value y h1 h2
  rwa [List.set_set] at this

/-- `std::__push_heap` from a hole below `topIndex`, in a range that is a
heap from `topIndex` on and whose elements below the hole `value` is not
ordered before: the range is a heap from `topIndex` on again, with `value` in
place of the element of the hole. -/
theorem pushHeap_spec (comp : α → α → Bool) (l : List α) (h : StrictWeakOrdering comp l)
    (value : α) (hval : value ∈ l) (top len fuel : Nat) :
    ∀ (v : List α) (hole : Nat), (∀ x ∈ v, x ∈ l) → hole < len → len ≤ v.length →
      Below top hole → hole < fuel → HeapFrom comp v top len →
      (∀ c y, 0 < c → c < len → (c - 1) / 2 = hole → v[c]? = some y →
        comp value y = false) →
      ∃ r, pushHeap comp value top fuel v hole = some r ∧ r.length = v.length ∧
        HeapFrom comp r top len ∧ r.Perm (v.set hole value) ∧
        ∀ i, len ≤ i → r[i]? = v[i]? := by
  induction fuel with
  | zero => intro v hole _ _ _ _ h1; omega
  | succ fuel ih =>
    intro v hole hmem hlt hlen hbelow hfuel hheap hchild
    have hhl : hole < v.length := by omega
    have hassign : ∀ a, assign v hole a = some (v.set hole a) := by
      intro a
      simp [assign, hhl]
    have hget : ∀ k a, (v.set hole a)[k]? = if k = hole then some a else v[k]? :=
      fun k a => getElem?_set_of_lt v hole k a hhl
    -- the final assignment
    have hfinal : (hole > top → ∀ p, v[(hole - 1) / 2]? = some p → comp p value = false) →
        ∃ r, (assign v hole value) = some r ∧ r.length = v.length ∧
          HeapFrom comp r top len ∧ r.Perm (v.set hole value) ∧
          ∀ i, len ≤ i → r[i]? = v[i]? := by
      intro hstop
      refine ⟨v.set hole value, hassign value, by simp, ?_, List.Perm.refl _, ?_⟩
      · intro i x y hi0 hil htop hx hy
        rw [hget] at hx hy
        by_cases hih : i = hole
        · have hpar : (i - 1) / 2 ≠ hole := by omega
          rw [if_neg hpar] at hx
          rw [if_pos hih] at hy
          cases hy
          have htop2 : hole > top := by omega
          rw [hih] at hx
          exact hstop htop2 x hx
        · rw [if_neg hih] at hy
          by_cases hph : (i - 1) / 2 = hole
          · rw [if_pos hph] at hx
            cases hx
            exact hchild i y hi0 hil hph hy
          · rw [if_neg hph] at hx
            exact hheap i x y hi0 hil htop hx hy
      · intro i hi
        rw [hget, if_neg (by omega)]
    by_cases htop : hole > top
    · obtain ⟨p, hp⟩ : ∃ p, v[(hole - 1) / 2]? = some p :=
        ⟨v[(hole - 1) / 2], List.getElem?_eq_getElem (by omega)⟩
      have hpl : p ∈ l := hmem p (List.getElem?_mem hp)
      by_cases hc : comp p value = true
      · have hbpar := below_parent hbelow (by omega)
        have htpar := below_le hbpar
        obtain ⟨q, hq⟩ : ∃ q, v[hole]? = some q := ⟨v[hole], List.getElem?_eq_getElem hhl⟩
        have hpq : comp p q = false := hheap hole p q (by omega) hlt htpar hp hq
        obtain ⟨r, hr, hrlen, hrheap, hrperm, hrfix⟩ := ih (v.set hole p) ((hole - 1) / 2)
          (by
            intro x hx
            rcases mem_of_mem_set hx with hx | hx
            · exact hmem x hx
            · rw [hx]; exact hpl)
          (by omega) (by simpa using hlen) hbpar (by omega)
          (by
            intro i x y hi0 hil hit hx hy
            rw [hget] at hx hy
            by_cases hih : i = hole
            · have hpar : (i - 1) / 2 ≠ hole := by omega
              rw [if_neg hpar] at hx
              rw [if_pos hih] at hy
              cases hy
              rw [hih, hp] at hx
              cases hx
              exact h.1 _ hpl
            · rw [if_neg hih] at hy
              by_cases hph : (i - 1) / 2 = hole
              · rw [if_pos hph] at hx
                cases hx
                have hqy : comp q y = false :=
                  hheap i q y hi0 hil hit (by rw [hph]; exact hq) hy
                exact h.negTrans hpl (hmem q (List.getElem?_mem hq))
                  (hmem y (List.getElem?_mem hy)) hpq hqy
              · rw [if_neg hph] at hx
                exact hheap i x y hi0 hil hit hx hy)
          (by
            intro c y hc0 hcl hcp hy
            rw [hget] at hy
            have hvp : comp value p = false := h.asymm hpl hval hc
            by_cases hch : c = hole
            · rw [if_pos hch] at hy
              cases hy
              exact hvp
            · rw [if_neg hch] at hy
              have hpy : comp p y = false :=
                hheap c p y hc0 hcl (by rw [hcp]; exact htpar) (by rw [hcp]; exact hp) hy
              exact h.negTrans hval hpl (hmem y (List.getElem?_mem hy)) hvp hpy)
        refine ⟨r, ?_, by simpa using hrlen, hrheap, ?_, ?_⟩
        · simp only [pushHeap, htop, if_true, hp, hc, hassign, hr]
        · exact hrperm.trans (hole_move_perm v hole ((hole - 1) / 2) p value hhl hp (by omega))
        · intro i hi
          rw [hrfix i hi, hget, if_neg (by omega)]
      · have hc2 : comp p value = false := by simpa using hc
        obtain ⟨r, hr, hrest⟩ := hfinal (fun _ p2 hp2 => by
          rw [hp] at hp2
          cases hp2
          exact hc2)
        refine ⟨r, ?_, hrest⟩
        simp only [pushHeap, htop, if_true, hp, hc, hr]
        simp
    · obtain ⟨r, hr, hrest⟩ := hfinal (fun hgt => absurd hgt htop)
      refine ⟨r, ?_, hrest⟩
      simp only [pushHeap, htop, if_false, hr]

theorem HeapFrom.heapBut {comp : α → α → Bool} {v : List α} {top len : Nat}
    (h : HeapFrom comp v top len) (hole : Nat) : HeapBut comp v top len hole :=
  fun i x y hi0 hil hit _ hx hy => h i x y hi0 hil hit hx hy

/-- Moving the hole of a heap down to the child that is not ordered before
the other child. -/
theorem hole_down (comp : α → α → Bool) (l : List α) (h : StrictWeakOrdering comp l)
    (v : List α) (top len hole c : Nat) (yc : α) (hmem : ∀ x ∈ v, x ∈ l) (hcl : c < len)
    (hlen : len ≤ v.length) (hc0 : 0 < c) (hpar : (c - 1) / 2 = hole)
    (hheap : HeapBut comp v top len hole) (hyc : v[c]? = some yc)
    (hother : ∀ o yo, 0 < o → o < len → (o - 1) / 2 = hole → o ≠ c → v[o]? = some yo →
      comp yc yo = false) :
    HeapFrom comp (v.set hole yc) top len := by
  have hhl : hole < v.length := by omega
  have hycl : yc ∈ l := hmem yc (List.getElem?_mem hyc)
  obtain ⟨q, hq⟩ : ∃ q, v[hole]? = some q := ⟨v[hole], List.getElem?_eq_getElem hhl⟩
  intro i x y hi0 hil hit hx hy
  rw [getElem?_set_of_lt v hole _ yc hhl] at hx hy
  by_cases hih : i = hole
  · have hpne : (i - 1) / 2 ≠ hole := by omega
    rw [if_neg hpne] at hx
    rw [if_pos hih] at hy
    cases hy
    have hne : hole ≠ top := by omega
    have h1 : comp x q = false :=
      hheap i x q hi0 hil hit (fun _ => hne) hx (by rw [hih]; exact hq)
    have h2 : comp q yc = false :=
      hheap c q yc hc0 hcl (by omega) (fun _ => hne) (by rw [hpar]; exact hq) hyc
    exact h.negTrans (hmem x (List.getElem?_mem hx)) (hmem q (List.getElem?_mem hq)) hycl h1 h2
  · rw [if_neg hih] at hy
    by_cases hph : (i - 1) / 2 = hole
    · rw [if_pos hph] at hx
      cases hx
      by_cases hic : i = c
      · rw [hic, hyc] at hy
        cases hy
        exact h.1 _ hycl
      · exact hother i y hi0 hil hph hic hy
    · rw [if_neg hph] at hx
      exact hheap i x y hi0 hil hit (fun heq => by omega) hx hy

/-- The first loop of `std::__adjust_heap`: the hole moves down to a position
without two children, and the range is a heap from `top` on but for the
element of the hole. -/
theorem adjustHeapLoop_spec (comp : α → α → Bool) (l : List α)
    (h : StrictWeakOrdering comp l) (top len fuel : Nat) :
    ∀ (v : List α) (hole : Nat), (∀ x ∈ v, x ∈ l) → hole < len → len ≤ v.length →
      Below top hole → len < hole + fuel → HeapBut comp v top len hole →
      ∃ r hole2, adjustHeapLoop comp len fuel v hole hole = some (r, hole2, hole2) ∧
        r.length = v.length ∧ hole2 < len ∧ Below top hole2 ∧ ¬ hole2 < (len - 1) / 2 ∧
        HeapBut comp r top len hole2 ∧ (∀ x ∈ r, x ∈ l) ∧
        (∀ value, (r.set hole2 value).Perm (v.set hole value)) ∧
        ∀ i, len ≤ i → r[i]? = v[i]? := by
  induction fuel with
  | zero => intro v hole _ h1 _ _ h2; omega
  | succ fuel ih =>
    intro v hole hmem hlt hlen hbelow hfuel hheap
    have hhl : hole < v.length := by omega
    by_cases hcont : hole < (len - 1) / 2
    · obtain ⟨x, hx⟩ : ∃ x, v[2 * (hole + 1)]? = some x :=
        ⟨v[2 * (hole + 1)], List.getElem?_eq_getElem (by omega)⟩
      obtain ⟨y, hy⟩ : ∃ y, v[2 * (hole + 1) - 1]? = some y :=
        ⟨v[2 * (hole + 1) - 1], List.getElem?_eq_getElem (by omega)⟩
      have hxl : x ∈ l := hmem x (List.getElem?_mem hx)
      have hyl : y ∈ l := hmem y (List.getElem?_mem hy)
      have step : ∀ (c : Nat) (yc : α), (c = 2 * (hole + 1) ∨ c = 2 * (hole + 1) - 1) →
          v[c]? = some yc →
          (∀ o yo, 0 < o → o < len → (o - 1) / 2 = hole → o ≠ c → v[o]? = some yo →
            comp yc yo = false) →
          ∃ r hole2, adjustHeapLoop comp len fuel (v.set hole yc) c c = some (r, hole2, hole2) ∧
            r.length = v.length ∧ hole2 < len ∧ Below top hole2 ∧ ¬ hole2 < (len - 1) / 2 ∧
            HeapBut comp r top len hole2 ∧ (∀ x ∈ r, x ∈ l) ∧
            (∀ value, (r.set hole2 value).Perm (v.set hole value)) ∧
            ∀ i, len ≤ i → r[i]? = v[i]? := by
        intro c yc hc hyc hother
        have hcl : c < len := by omega
        have hcp : (c - 1) / 2 = hole := by omega
        have hycl : yc ∈ l := hmem yc (List.getElem?_mem hyc)
        have hheap1 := hole_down comp l h v top len hole c yc hmem hcl hlen (by omega) hcp
          hheap hyc hother
        obtain ⟨r, hole2, hr, hrlen, h1, h2, h3, h4, h5, h6, h7⟩ := ih (v.set hole yc) c
          (by
            intro z hz
            rcases mem_of_mem_set hz with hz | hz
            · exact hmem z hz
            · rw [hz]; exact hycl)
          hcl (by simpa using hlen) (below_child hbelow hcp (by omega)) (by omega)
          (hheap1.heapBut c)
        refine ⟨r, hole2, hr, by simpa using hrlen, h1, h2, h3, h4, h5, ?_, ?_⟩
        · intro value
          exact (h6 value).trans (hole_move_perm v hole c yc value hhl hyc (by omega))
        · intro i hi
          rw [h7 i hi, getElem?_set_of_lt v hole i yc hhl, if_neg (by omega)]
      by_cases hc : comp x y = true
      · obtain ⟨r, hole2, hr, hrest⟩ := step (2 * (hole + 1) - 1) y (Or.inr rfl) hy (by
          intro o yo ho0 hol hop hne hyo
          have ho : o = 2 * (hole + 1) := by omega
          rw [ho, hx] at hyo
          cases hyo
          exact h.asymm hxl hyl hc)
        refine ⟨r, hole2, ?_, hrest⟩
        simp only [adjustHeapLoop, hcont, if_true, hx, hy, hc, assign, hhl, hr]
      · obtain ⟨r, hole2, hr, hrest⟩ := step (2 * (hole + 1)) x (Or.inl rfl) hx (by
          intro o yo ho0 hol hop hne hyo
          have ho : o = 2 * (hole + 1) - 1 := by omega
          rw [ho, hy] at hyo
          cases hyo
          simpa using hc)
        refine ⟨r, hole2, ?_, hrest⟩
        simp only [adjustHeapLoop, hcont, if_true, hx, hy, hc, assign, hhl, hr]
        simp
    · refine ⟨v, hole, ?_, rfl, hlt, hbelow, hcont, hheap, hmem, fun _ => List.Perm.refl _,
        fun _ _ => rfl⟩
      simp only [adjustHeapLoop, hcont, if_false]

/-- `std::__adjust_heap` with the hole at `holeIndex`, in a range that is a
heap from the positions after `holeIndex` on: the range is a heap from
`holeIndex` on, with `value` in place of the element of the hole. -/
theorem adjustHeap_spec (comp : α → α → Bool) (l : List α) (h : StrictWeakOrdering comp l)
    (v : List α) (top len : Nat) (value : α) (hval : value ∈ l) (hmem : ∀ x ∈ v, x ∈ l)
    (htop : top < len) (hlen : len ≤ v.length) (hheap : HeapBut comp v top len top) :
    ∃ r, adjustHeap comp v top len value = some r ∧ r.length = v.length ∧
      HeapFrom comp r top len ∧ r.Perm (v.set top value) ∧ ∀ i, len ≤ i → r[i]? = v[i]? := by
  obtain ⟨v1, hole1, hv1, hlen1, h1, h2, h3, h4, h5, h6, h7⟩ :=
    adjustHeapLoop_spec comp l h top len (len + 1) v top hmem htop hlen (below_refl top)
      (by omega) hheap
  have hh1 : hole1 < v1.length := by omega
  by_cases hspecial : len % 2 = 0 ∧ 2 ≤ len ∧ hole1 = (len - 2) / 2
  · obtain ⟨z, hz⟩ : ∃ z, v1[2 * (hole1 + 1) - 1]? = some z :=
      ⟨v1[2 * (hole1 + 1) - 1], List.getElem?_eq_getElem (by omega)⟩
    have hzl : z ∈ l := h5 z (List.getElem?_mem hz)
    have hheap2 := hole_down comp l h v1 top len hole1 (2 * (hole1 + 1) - 1) z h5 (by omega)
      (by omega) (by omega) (by omega) h4 hz (by
        intro o yo ho0 hol hop hne hyo
        omega)
    obtain ⟨r, hr, hrlen, hrheap, hrperm, hrfix⟩ := pushHeap_spec comp l h value hval top len
      (len + 1) (v1.set hole1 z) (2 * (hole1 + 1) - 1)
      (by
        intro x hx
        rcases mem_of_mem_set hx with hx | hx
        · exact h5 x hx
        · rw [hx]; exact hzl)
      (by omega) (by simp; omega) (below_child h2 (by omega) (by omega)) (by omega) hheap2
      (by
        intro c y hc0 hcl hcp hy
        omega)
    refine ⟨r, ?_, by simp at hrlen; omega, hrheap, ?_, ?_⟩
    · simp only [adjustHeap, hv1]
      rw [if_pos hspecial]
      simp only [hz, assign, hh1, if_true, hr]
    · exact (hrperm.trans (hole_move_perm v1 hole1 _ z value hh1 hz (by omega))).trans
        (h6 value)
    · intro i hi
      rw [hrfix i hi, getElem?_set_of_lt v1 hole1 i z hh1, if_neg (by omega), h7 i hi]
  · have hheap1 : HeapFrom comp v1 top len := by
      intro i x y hi0 hil hit hx hy
      refine h4 i x y hi0 hil hit (fun heq hh => ?_) hx hy
      rw [hh] at h3 hspecial
      simp only [not_and] at hspecial
      omega
    obtain ⟨r, hr, hrlen, hrheap, hrperm, hrfix⟩ := pushHeap_spec comp l h value hval top len
      (len + 1) v1 hole1 h5 h1 (by omega) h2 (by omega) hheap1
      (by
        intro c y hc0 hcl hcp hy
        simp only [not_and] at hspecial
        omega)
    refine ⟨r, ?_, by omega, hrheap, hrperm.trans (h6 value), ?_⟩
    · simp only [adjustHeap, hv1]
      rw [if_neg hspecial]
      exact hr
    · intro i hi
      rw [hrfix i hi, h7 i hi]

theorem set_self (v : List α) (i : Nat) (a : α) (h : v[i]? = some a) : v.set i a = v := by
  have hi : i < v.length := (List.getElem?_eq_some.1 h).1
  apply List.ext_getElem?
  intro k
  rw [getElem?_set_of_lt v i k a hi]
  by_cases hk : k = i
  · rw [if_pos hk, hk, h]
  · rw [if_neg hk]

/-- The loop of `std::__make_heap`. -/
theorem makeHeapLoop_spec (comp : α → α → Bool) (l : List α) (h : StrictWeakOrdering comp l)
    (len parent : Nat) :
    ∀ v : List α, (∀ x ∈ v, x ∈ l) → parent < len → len ≤ v.length →
      HeapBut comp v parent len parent →
      ∃ r, makeHeapLoop comp len parent v = some r ∧ r.length = v.length ∧
        HeapFrom comp r 0 len ∧ r.Perm v := by
  induction parent with
  | zero =>
    intro v hmem hp hlen hheap
    obtain ⟨value, hvalue⟩ : ∃ value, v[0]? = some value :=
      ⟨v[0], List.getElem?_eq_getElem (by omega)⟩
    obtain ⟨r, hr, hrlen, hrheap, hrperm, _⟩ := adjustHeap_spec comp l h v 0 len value
      (hmem value (List.getElem?_mem hvalue)) hmem hp hlen hheap
    rw [set_self v 0 value hvalue] at hrperm
    exact ⟨r, by simp only [makeHeapLoop, hvalue, hr], hrlen, hrheap, hrperm⟩
  | succ parent ih =>
    intro v hmem hp hlen hheap
    obtain ⟨value, hvalue⟩ : ∃ value, v[parent + 1]? = some value :=
      ⟨v[parent + 1], List.getElem?_eq_getElem (by omega)⟩
    obtain ⟨v1, hv1, hlen1, hheap1, hperm1, _⟩ := adjustHeap_spec comp l h v (parent + 1) len
      value (hmem value (List.getElem?_mem hvalue)) hmem hp hlen hheap
    rw [set_self v (parent + 1) value hvalue] at hperm1
    obtain ⟨r, hr, hrlen, hrheap, hrperm⟩ := ih v1 (fun x hx => hmem x (hperm1.subset hx))
      (by omega) (by omega)
      (fun i x y hi0 hil hit hne hx hy =>
        hheap1 i x y hi0 hil (by
          have : (i - 1) / 2 ≠ parent := fun heq => hne heq rfl
          omega) hx hy)
    exact ⟨r, by simp only [makeHeapLoop, hvalue, hv1, hr], by omega, hrheap,
      hrperm.trans hperm1⟩

/-- `std::__make_heap`: the range becomes a heap. -/
theorem makeHeap_spec (comp : α → α → Bool) (l : List α) (h : StrictWeakOrdering comp l)
    (v : List α) (hmem : ∀ x ∈ v, x ∈ l) :
    ∃ r, makeHeap comp v = some r ∧ r.length = v.length ∧ HeapFrom comp r 0 v.length ∧
      r.Perm v := by
  by_cases hlen : v.length < 2
  · refine ⟨v, by simp [makeHeap, hlen], rfl, ?_, List.Perm.refl _⟩
    intro i x y hi0 hil
    omega
  · obtain ⟨r, hr, hrest⟩ := makeHeapLoop_spec comp l h v.length ((v.length - 2) / 2) v hmem
      (by omega) (le_refl _)
      (fun i x y hi0 hil hit hne hx hy => by
        have : (i - 1) / 2 ≠ (v.length - 2) / 2 := fun heq => hne heq rfl
        omega)
    exact ⟨r, by simp only [makeHeap, hlen, if_false, hr], hrest⟩

/-- The first element of a heap is not ordered before any element of it. -/
theorem root_max (comp : α → α → Bool) (l : List α) (h : StrictWeakOrdering comp l)
    (v : List α) (n : Nat) (hmem : ∀ x ∈ v, x ∈ l) (hn : n ≤ v.length)
    (hheap : HeapFrom comp v 0 n) (top : α) (htop : v[0]? = some top) :
    ∀ i x, i < n → v[i]? = some x → comp top x = false := by
  intro i
  induction i using Nat.strong_induction_on with
  | _ i ih =>
    intro x hi hx
    have htl : top ∈ l := hmem top (List.getElem?_mem htop)
    by_cases hi0 : i = 0
    · rw [hi0, htop] at hx
      cases hx
      exact h.1 _ htl
    · obtain ⟨q, hq⟩ : ∃ q, v[(i - 1) / 2]? = some q :=
        ⟨v[(i - 1) / 2], List.getElem?_eq_getElem (by omega)⟩
      have h1 := ih ((i - 1) / 2) (by omega) q (by omega) hq
      have h2 := hheap i q x (by omega) hi (Nat.zero_le _) hq hx
      exact h.negTrans htl (hmem q (List.getElem?_mem hq)) (hmem x (List.getElem?_mem hx)) h1 h2

/-- `std::__pop_heap(first, last, last)` on a heap of `last + 1` elements: the
first `last` positions are a heap again, position `last` holds the former
first element, and the later positions are unchanged. -/
theorem popHeap_spec (comp : α → α → Bool) (l : List α) (h : StrictWeakOrdering comp l)
    (v : List α) (last : Nat) (top : α) (hmem : ∀ x ∈ v, x ∈ l) (hlast : 0 < last)
    (hlen : last < v.length) (htop : v[0]? = some top)
    (hheap : HeapFrom comp v 0 (last + 1)) :
    ∃ r, popHeap comp v last last = some r ∧ r.length = v.length ∧ HeapFrom comp r 0 last ∧
      r.Perm v ∧ r[last]? = some top ∧ ∀ i, last < i → r[i]? = v[i]? := by
  obtain ⟨value, hvalue⟩ : ∃ value, v[last]? = some value :=
    ⟨v[last], List.getElem?_eq_getElem hlen⟩
  have htl : top ∈ l := hmem top (List.getElem?_mem htop)
  have hget := fun k => getElem?_set_of_lt v last k top hlen
  obtain ⟨r, hr, hrlen, hrheap, hrperm, hrfix⟩ := adjustHeap_spec comp l h (v.set last top) 0
    last value (hmem value (List.getElem?_mem hvalue))
    (by
      intro x hx
      rcases mem_of_mem_set hx with hx | hx
      · exact hmem x hx
      · rw [hx]; exact htl)
    hlast (by simp; omega)
    (by
      intro i x y hi0 hil hit hne hx hy
      rw [hget, if_neg (by omega)] at hx hy
      exact hheap i x y hi0 (by omega) hit hx hy)
  refine ⟨r, ?_, by simpa using hrlen, hrheap, ?_, ?_, ?_⟩
  · simp only [popHeap, hvalue, htop, assign, hlen, if_true, hr]
  · exact hrperm.trans (swap_perm v last 0 value top hvalue htop)
  · rw [hrfix last (le_refl _), hget, if_pos rfl]
  · intro i hi
    rw [hrfix i (by omega), hget, if_neg (by omega)]

/-- `std::__sort_heap` on a heap of `n` elements followed by elements in
order, none of which is ordered before an element of the heap. -/
theorem sortHeap_spec (comp : α → α → Bool) (l : List α) (h : StrictWeakOrdering comp l)
    (n : Nat) :
    ∀ v : List α, (∀ x ∈ v, x ∈ l) → n ≤ v.length → HeapFrom comp v 0 n →
      (v.drop n).Pairwise (fun a b => comp b a = false) →
      (∀ x ∈ v.take n, ∀ y ∈ v.drop n, comp y x = false) →
      ∃ r, sortHeap comp n v = some r ∧ r.Perm v ∧
        r.Pairwise (fun a b => comp b a = false) := by
  induction n with
  | zero =>
    intro v _ _ _ hs _
    exact ⟨v, rfl, List.Perm.refl _, by simpa using hs⟩
  | succ last ih =>
    intro v hmem hlen hheap hsorted hcross
    by_cases hlast : last + 1 > 1
    · obtain ⟨top, htop⟩ : ∃ top, v[0]? = some top :=
        ⟨v[0], List.getElem?_eq_getElem (by omega)⟩
      obtain ⟨v1, hv1, hlen1, hheap1, hperm1, hlast1, hfix1⟩ := popHeap_spec comp l h v last
        top hmem (by omega) (by omega) htop hheap
      have hdrop : v1.drop last = top :: v.drop (last + 1) := by
        apply List.ext_getElem?
        intro k
        rw [List.getElem?_drop]
        cases k with
        | zero => simpa using hlast1
        | succ k =>
          rw [List.getElem?_cons_succ, List.getElem?_drop, hfix1 (last + (k + 1)) (by omega)]
          congr 1
          omega
      have htake : (v1.take last ++ [top]).Perm (v.take (last + 1)) := by
        have h1 : (v1.take last ++ v1.drop last).Perm (v.take (last + 1) ++ v.drop (last + 1)) := by
          rw [List.take_append_drop, List.take_append_drop]
          exact hperm1
        rw [hdrop] at h1
        have h2 : (v1.take last ++ top :: v.drop (last + 1)) =
            (v1.take last ++ [top]) ++ v.drop (last + 1) := by simp
        rw [h2] at h1
        exact (List.perm_append_right_iff _).1 h1
      have htopmem : top ∈ v.take (last + 1) := htake.subset (by simp)
      have hmax : ∀ x ∈ v.take (last + 1), comp top x = false := by
        intro x hx
        obtain ⟨i, hi, hix⟩ := List.getElem_of_mem hx
        have hi2 : i < last + 1 := by
          have := List.length_take_le (last + 1) v
          omega
        have hxv : v[i]? = some x := by
          have h1 : (v.take (last + 1))[i]? = some x := by
            rw [List.getElem?_eq_getElem hi, hix]
          rwa [List.getElem?_take_of_lt hi2] at h1
        exact root_max comp l h v (last + 1) hmem hlen hheap top htop i x hi2 hxv
      obtain ⟨r, hr, hrperm, hrsorted⟩ := ih v1 (fun x hx => hmem x (hperm1.subset hx))
        (by omega) hheap1
        (by
          rw [hdrop]
          exact List.pairwise_cons.2 ⟨fun y hy => hcross top htopmem y hy, hsorted⟩)
        (by
          intro x hx y hy
          have hx2 : x ∈ v.take (last + 1) := htake.subset (by simp [hx])
          rw [hdrop] at hy
          rcases List.mem_cons.1 hy with rfl | hy
          · exact hmax x hx2
          · exact hcross x hx2 y hy)
      exact ⟨r, by simp only [sortHeap, hlast, if_true, hv1, hr], hrperm.trans hperm1, hrsorted⟩
    · refine ⟨v, by simp only [sortHeap, hlast, if_false], List.Perm.refl _, ?_⟩
      have hsplit := List.take_append_drop (last + 1) v
      rw [← hsplit, List.pairwise_append]
      refine ⟨?_, hsorted, fun x hx y hy => hcross x hx y hy⟩
      have hl0 : last = 0 := by omega
      subst hl0
      cases v with
      | nil => simp
      | cons a t => simp

/-- `std::__partial_sort(first, last, last)`: heap sort of the range. -/
theorem partialSort_spec (comp : α → α → Bool) (v : List α) (h : StrictWeakOrdering comp v) :
    ∃ r, partialSort comp v = some r ∧ r.Perm v ∧
      r.Pairwise (fun a b => comp b a = false) := by
  obtain ⟨v1, hv1, hlen1, hheap1, hperm1⟩ := makeHeap_spec comp v h v (fun x hx => hx)
  obtain ⟨r, hr, hrperm, hrsorted⟩ := sortHeap_spec comp v h v1.length v1
    (fun x hx => hperm1.subset hx) (le_refl _) (by rw [hlen1]; exact hheap1)
    (by simp) (by simp)
  exact ⟨r, by simp only [partialSort, hv1, hr], hrperm.trans hperm1, hrsorted⟩

/-! ## The contract of `std::sort` holds of `Stl.sort` -/

/-- A range that is not empty has an element that no element is ordered
before. -/
theorem exists_min (comp : α → α → Bool) (v : List α) (h : StrictWeakOrdering comp v)
    (hne : v ≠ []) : ∃ m ∈ v, ∀ y ∈ v, comp y m = false := by
  induction v with
  | nil => exact absurd rfl hne
  | cons x rest ih =>
    by_cases hrest : rest = []
    · subst hrest
      refine ⟨x, by simp, ?_⟩
      intro y hy
      simp only [List.mem_singleton] at hy
      rw [hy]
      exact h.1 x (by simp)
    · obtain ⟨m, hm, hmin⟩ := ih (h.mono (fun y hy => List.mem_cons_of_mem _ hy)) hrest
      have hxl : x ∈ x :: rest := by simp
      have hml : m ∈ x :: rest := List.mem_cons_of_mem _ hm
      by_cases hc : comp x m = true
      · refine ⟨x, hxl, ?_⟩
        intro y hy
        rcases List.mem_cons.1 hy with rfl | hy
        · exact h.1 _ hxl
        · by_contra hyx
          have hyx2 : comp y x = true := by simpa using hyx
          have := h.2.1 y (List.mem_cons_of_mem _ hy) x hxl m hml hyx2 hc
          rw [hmin y hy] at this
          exact Bool.false_ne_true this
      · refine ⟨m, hml, ?_⟩
        intro y hy
        rcases List.mem_cons.1 hy with rfl | hy
        · simpa using hc
        · exact hmin y hy

/-- `std::__introsort_loop`: the loops stay in the range, and when the range
is not empty one of its first 16 elements afterwards is an element that no
element is ordered before. -/
theorem introsortLoop_spec (comp : α → α → Bool) (depthLimit : Nat) :
    ∀ v : List α, StrictWeakOrdering comp v →
      ∃ r, introsortLoop comp depthLimit v = some r ∧ r.Perm v ∧
        (v ≠ [] → ∃ m ∈ r.take 16, ∀ y ∈ r, comp y m = false) := by
  induction depthLimit with
  | zero =>
    intro v h
    by_cases hlen : v.length > 16
    · obtain ⟨r, hr, hperm, hsorted⟩ := partialSort_spec comp v h
      refine ⟨r, by simp only [introsortLoop, hlen, if_true, hr], hperm, ?_⟩
      intro _
      have hrlen : r.length = v.length := hperm.length_eq
      cases r with
      | nil => simp at hrlen; omega
      | cons m t =>
        refine ⟨m, by simp, ?_⟩
        intro y hy
        rcases List.mem_cons.1 hy with rfl | hy
        · exact h.1 _ (hperm.subset (by simp))
        · exact (List.pairwise_cons.1 hsorted).1 y hy
    · refine ⟨v, by simp only [introsortLoop, hlen, if_false], List.Perm.refl _, ?_⟩
      intro hne
      obtain ⟨m, hm, hmin⟩ := exists_min comp v h hne
      exact ⟨m, by rw [List.take_of_length_le (by omega)]; exact hm, hmin⟩
  | succ depthLimit ih =>
    intro v h
    by_cases hlen : v.length > 16
    · obtain ⟨cut, v1, hv1, hperm1, hc1, hc2, hcross⟩ :=
        unguardedPartitionPivot_spec comp v h (by omega)
      have hlen1 : v1.length = v.length := hperm1.length_eq
      have hsub1 : ∀ x ∈ v1, x ∈ v := fun x hx => hperm1.subset hx
      obtain ⟨left, hleft, hlperm, hlmin⟩ := ih (v1.take cut)
        (h.mono (fun x hx => hsub1 x ((List.take_sublist _ _).subset hx)))
      obtain ⟨right, hright, hrperm, _⟩ := ih (v1.drop cut)
        (h.mono (fun x hx => hsub1 x ((List.drop_sublist _ _).subset hx)))
      refine ⟨left ++ right, ?_, ?_, ?_⟩
      · simp only [introsortLoop, hlen, if_true, hv1, hleft, hright]
      · refine (hlperm.append hrperm).trans ?_
        rw [List.take_append_drop]
        exact hperm1
      · intro _
        have hne : v1.take cut ≠ [] := by
          intro hnil
          have := congrArg List.length hnil
          simp only [List.length_take, List.length_nil] at this
          omega
        obtain ⟨m, hm, hmin⟩ := hlmin hne
        have hml : m ∈ left := (List.take_sublist _ _).subset hm
        refine ⟨m, ?_, ?_⟩
        · rw [List.take_append_eq_append_take]
          exact List.mem_append_left _ hm
        · intro y hy
          rcases List.mem_append.1 hy with hy | hy
          · exact hmin y hy
          · exact hcross m (hlperm.subset hml) y (hrperm.subset hy)
    · refine ⟨v, by simp only [introsortLoop, hlen, if_false], List.Perm.refl _, ?_⟩
      intro hne
      obtain ⟨m, hm, hmin⟩ := exists_min comp v h hne
      exact ⟨m, by rw [List.take_of_length_le (by omega)]; exact hm, hmin⟩

/-- `std::sort` of libstdc++ with a comparator that is a strict weak ordering
on the elements of the range: every loop stays in the range, and the result is
a rearrangement of the range in which no element is ordered before an earlier
one. -/
theorem sort_spec (comp : α → α → Bool) (v : List α) (h : StrictWeakOrdering comp v) :
    ∃ r, sort comp v = some r ∧ r.Perm v ∧ r.Pairwise (fun a b => comp b a = false) := by
  cases v with
  | nil => exact ⟨[], rfl, List.Perm.refl _, List.Pairwise.nil⟩
  | cons x rest =>
    obtain ⟨v1, hv1, hperm1, hmin1⟩ :=
      introsortLoop_spec comp (Nat.log2 (x :: rest).length * 2) (x :: rest) h
    obtain ⟨r, hr, hperm, hsorted⟩ := finalInsertionSort_spec comp v1
      (h.mono (fun y hy => hperm1.subset hy)) (fun _ => hmin1 (by simp))
    refine ⟨r, ?_, hperm.trans hperm1, hsorted⟩
    simp only [sort, List.isEmpty_cons, Bool.false_eq_true, if_false, hv1, hr]

end Stl

namespace StudentManager

/-! ## Claims on `getStatistics` -/

/-- Invariant of the loop of `std::max_element` for a comparator `key a < key b`:
the result is the first position holding a largest key. -/
theorem maxElementLoop_spec {K : Type} [LinearOrder K] (key : Student → K)
    (rest pre : List Student) (k : Nat) (m : Student)
    (hk : pre[k]? = some m) (hmax : ∀ x ∈ pre, key x ≤ key m)
    (hfirst : ∀ j, j < k → ∀ x, pre[j]? = some x → key x < key m) :
    (pre ++ rest)[(maxElementLoop (fun a b => decide (key a < key b))
        (k, m) pre.length rest).1]? =
      some (maxElementLoop (fun a b => decide (key a < key b)) (k, m) pre.length rest).2 ∧
    (∀ x ∈ pre ++ rest, key x ≤
      key (maxElementLoop (fun a b => decide (key a < key b)) (k, m) pre.length rest).2) ∧
    (∀ j, j < (maxElementLoop (fun a b => decide (key a < key b))
        (k, m) pre.length rest).1 → ∀ x, (pre ++ rest)[j]? = some x → key x <
      key (maxElementLoop (fun a b => decide (key a < key b)) (k, m) pre.length rest).2) := by
  induction rest generalizing pre k m with
  | nil =>
    simp only [maxElementLoop, List.append_nil]
    exact ⟨hk, hmax, hfirst⟩
  | cons x rest ih =>
    have hklt : k < pre.length := (List.getElem?_eq_some.1 hk).1
    have hlen : (pre ++ [x]).length = pre.length + 1 := by simp
    have happ : pre ++ x :: rest = (pre ++ [x]) ++ rest := by simp
    by_cases hlt : key m < key x
    · have hstep : maxElementLoop (fun a b => decide (key a < key b)) (k, m) pre.length
          (x :: rest) = maxElementLoop (fun a b => decide (key a < key b)) (pre.length, x)
          (pre ++ [x]).length rest := by
        rw [maxElementLoop, hlen]
        simp [hlt]
      rw [hstep, happ]
      apply ih
      · simp
      · intro y hy
        rcases List.mem_append.1 hy with hy | hy
        · exact le_of_lt (lt_of_le_of_lt (hmax y hy) hlt)
        · simp only [List.mem_singleton] at hy
          rw [hy]
      · intro j hj y hy
        rw [List.getElem?_append_left hj] at hy
        exact lt_of_le_of_lt (hmax y (List.getElem?_mem hy)) hlt
    · have hstep : maxElementLoop (fun a b => decide (key a < key b)) (k, m) pre.length
          (x :: rest) = maxElementLoop (fun a b => decide (key a < key b)) (k, m)
          (pre ++ [x]).length rest := by
        rw [maxElementLoop, hlen]
        simp [hlt]
      rw [hstep, happ]
      apply ih
      · rw [List.getElem?_append_left hklt]
        exact hk
      · intro y hy
        rcases List.mem_append.1 hy with hy | hy
        · exact hmax y hy
        · simp only [List.mem_singleton] at hy
          rw [hy]
          exact not_lt.1 hlt
      · intro j hj y hy
        rw [List.getElem?_append_left (lt_trans hj hklt)] at hy
        exact hfirst j hj y hy

/-- `std::min_element` is `std::max_element` for the converse comparator. -/
theorem minElementLoop_eq (comp : Student → Student → Bool) (rest : List Student)
    (smallest : Nat × Student) (i : Nat) :
    minElementLoop comp smallest i rest =
      maxElementLoop (fun a b => comp b a) smallest i rest := by
  induction rest generalizing smallest i with
  | nil => rfl
  | cons x rest ih =>
    rw [minElementLoop, maxElementLoop, ih, ih]

/-- The loop of `std::max_element` only applies the comparator to elements of
the range. -/
theorem maxElementLoop_congr (comp comp2 : Student → Student → Bool) (rest : List Student)
    (largest : Nat × Student) (i : Nat)
    (h : ∀ a ∈ largest.2 :: rest, ∀ b ∈ largest.2 :: rest, comp a b = comp2 a b) :
    maxElementLoop comp largest i rest = maxElementLoop comp2 largest i rest := by
  induction rest generalizing largest i with
  | nil => rfl
  | cons x rest ih =>
    rw [maxElementLoop, maxElementLoop, h largest.2 (by simp) x (by simp)]
    rw [ih (i, x) (i + 1) (fun a ha b hb => h a (by simp at ha ⊢; tauto) b (by simp at hb ⊢; tauto)),
      ih largest (i + 1)
        (fun a ha b hb => h a (by simp at ha ⊢; tauto) b (by simp at hb ⊢; tauto))]

/-- On a non-empty range `std::max_element` yields the first position holding
a largest key. -/
theorem maxElement_spec {K : Type} [LinearOrder K] (key : Student → K)
    (x : Student) (rest : List Student) :
    ∃ k m, maxElement (fun a b => decide (key a < key b)) (x :: rest) = some (k, m) ∧
      (x :: rest)[k]? = some m ∧ (∀ y ∈ x :: rest, key y ≤ key m) ∧
      (∀ j, j < k → ∀ y, (x :: rest)[j]? = some y → key y < key m) := by
  have h := maxElementLoop_spec key rest [x] 0 x (by simp) (by simp) (by intro j hj; omega)
  exact ⟨_, _, rfl, h⟩

/-- On a non-empty range `std::min_element` for the comparator `key a < key b`
yields the first position holding a smallest key. -/
theorem minElement_spec {K : Type} [LinearOrder K] (key : Student → K)
    (x : Student) (rest : List Student) :
    ∃ k m, minElement (fun a b => decide (key a < key b)) (x :: rest) = some (k, m) ∧
      (x :: rest)[k]? = some m ∧ (∀ y ∈ x :: rest, key m ≤ key y) ∧
      (∀ j, j < k → ∀ y, (x :: rest)[j]? = some y → key m < key y) := by
  have h := maxElementLoop_spec (fun s => OrderDual.toDual (key s)) rest [x] 0 x
    (by simp) (by simp) (by intro j hj; omega)
  have heq : minElement (fun a b => decide (key a < key b)) (x :: rest) =
      some (maxElementLoop (fun a b => decide (OrderDual.toDual (key a) <
        OrderDual.toDual (key b))) (0, x) [x].length rest) := by
    rw [minElement, minElementLoop_eq]
    rfl
  exact ⟨_, _, heq, h⟩

/-- On a range without NaN the comparator of `getStatistics` is the order of
the extended real line. -/
theorem gpaLess_eq (l : List Student) (h : ∀ s ∈ l, s.gpa.isNaN = false) :
    ∀ a ∈ l, ∀ b ∈ l, Dbl.lt a.gpa b.gpa = decide (a.gpa.extended < b.gpa.extended) :=
  fun a ha b hb => Dbl.lt_eq_extended a.gpa b.gpa (h a ha) (h b hb)

theorem maxElement_congr (comp comp2 : Student → Student → Bool) (l : List Student)
    (h : ∀ a ∈ l, ∀ b ∈ l, comp a b = comp2 a b) : maxElement comp l = maxElement comp2 l := by
  cases l with
  | nil => rfl
  | cons x rest => rw [maxElement, maxElement, maxElementLoop_congr comp comp2 rest (0, x) 1 h]

theorem minElement_congr (comp comp2 : Student → Student → Bool) (l : List Student)
    (h : ∀ a ∈ l, ∀ b ∈ l, comp a b = comp2 a b) : minElement comp l = minElement comp2 l := by
  cases l with
  | nil => rfl
  | cons x rest =>
    rw [minElement, minElement, minElementLoop_eq, minElementLoop_eq,
      maxElementLoop_congr (fun a b => comp b a) (fun a b => comp2 b a) rest (0, x) 1
        (fun a ha b hb => h b hb a ha)]

/-- C17 (as amended): for every non-empty collection in which no gpa is a NaN,
the record `getStatistics` reports for the maximum gpa is the first record in
collection order whose gpa is at least every gpa (every earlier record has a
smaller gpa), and the record it reports for the minimum gpa is the first
record whose gpa is at most every gpa; for the empty collection no maximum and
no minimum is reported.  On the gpas 3.6, 3.9, 3.6 the minimum reported is the
first of the two records with 3.6. -/
theorem getStatistics_extremes (students : List Student) :
    (students = [] → (getStatistics students).extremes = none) ∧
    (students ≠ [] → (∀ s ∈ students, s.gpa.isNaN = false) → ∃ kmax mx kmin mn,
      (getStatistics students).extremes = some ((kmax, mx), (kmin, mn)) ∧
      students[kmax]? = some mx ∧ (∀ x ∈ students, Dbl.le x.gpa mx.gpa = true) ∧
      (∀ j, j < kmax → ∀ x, students[j]? = some x → Dbl.lt x.gpa mx.gpa = true) ∧
      students[kmin]? = some mn ∧ (∀ x ∈ students, Dbl.le mn.gpa x.gpa = true) ∧
      (∀ j, j < kmin → ∀ x, students[j]? = some x → Dbl.lt mn.gpa x.gpa = true)) ∧
    (getStatistics [tie1, top2, tie3]).extremes = some ((1, top2), (0, tie1)) ∧
    (getStatistics [top2, tie1, top2, tie3]).extremes = some ((0, top2), (1, tie1)) := by
  refine ⟨?_, ?_, ?_, ?_⟩
  · intro h
    subst h
    rfl
  · intro h hnan
    obtain ⟨x, rest, rfl⟩ := List.exists_cons_of_ne_nil h
    obtain ⟨kmax, mx, hmaxeq, h1, h2, h3⟩ := maxElement_spec (fun s => s.gpa.extended) x rest
    obtain ⟨kmin, mn, hmineq, h4, h5, h6⟩ := minElement_spec (fun s => s.gpa.extended) x rest
    have hmx : mx ∈ x :: rest := List.getElem?_mem h1
    have hmn : mn ∈ x :: rest := List.getElem?_mem h4
    refine ⟨kmax, mx, kmin, mn, ?_, h1, ?_, ?_, h4, ?_, ?_⟩
    · simp only [getStatistics]
      rw [maxElement_congr _ _ _ (gpaLess_eq (x :: rest) hnan),
        minElement_congr _ _ _ (gpaLess_eq (x :: rest) hnan), hmaxeq, hmineq]
      rfl
    · intro y hy
      rw [Dbl.le_eq_extended _ _ (hnan y hy) (hnan mx hmx)]
      exact decide_eq_true (h2 y hy)
    · intro j hj y hy
      rw [Dbl.lt_eq_extended _ _ (hnan y (List.getElem?_mem hy)) (hnan mx hmx)]
      exact decide_eq_true (h3 j hj y hy)
    · intro y hy
      rw [Dbl.le_eq_extended _ _ (hnan mn hmn) (hnan y hy)]
      exact decide_eq_true (h5 y hy)
    · intro j hj y hy
      rw [Dbl.lt_eq_extended _ _ (hnan mn hmn) (hnan y (List.getElem?_mem hy))]
      exact decide_eq_true (h6 j hj y hy)
  · simp only [getStatistics]
    decide!
  · simp only [getStatistics]
    decide!

/-- C17 (counterexample): on the records with gpa NaN and 3.0, in this order,
`getStatistics` reports the record with gpa NaN both for the maximum and for
the minimum, and its gpa is neither at least nor at most the gpa 3.0 of the
other record. -/
theorem getStatistics_reports_nan :
    (getStatistics [nanRecord, threeRecord]).extremes =
      some ((0, nanRecord), (0, nanRecord)) ∧
    Dbl.le threeRecord.gpa nanRecord.gpa = false ∧
    Dbl.le nanRecord.gpa threeRecord.gpa = false := by
  refine ⟨?_, by decide!, by decide!⟩
  simp only [getStatistics]
  decide!

/-! ## Claims on `getAverageGpa` -/

theorem zero_literal : (0.0 : Dbl) = Dbl.finite 0 := by decide!

theorem totalGpa_concat (l : List Student) (s : Student) :
    totalGpa (l ++ [s]) = Dbl.add (totalGpa l) s.gpa := by
  simp [totalGpa, List.foldl_append]

theorem exactTotal_concat (l : List Student) (s : Student) :
    exactTotal (l ++ [s]) = exactTotal l + s.gpa.toRat := by
  simp [exactTotal]

theorem absTotal_concat (l : List Student) (s : Student) :
    absTotal (l ++ [s]) = absTotal l + |s.gpa.toRat| := by
  simp [absTotal]

theorem abs_exactTotal_le (l : List Student) : |exactTotal l| ≤ absTotal l := by
  induction l with
  | nil => simp [exactTotal, absTotal]
  | cons s rest ih =>
    simp only [exactTotal, absTotal, List.map_cons, List.sum_cons] at ih ⊢
    exact (abs_add _ _).trans (add_le_add_left ih _)

theorem absTotal_le (l : List Student) (h : ∀ s ∈ l, OrdinaryGpa s) :
    absTotal l ≤ l.length * 2 ^ 1000 := by
  induction l with
  | nil => simp [absTotal]
  | cons s rest ih =>
    have h1 := (h s (List.mem_cons_self _ _)).2
    have h2 := ih (fun t ht => h t (List.mem_cons_of_mem _ ht))
    simp only [absTotal, List.map_cons, List.sum_cons, List.length_cons] at h2 ⊢
    push_cast
    linarith

/-- Growth of the error factor: `(1 + 2⁻⁵³) ^ k ≤ 1 + k / 2⁵²` for `k ≤ 2⁵²`. -/
theorem pow_error_le (k : Nat) (h : (k : ℚ) ≤ 2 ^ 52) :
    (1 + 1 / 2 ^ 53 : ℚ) ^ k ≤ 1 + k / 2 ^ 52 := by
  induction k with
  | zero => simp
  | succ k ih =>
    have hk : (k : ℚ) ≤ 2 ^ 52 := by push_cast at h; linarith
    have := ih hk
    rw [pow_succ]
    push_cast
    have h0 : (0 : ℚ) ≤ k := by positivity
    have hstep : (1 + (k : ℚ) / 2 ^ 52) * (1 + 1 / 2 ^ 53) ≤ 1 + (k + 1) / 2 ^ 52 := by
      have : (k : ℚ) / 2 ^ 52 ≤ 1 := by rw [div_le_one (by positivity)]; exact hk
      have e : (1 + (k : ℚ) / 2 ^ 52) * (1 + 1 / 2 ^ 53) =
          1 + (k + 1) / 2 ^ 52 - (1 - (k : ℚ) / 2 ^ 52) / 2 ^ 53 := by
        field_simp
        ring
      rw [e]
      have : (0 : ℚ) ≤ (1 - (k : ℚ) / 2 ^ 52) / 2 ^ 53 := div_nonneg (by linarith) (by positivity)
      linarith
    exact (mul_le_mul_of_nonneg_right this (by positivity)).trans hstep

/-- One rounded step: the error grows by the factor `1 + u` and by `u` times
the bound on the magnitude. -/
theorem error_step (u c δ B G : ℚ) (hu : 0 ≤ u) (hc : 0 ≤ c) (hG : 0 ≤ G)
    (hδ : δ ≤ c * B) : (1 + u) * δ + u * (B + G) ≤ ((1 + u) * c + u) * (B + G) := by
  have h1 : (1 + u) * δ ≤ (1 + u) * (c * B) :=
    mul_le_mul_of_nonneg_left hδ (by linarith)
  have h2 : 0 ≤ (1 + u) * c * G := mul_nonneg (mul_nonneg (by linarith) hc) hG
  nlinarith

/-- One rounded operation in the running total: `S` is the total so far, `E`
the exact one, `T` the rounded result, `ω` the smallest normal number. -/
theorem total_step (u S E g B c T ω : ℚ) (hu : 0 ≤ u) (hc : 0 ≤ c)
    (hEB : |E| + ω ≤ B) (hδ : |S - E| ≤ c * B) (hT : |T - (S + g)| ≤ |S + g| * u + u * ω) :
    |T - (E + g)| ≤ ((1 + u) * c + u) * (B + |g|) := by
  have h1 : |T - (E + g)| ≤ |T - (S + g)| + |S - E| := by
    have := abs_add (T - (S + g)) (S - E)
    rwa [show T - (S + g) + (S - E) = T - (E + g) by ring] at this
  have h2 : |S + g| ≤ |S - E| + (B - ω) + |g| := by
    have ha := abs_add (S - E + E) g
    have hb := abs_add (S - E) E
    rw [show S - E + E + g = S + g by ring] at ha
    linarith
  have h3 : |S + g| * u ≤ (|S - E| + (B - ω) + |g|) * u := mul_le_mul_of_nonneg_right h2 hu
  have h4 := error_step u c |S - E| B |g| hu hc (abs_nonneg g) hδ
  nlinarith

theorem eta_eq : (1 : ℚ) / 2 ^ 1075 = 1 / 2 ^ 53 * (1 / 2 ^ 1022) := by
  rw [show (1075 : Nat) = 53 + 1022 from rfl, pow_add]
  field_simp

/-- Magnitude of the running total of at most `2 ^ 20` ordinary gpa values. -/
theorem total_magnitude (k : Nat) (T E A c : ℚ) (hk : (k : ℚ) ≤ 2 ^ 20)
    (hc1 : c ≤ 1) (hA0 : 0 ≤ A) (hA : A ≤ k * 2 ^ 1000) (hE : |E| ≤ A)
    (hT : |T - E| ≤ c * (A + 1 / 2 ^ 1022)) : |T| ≤ 2 ^ 1022 := by
  have hX : (1 : ℚ) ≤ 2 ^ 1000 := one_le_pow₀ (by norm_num)
  have h1022 : (2 : ℚ) ^ 1022 = 2 ^ 22 * 2 ^ 1000 := by
    rw [show (1022 : Nat) = 22 + 1000 from rfl, pow_add]
  have hω : (1 : ℚ) / 2 ^ 1022 ≤ 1 := by
    rw [div_le_one (by positivity)]
    exact one_le_pow₀ (by norm_num)
  have hω0 : (0 : ℚ) ≤ 1 / 2 ^ 1022 := by positivity
  have hA2 : A ≤ 2 ^ 20 * 2 ^ 1000 :=
    hA.trans (mul_le_mul_of_nonneg_right hk (by positivity))
  have h2 : c * (A + 1 / 2 ^ 1022) ≤ A + 1 / 2 ^ 1022 := by
    have := mul_le_mul_of_nonneg_right hc1 (by linarith : (0 : ℚ) ≤ A + 1 / 2 ^ 1022)
    linarith
  have h3 : |T| ≤ |T - E| + |E| := by
    have := abs_add (T - E) E
    rwa [sub_add_cancel] at this
  rw [h1022]
  generalize (2 : ℚ) ^ 1000 = X at *
  norm_num at hA2 ⊢
  linarith

/-- Rounding error of the running total of `getAverageGpa`. -/
theorem totalGpa_error (l : List Student) (hlen : l.length ≤ 2 ^ 20)
    (h : ∀ s ∈ l, OrdinaryGpa s) :
    (totalGpa l).isFinite = true ∧
    |(totalGpa l).toRat - exactTotal l| ≤
      ((1 + 1 / 2 ^ 53) ^ l.length - 1) * (absTotal l + 1 / 2 ^ 1022) := by
  induction l using List.reverseRecOn with
  | nil =>
    have h0 : totalGpa [] = Dbl.finite 0 := zero_literal
    rw [h0]
    constructor
    · rfl
    · simp [exactTotal, Dbl.toRat]
  | append_singleton l s ih =>
    have hlen2 : l.length + 1 ≤ 2 ^ 20 := by simpa using hlen
    obtain ⟨hfin, herr⟩ := ih (by omega) (fun t ht => h t (List.mem_append_left _ ht))
    obtain ⟨hsfin, hsmag⟩ := h s (by simp)
    have hu : (0 : ℚ) ≤ 1 / 2 ^ 53 := by positivity
    have hkq : (l.length : ℚ) ≤ 2 ^ 20 := by
      have : l.length ≤ 2 ^ 20 := by omega
      exact_mod_cast this
    have hc : (0 : ℚ) ≤ (1 + 1 / 2 ^ 53) ^ l.length - 1 := by
      have : (1 : ℚ) ≤ (1 + 1 / 2 ^ 53) ^ l.length := one_le_pow₀ (by linarith)
      linarith
    have hc1 : (1 + 1 / 2 ^ 53 : ℚ) ^ l.length - 1 ≤ 1 := by
      have h1 := pow_error_le l.length (hkq.trans (by norm_num))
      have h2 : (l.length : ℚ) / 2 ^ 52 ≤ 1 := by
        rw [div_le_one (by positivity)]
        exact hkq.trans (by norm_num)
      linarith
    have hA0 : 0 ≤ absTotal l := (abs_nonneg _).trans (abs_exactTotal_le l)
    have hA := absTotal_le l (fun t ht => h t (List.mem_append_left _ ht))
    have hTmag := total_magnitude l.length _ _ _ _ hkq hc1 hA0 hA (abs_exactTotal_le l) herr
    have hsum : |(totalGpa l).toRat + s.gpa.toRat| < 2 ^ 1023 := by
      have h1 := abs_add (totalGpa l).toRat s.gpa.toRat
      have h2 : (2 : ℚ) ^ 1000 < 2 ^ 1022 := pow_lt_pow_right₀ (by norm_num) (by norm_num)
      have h3 : (2 : ℚ) ^ 1023 = 2 * 2 ^ 1022 := by
        rw [show (1023 : Nat) = 1022 + 1 from rfl, pow_succ]
        ring
      rw [h3]
      linarith
    obtain ⟨hfin2, hadd⟩ := Dbl.add_spec (totalGpa l) s.gpa hfin hsfin hsum
    rw [totalGpa_concat, exactTotal_concat, absTotal_concat]
    refine ⟨hfin2, ?_⟩
    have hT : |(Dbl.add (totalGpa l) s.gpa).toRat - ((totalGpa l).toRat + s.gpa.toRat)| ≤
        |(totalGpa l).toRat + s.gpa.toRat| * (1 / 2 ^ 53) + 1 / 2 ^ 53 * (1 / 2 ^ 1022) := by
      rw [← eta_eq, ← div_eq_mul_one_div]
      exact hadd
    have hstep := total_step (1 / 2 ^ 53) (totalGpa l).toRat (exactTotal l) s.gpa.toRat
      (absTotal l + 1 / 2 ^ 1022) ((1 + 1 / 2 ^ 53) ^ l.length - 1)
      (Dbl.add (totalGpa l) s.gpa).toRat (1 / 2 ^ 1022) hu hc
      (add_le_add_right (abs_exactTotal_le l) _) herr hT
    simp only [List.length_append, List.length_singleton]
    rw [pow_succ (1 + 1 / 2 ^ 53 : ℚ) l.length]
    have hpow : (1 + 1 / 2 ^ 53 : ℚ) ^ l.length * (1 + 1 / 2 ^ 53) - 1 =
        (1 + 1 / 2 ^ 53) * ((1 + 1 / 2 ^ 53) ^ l.length - 1) + 1 / 2 ^ 53 := by ring
    rw [hpow]
    have hre : absTotal l + |s.gpa.toRat| + 1 / 2 ^ 1022 =
        absTotal l + 1 / 2 ^ 1022 + |s.gpa.toRat| := by ring
    rw [hre]
    exact hstep

/-- Rounding error of the value `getAverageGpa` returns, against the exact
mean. -/
theorem getAverageGpa_error (l : List Student) (hne : l ≠ []) (hlen : l.length ≤ 2 ^ 20)
    (h : ∀ s ∈ l, OrdinaryGpa s) :
    (getAverageGpa l).isFinite = true ∧
    |(getAverageGpa l).toRat - exactTotal l / l.length| ≤
      ((1 + 1 / 2 ^ 53) ^ (l.length + 1) - 1) * (absTotal l / l.length + 1 / 2 ^ 1022) := by
  obtain ⟨hfin, herr⟩ := totalGpa_error l hlen h
  have hu : (0 : ℚ) ≤ 1 / 2 ^ 53 := by positivity
  have hkq : (l.length : ℚ) ≤ 2 ^ 20 := by exact_mod_cast hlen
  have hc : (0 : ℚ) ≤ (1 + 1 / 2 ^ 53) ^ l.length - 1 := by
    have : (1 : ℚ) ≤ (1 + 1 / 2 ^ 53) ^ l.length := one_le_pow₀ (by linarith)
    linarith
  have hc1 : (1 + 1 / 2 ^ 53 : ℚ) ^ l.length - 1 ≤ 1 := by
    have h1 := pow_error_le l.length (hkq.trans (by norm_num))
    have h2 : (l.length : ℚ) / 2 ^ 52 ≤ 1 := by
      rw [div_le_one (by positivity)]
      exact hkq.trans (by norm_num)
    linarith
  have hA0 : 0 ≤ absTotal l := (abs_nonneg _).trans (abs_exactTotal_le l)
  have hA := absTotal_le l h
  have hTmag := total_magnitude l.length _ _ _ _ hkq hc1 hA0 hA (abs_exactTotal_le l) herr
  have hn1 : 1 ≤ l.length := List.length_pos.2 hne
  have hn1q : (1 : ℚ) ≤ l.length := by exact_mod_cast hn1
  have hn : (0 : ℚ) < l.length := by linarith
  have hemp : l.isEmpty = false := by simpa using hne
  have hof : Dbl.ofNat l.length = Dbl.finite (l.length : ℚ) :=
    Dbl.ofNat_eq l.length (lt_of_le_of_lt hlen (by norm_num))
  have hquot : |(totalGpa l).toRat / l.length| < 2 ^ 1023 := by
    rw [abs_div, abs_of_pos hn]
    have h1 : |(totalGpa l).toRat| / l.length ≤ |(totalGpa l).toRat| :=
      div_le_self (abs_nonneg _) hn1q
    have h2 : (2 : ℚ) ^ 1022 < 2 ^ 1023 := pow_lt_pow_right₀ (by norm_num) (by norm_num)
    linarith
  obtain ⟨hfin2, hdiv⟩ := Dbl.div_spec (totalGpa l) l.length hn hfin hquot
  have hav : getAverageGpa l = Dbl.div (totalGpa l) (Dbl.finite (l.length : ℚ)) := by
    simp only [getAverageGpa, hemp, hof, Bool.false_eq_true, if_false]
  rw [hav]
  refine ⟨hfin2, ?_⟩
  generalize (Dbl.div (totalGpa l) (Dbl.finite (l.length : ℚ))).toRat = r at hdiv ⊢
  generalize (totalGpa l).toRat = T at hdiv herr
  have hω0 : (0 : ℚ) ≤ 1 / 2 ^ 1022 := by positivity
  have hT : |r * l.length - (T + 0)| ≤
      |T + 0| * (1 / 2 ^ 53) + 1 / 2 ^ 53 * (l.length * (1 / 2 ^ 1022)) := by
    rw [add_zero]
    have h1 : r * l.length - T = (r - T / l.length) * l.length := by field_simp
    have h2 : |T| = |T / l.length| * l.length := by
      rw [abs_div, abs_of_pos hn]
      field_simp
    rw [h1, abs_mul, abs_of_pos hn, h2]
    rw [eta_eq] at hdiv
    nlinarith [mul_le_mul_of_nonneg_right hdiv (le_of_lt hn)]
  have hδ : |T - exactTotal l| ≤
      ((1 + 1 / 2 ^ 53) ^ l.length - 1) * (absTotal l + l.length * (1 / 2 ^ 1022)) := by
    refine herr.trans (mul_le_mul_of_nonneg_left ?_ hc)
    nlinarith
  have hstep := total_step (1 / 2 ^ 53) T (exactTotal l) 0
    (absTotal l + l.length * (1 / 2 ^ 1022)) ((1 + 1 / 2 ^ 53) ^ l.length - 1)
    (r * l.length) (l.length * (1 / 2 ^ 1022)) hu hc
    (add_le_add_right (abs_exactTotal_le l) _) hδ hT
  rw [add_zero, abs_zero, add_zero] at hstep
  have hpow : (1 + 1 / 2 ^ 53 : ℚ) ^ (l.length + 1) - 1 =
      (1 + 1 / 2 ^ 53) * ((1 + 1 / 2 ^ 53) ^ l.length - 1) + 1 / 2 ^ 53 := by
    rw [pow_succ (1 + 1 / 2 ^ 53 : ℚ) l.length]
    ring
  rw [hpow]
  have h3 : r - exactTotal l / l.length = (r * l.length - exactTotal l) / l.length := by
    field_simp
  have h4 : absTotal l / l.length + 1 / 2 ^ 1022 =
      (absTotal l + l.length * (1 / 2 ^ 1022)) / l.length := by
    rw [add_div, mul_comm (l.length : ℚ), mul_div_assoc, div_self (ne_of_gt hn), mul_one]
  rw [h3, abs_div, abs_of_pos hn, h4, ← mul_div_assoc]
  exact div_le_div_of_nonneg_right hstep (le_of_lt hn)

/-- C13 (as amended): `getAverageGpa` returns 0 on the empty collection, where
the division of the total by the size would give a NaN (none is performed); on
a non-empty collection it returns the running total, every addition rounded to
a double, divided by the number of records and rounded; for at most `2 ^ 20`
finite gpa values of magnitude at most `2 ^ 1000` this value is finite and
differs from the sum of the gpa values divided by their number by at most the
accumulated rounding error.  On the gpas 3.8, 3.9 and 3.6 the value is
`0x1.e222222222221p+1`, which lies in `[3.76665, 3.76675)` and so rounds to
3.7667. -/
theorem getAverageGpa_contract (students : List Student) (hne : students ≠ [])
    (hlen : students.length ≤ 2 ^ 20) (hgpa : ∀ s ∈ students, OrdinaryGpa s) :
    getAverageGpa [] = Dbl.finite 0 ∧
    Dbl.div (totalGpa []) (Dbl.ofNat ([] : List Student).length) = Dbl.nan ∧
    getAverageGpa students = Dbl.div (totalGpa students) (Dbl.ofNat students.length) ∧
    (getAverageGpa students).isFinite = true ∧
    |(getAverageGpa students).toRat - exactTotal students / students.length| ≤
      ((1 + 1 / 2 ^ 53) ^ (students.length + 1) - 1) *
        (absTotal students / students.length + 1 / 2 ^ 1022) ∧
    getAverageGpa [demo1, demo2, demo3] =
      Dbl.finite (8481779298214433 / 2251799813685248) ∧
    (3.76665 : ℚ) ≤ 8481779298214433 / 2251799813685248 ∧
    (8481779298214433 / 2251799813685248 : ℚ) < 3.76675 := by
  have hemp : students.isEmpty = false := by simpa using hne
  have herr := getAverageGpa_error students hne hlen hgpa
  refine ⟨by decide!, by decide!, ?_, herr.1, herr.2, by decide!, by norm_num, by norm_num⟩
  simp only [getAverageGpa, hemp, Bool.false_eq_true, if_false]

/-- Witness of C13: the three demo records. -/
theorem getAverageGpa_contract_witness :
    [demo1, demo2, demo3] ≠ [] ∧ [demo1, demo2, demo3].length ≤ 2 ^ 20 ∧
    (∀ s ∈ [demo1, demo2, demo3], OrdinaryGpa s) ∧
    (getAverageGpa [demo1, demo2, demo3]).isFinite = true ∧
    |(getAverageGpa [demo1, demo2, demo3]).toRat -
        exactTotal [demo1, demo2, demo3] / [demo1, demo2, demo3].length| ≤
      ((1 + 1 / 2 ^ 53) ^ ([demo1, demo2, demo3].length + 1) - 1) *
        (absTotal [demo1, demo2, demo3] / [demo1, demo2, demo3].length + 1 / 2 ^ 1022) :=
  have hg : ∀ s ∈ [demo1, demo2, demo3], OrdinaryGpa s := by decide!
  have h := getAverageGpa_contract [demo1, demo2, demo3] (by simp) (by decide) hg
  ⟨by simp, by decide, hg, h.2.2.2.1, h.2.2.2.2.1⟩

/-- C13 (counterexample): the doubles nearest to 3.8, 3.9 and 3.6 have the sum
`25445337894643302 / 2 ^ 51`, whose third is the double
`8481779298214434 / 2 ^ 51`; `getAverageGpa` returns the next double below
it. -/
theorem getAverageGpa_not_exact :
    exactTotal [demo1, demo2, demo3] / [demo1, demo2, demo3].length =
      8481779298214434 / 2251799813685248 ∧
    Dbl.round (8481779298214434 / 2251799813685248) =
      Dbl.finite (8481779298214434 / 2251799813685248) ∧
    getAverageGpa [demo1, demo2, demo3] =
      Dbl.finite (8481779298214433 / 2251799813685248) ∧
    (getAverageGpa [demo1, demo2, demo3]).toRat ≠
      exactTotal [demo1, demo2, demo3] / [demo1, demo2, demo3].length := by
  refine ⟨by decide!, by decide!, by decide!, by decide!⟩

/-! ## Claims on the three sorts -/

/-- On a range without NaN the comparator of `sortByGpa` is a strict weak
ordering. -/
theorem gpaComp_strictWeak (l : List Student) (hnan : ∀ s ∈ l, s.gpa.isNaN = false) :
    Stl.StrictWeakOrdering (fun a b : Student => Dbl.gt a.gpa b.gpa) l :=
  (Stl.keyComp_strictWeak (fun s : Student => OrderDual.toDual s.gpa.extended) l).congr
    (fun a ha b hb => Dbl.lt_eq_extended b.gpa a.gpa (hnan b hb) (hnan a ha))

/-- What the contract of `std::sort` gives for a comparator `a.key < b.key`. -/
theorem stdSort_key {K : Type} [LinearOrder K] (key : Student → K) (stdSort : StdSort)
    (h : IsStdSort stdSort) (l : List Student) :
    ∃ r, stdSort (fun a b => decide (key a < key b)) l = some r ∧ r.Perm l ∧
      r.Pairwise (fun a b => key a ≤ key b) := by
  obtain ⟨r, hr, hp, hs⟩ := h _ l (Stl.keyComp_strictWeak key l)
  refine ⟨r, hr, hp, List.Pairwise.imp ?_ hs⟩
  intro a b hab
  simpa using hab

/-- What the contract of `std::sort` gives for `sortByGpa` on a collection
without NaN. -/
theorem sortByGpa_contract (stdSort : StdSort) (h : IsStdSort stdSort) (l : List Student)
    (hnan : ∀ s ∈ l, s.gpa.isNaN = false) :
    ∃ r, sortByGpa stdSort l = some r ∧ r.Perm l ∧
      r.Pairwise (fun a b => Dbl.ge a.gpa b.gpa = true) := by
  obtain ⟨r, hr, hp, hs⟩ := h _ l (gpaComp_strictWeak l hnan)
  refine ⟨r, hr, hp, List.Pairwise.imp_of_mem ?_ hs⟩
  intro a b ha hb hab
  have hna := hnan a (hp.subset ha)
  have hnb := hnan b (hp.subset hb)
  simp only [Dbl.gt] at hab
  simp only [Dbl.ge, Dbl.le_eq_not_lt _ _ hnb hna, hab, Bool.not_false]

/-- The `std::sort` of libstdc++ meets the contract of `std::sort`. -/
theorem isStdSort_sort : IsStdSort Stl.sort :=
  fun comp l h => Stl.sort_spec comp l h

/-- On a collection of at most 16 records without NaN, `sortByGpa` with the
`std::sort` of libstdc++ keeps records of equal gpa in their order. -/
theorem sortByGpa_short (l : List Student) (hlen : l.length ≤ 16)
    (hnan : ∀ s ∈ l, s.gpa.isNaN = false) :
    ∃ r, sortByGpa Stl.sort l = some r ∧ r.Perm l ∧
      r.Pairwise (fun a b => Dbl.ge a.gpa b.gpa = true) ∧
      ∀ e ∈ l, r.filter (fun s => Dbl.eq s.gpa e.gpa) =
        l.filter (fun s => Dbl.eq s.gpa e.gpa) := by
  obtain ⟨r, hr, hp, hs, hst⟩ := Stl.insertionSort_spec _ l (gpaComp_strictWeak l hnan)
  have heq : ∀ e ∈ l, ∀ s ∈ l, Dbl.eq s.gpa e.gpa =
      Stl.equivalent (fun a b : Student => Dbl.gt a.gpa b.gpa) e s := by
    intro e he s hs
    simp only [Dbl.eq, Stl.equivalent, Dbl.gt, Dbl.le_eq_not_lt _ _ (hnan s hs) (hnan e he),
      Dbl.le_eq_not_lt _ _ (hnan e he) (hnan s hs)]
    rw [Bool.and_comm]
  refine ⟨r, ?_, hp, ?_, ?_⟩
  · rw [sortByGpa, Stl.sort_short _ l hlen]
    exact hr
  · refine List.Pairwise.imp_of_mem ?_ hs
    intro a b ha hb hab
    have hna := hnan a (hp.subset ha)
    have hnb := hnan b (hp.subset hb)
    simp only [Dbl.gt] at hab
    simp only [Dbl.ge, Dbl.le_eq_not_lt _ _ hnb hna, hab, Bool.not_false]
  · intro e he
    rw [List.filter_congr (fun s hs => heq e he s (hp.subset hs)),
      List.filter_congr (fun s hs => heq e he s hs)]
    exact hst e he

/-- C10 (as amended): on every collection in which no gpa is a NaN, `sortByGpa`
leaves a permutation of the collection in non-increasing gpa order, for every
sort that meets the contract of `std::sort`, as the `std::sort` of libstdc++
does; with the `std::sort` of libstdc++
a collection of at most 16 such records keeps records of equal gpa in their
prior order, and `[(id=1,gpa=3.6),(id=2,gpa=3.9),(id=3,gpa=3.6)]` becomes
`[(id=2,gpa=3.9),(id=1,gpa=3.6),(id=3,gpa=3.6)]`. -/
theorem sortByGpa_sorted (stdSort : StdSort) (hsort : IsStdSort stdSort)
    (students : List Student) (hnan : ∀ s ∈ students, s.gpa.isNaN = false) :
    (∃ r, sortByGpa stdSort students = some r ∧ r.Perm students ∧
      r.Pairwise (fun a b => Dbl.ge a.gpa b.gpa = true)) ∧
    (students.length ≤ 16 →
      ∃ r, sortByGpa Stl.sort students = some r ∧ r.Perm students ∧
        r.Pairwise (fun a b => Dbl.ge a.gpa b.gpa = true) ∧
        ∀ e ∈ students, r.filter (fun s => Dbl.eq s.gpa e.gpa) =
          students.filter (fun s => Dbl.eq s.gpa e.gpa)) ∧
    sortByGpa Stl.sort [tie1, top2, tie3] = some [top2, tie1, tie3] :=
  ⟨sortByGpa_contract stdSort hsort students hnan,
    fun hlen => sortByGpa_short students hlen hnan, by decide!⟩

/-- Witness of C10: the `std::sort` of libstdc++ meets the contract; the three
demo records. -/
theorem sortByGpa_sorted_witness :
    IsStdSort Stl.sort ∧ (∀ s ∈ [demo1, demo2, demo3], s.gpa.isNaN = false) ∧
    [demo1, demo2, demo3].length ≤ 16 ∧
    sortByGpa Stl.sort [demo1, demo2, demo3] = some [demo2, demo1, demo3] ∧
    (∃ r, sortByGpa Stl.sort [demo1, demo2, demo3] = some r ∧ r.Perm [demo1, demo2, demo3] ∧
      r.Pairwise (fun a b => Dbl.ge a.gpa b.gpa = true)) ∧
    ∃ r, sortByGpa Stl.sort [demo1, demo2, demo3] = some r ∧ r.Perm [demo1, demo2, demo3] ∧
      r.Pairwise (fun a b => Dbl.ge a.gpa b.gpa = true) ∧
      ∀ e ∈ [demo1, demo2, demo3], r.filter (fun s => Dbl.eq s.gpa e.gpa) =
        [demo1, demo2, demo3].filter (fun s => Dbl.eq s.gpa e.gpa) :=
  have hnan : ∀ s ∈ [demo1, demo2, demo3], s.gpa.isNaN = false := by decide!
  have h := sortByGpa_sorted Stl.sort isStdSort_sort [demo1, demo2, demo3] hnan
  ⟨isStdSort_sort, hnan, by decide, by decide!, h.1, h.2.1 (by decide)⟩

/-- C10 (counterexample): on the 17 records with the identifiers 1 to 17, of
which the second has gpa 3.9 and all others gpa 3.6, `sortByGpa` with the
`std::sort` of libstdc++ puts the record with identifier 17 before the record
with identifier 1, and the records with identifiers 16 down to 3 after it:
records of equal gpa do not keep their prior order. -/
theorem sortByGpa_not_stable :
    sortByGpa Stl.sort seventeenRecords =
      some [top2, tieRecord 17, tie1, tieRecord 16, tieRecord 15, tieRecord 14, tieRecord 13,
        tieRecord 12, tieRecord 11, tieRecord 10, tieRecord 9, tieRecord 8, tieRecord 7,
        tieRecord 6, tieRecord 5, tieRecord 4, tie3] ∧
    (∀ s ∈ seventeenRecords, s.gpa.isNaN = false) ∧
    Dbl.eq (tieRecord 17).gpa tie1.gpa = true ∧
    ∀ r, sortByGpa Stl.sort seventeenRecords = some r →
      r.filter (fun s => Dbl.eq s.gpa tie1.gpa) ≠
        seventeenRecords.filter (fun s => Dbl.eq s.gpa tie1.gpa) := by
  have h : sortByGpa Stl.sort seventeenRecords =
      some [top2, tieRecord 17, tie1, tieRecord 16, tieRecord 15, tieRecord 14, tieRecord 13,
        tieRecord 12, tieRecord 11, tieRecord 10, tieRecord 9, tieRecord 8, tieRecord 7,
        tieRecord 6, tieRecord 5, tieRecord 4, tie3] := by decide!
  refine ⟨h, by decide!, by decide!, ?_⟩
  intro r hr
  rw [h] at hr
  cases hr
  decide!

/-- C11 (as amended): for every sort meeting the contract of `std::sort` and
every collection, `sortById` and `sortByName` each leave a permutation of the
collection, ordered by non-decreasing identifier and by non-decreasing name in
lexicographic order; so does `sortByGpa`, in non-increasing gpa order, when no
gpa of the collection is a NaN. -/
theorem sorts_permute_and_order (stdSort : StdSort) (hsort : IsStdSort stdSort)
    (students : List Student) :
    (∃ r, sortById stdSort students = some r ∧ r.Perm students ∧
      r.Pairwise (fun a b => a.id ≤ b.id)) ∧
    (∃ r, sortByName stdSort students = some r ∧ r.Perm students ∧
      r.Pairwise (fun a b => a.name ≤ b.name)) ∧
    ((∀ s ∈ students, s.gpa.isNaN = false) →
      ∃ r, sortByGpa stdSort students = some r ∧ r.Perm students ∧
        r.Pairwise (fun a b => Dbl.ge a.gpa b.gpa = true)) :=
  ⟨stdSort_key (fun s => s.id) stdSort hsort students,
    stdSort_key (fun s => s.name) stdSort hsort students,
    sortByGpa_contract stdSort hsort students⟩

/-- Witness of C11: the `std::sort` of libstdc++ meets the contract; the demo
records in the order 3, 1, 2. -/
theorem sorts_permute_and_order_witness :
    IsStdSort Stl.sort ∧
    (∃ r, sortById Stl.sort [demo3, demo1, demo2] = some r ∧
      r.Perm [demo3, demo1, demo2] ∧ r.Pairwise (fun a b => a.id ≤ b.id)) ∧
    (∃ r, sortByName Stl.sort [demo3, demo1, demo2] = some r ∧
      r.Perm [demo3, demo1, demo2] ∧ r.Pairwise (fun a b => a.name ≤ b.name)) ∧
    (∀ s ∈ [demo3, demo1, demo2], s.gpa.isNaN = false) ∧
    (∃ r, sortByGpa Stl.sort [demo3, demo1, demo2] = some r ∧
      r.Perm [demo3, demo1, demo2] ∧ r.Pairwise (fun a b => Dbl.ge a.gpa b.gpa = true)) ∧
    sortById Stl.sort [demo3, demo1, demo2] = some [demo1, demo2, demo3] ∧
    sortByName Stl.sort [demo3, demo1, demo2] = some [demo1, demo2, demo3] ∧
    sortByGpa Stl.sort [demo3, demo1, demo2] = some [demo2, demo1, demo3] :=
  have h := sorts_permute_and_order Stl.sort isStdSort_sort [demo3, demo1, demo2]
  have hnan : ∀ s ∈ [demo3, demo1, demo2], s.gpa.isNaN = false := by decide!
  ⟨isStdSort_sort, h.1, h.2.1, hnan, h.2.2 hnan, by decide!, by decide!, by decide!⟩

/-- C11 (counterexample): the file `fileWithNaN` loads as four records with
the gpa values 3.9, 3.6, NaN and 3.8; `sortByGpa` with the `std::sort` of
libstdc++ leaves them in this order, in which the gpa 3.6 of the second record
is less than the gpa 3.8 of the fourth: the result is not in non-increasing
gpa order. -/
theorem sortByGpa_nan_unordered :
    loadFromFile CLocale.conv [] (some fileWithNaN) = (true, recordsWithNaN, []) ∧
    sortByGpa Stl.sort recordsWithNaN = some recordsWithNaN ∧
    recordsWithNaN[1]? = some (gpaRecord 2 3.6) ∧
    recordsWithNaN[3]? = some (gpaRecord 4 3.8) ∧
    Dbl.lt (gpaRecord 2 3.6).gpa (gpaRecord 4 3.8).gpa = true ∧
    ¬ recordsWithNaN.Pairwise (fun a b => Dbl.ge a.gpa b.gpa = true) ∧
    ¬ recordsWithNaN.Pairwise (fun a b => Dbl.lt a.gpa b.gpa = false) := by
  refine ⟨by decide!, by decide!, by decide!, by decide!, by decide!, by decide!, by decide!⟩

/-- On a collection with pairwise distinct identifiers the result of `sortById`
has strictly increasing identifiers. -/
theorem sortById_strict (stdSort : StdSort) (h : IsStdSort stdSort) (l : List Student)
    (hnd : (l.map (fun s => s.id)).Nodup) :
    ∃ r, sortById stdSort l = some r ∧ r.Perm l ∧ r.Pairwise (fun a b => a.id < b.id) := by
  obtain ⟨r, hr, hp, hs⟩ := stdSort_key (fun s => s.id) stdSort h l
  have hnd2 : (r.map (fun s => s.id)).Nodup := (hp.map (fun s => s.id)).nodup_iff.2 hnd
  have hne : r.Pairwise (fun a b => a.id ≠ b.id) := by
    simpa [List.Nodup, List.pairwise_map] using hnd2
  exact ⟨r, hr, hp, (List.Pairwise.and hs hne).imp (fun hab => lt_of_le_of_ne hab.1 hab.2)⟩

/-- Two collections with the same records and pairwise distinct identifiers are
sorted by `sortById` to the same sequence. -/
theorem sortById_perm_eq (stdSort : StdSort) (h : IsStdSort stdSort) (l₁ l₂ r : List Student)
    (hnd : (l₂.map (fun s => s.id)).Nodup) (hperm : l₁.Perm l₂)
    (hr : sortById stdSort l₂ = some r) : sortById stdSort l₁ = some r := by
  have hnd₁ : (l₁.map (fun s => s.id)).Nodup := (hperm.map (fun s => s.id)).nodup_iff.2 hnd
  obtain ⟨r₁, hr₁, hp₁, hs₁⟩ := sortById_strict stdSort h l₁ hnd₁
  obtain ⟨r₂, hr₂, hp₂, hs₂⟩ := sortById_strict stdSort h l₂ hnd
  rw [hr] at hr₂
  cases hr₂
  haveI : IsAntisymm Student (fun a b => a.id < b.id) :=
    ⟨fun a b h1 h2 => absurd h1 (not_lt_of_lt h2)⟩
  rw [hr₁, List.eq_of_perm_of_sorted ((hp₁.trans hperm).trans hp₂.symm) hs₁ hs₂]

/-- C20: for every sort meeting the contract of `std::sort` and every
collection with pairwise distinct identifiers, the result of `sortById` is a
permutation of the collection with strictly increasing identifiers; a
collection that is a permutation of it is sorted to the identical sequence, in
particular the result of `sortByName` and, when no gpa is a NaN, the result of
`sortByGpa`; and sorting the result again changes nothing. -/
theorem sortById_canonical (stdSort : StdSort) (hsort : IsStdSort stdSort)
    (students other : List Student) (hnd : (students.map (fun s => s.id)).Nodup)
    (hperm : other.Perm students) :
    ∃ r, sortById stdSort students = some r ∧ r.Perm students ∧
      r.Pairwise (fun a b => a.id < b.id) ∧
      sortById stdSort other = some r ∧
      (∃ byName, sortByName stdSort students = some byName ∧
        sortById stdSort byName = some r) ∧
      ((∀ s ∈ students, s.gpa.isNaN = false) →
        ∃ byGpa, sortByGpa stdSort students = some byGpa ∧
          sortById stdSort byGpa = some r) ∧
      sortById stdSort r = some r := by
  obtain ⟨r, hr, hp, hs⟩ := sortById_strict stdSort hsort students hnd
  refine ⟨r, hr, hp, hs, sortById_perm_eq stdSort hsort other students r hnd hperm hr, ?_, ?_,
    sortById_perm_eq stdSort hsort r students r hnd hp hr⟩
  · obtain ⟨byName, hn, hpn, _⟩ := stdSort_key (fun s => s.name) stdSort hsort students
    exact ⟨byName, hn, sortById_perm_eq stdSort hsort byName students r hnd hpn hr⟩
  · intro hnan
    obtain ⟨byGpa, hg, hpg, _⟩ := sortByGpa_contract stdSort hsort students hnan
    exact ⟨byGpa, hg, sortById_perm_eq stdSort hsort byGpa students r hnd hpg hr⟩

/-- Witness of C20: the `std::sort` of libstdc++ meets the contract; the demo
records in two different orders. -/
theorem sortById_canonical_witness :
    IsStdSort Stl.sort ∧
    ([demo3, demo1, demo2].map (fun s => s.id)).Nodup ∧
    [demo2, demo3, demo1].Perm [demo3, demo1, demo2] ∧
    sortById Stl.sort [demo3, demo1, demo2] = some [demo1, demo2, demo3] ∧
    sortById Stl.sort [demo2, demo3, demo1] = some [demo1, demo2, demo3] ∧
    ∃ r, sortById Stl.sort [demo3, demo1, demo2] = some r ∧
      r.Perm [demo3, demo1, demo2] ∧ r.Pairwise (fun a b => a.id < b.id) ∧
      sortById Stl.sort [demo2, demo3, demo1] = some r ∧
      sortById Stl.sort r = some r :=
  have hnd : ([demo3, demo1, demo2].map (fun s => s.id)).Nodup := by decide
  have hperm : [demo2, demo3, demo1].Perm [demo3, demo1, demo2] := by decide!
  have h := sortById_canonical Stl.sort isStdSort_sort [demo3, demo1, demo2]
    [demo2, demo3, demo1] hnd hperm
  ⟨isStdSort_sort, hnd, hperm, by decide!, by decide!,
    h.imp (fun _ hr => ⟨hr.1, hr.2.1, hr.2.2.1, hr.2.2.2.1, hr.2.2.2.2.2.2⟩)⟩

end StudentManager
